import Mathlib

/-! # Retry policies of `common/backoff/retrypolicy.go`

A shallow embedding of `ExponentialRetryPolicy.ComputeNextDelay` and of the
arithmetic it runs on.

* `time.Duration` and `int` are 64-bit signed integers, embedded as `Int`
  (`wrap64` where the source subtracts two of them).
* `float64` is embedded exactly, as the IEEE-754 binary64 values
  (`Backoff.F64`): a finite value is a sign, a 53-bit mantissa and an
  exponent, and every operation rounds to nearest, ties to even.
* A conversion from `float64` to an integer type of a value the integer type
  cannot hold is implementation-dependent in Go; it is embedded as on amd64,
  where the conversion instruction yields `-2^63`.
* `x*y + z` is evaluated with two roundings, the product first: the amd64
  compiler does not fuse the two operations.
* `rand.Intn(n)` is embedded with the outcome of the random source as an
  explicit argument `draw`: it panics for `n ≤ 0` and returns `draw % n`
  otherwise, so that every value of `[0, n)` is a possible outcome. A
  multi-phase policy has one such outcome for each of its phases.
* `clock.TimeSource` is not part of the package: what `clock.Now()` returns at
  a call is an explicit argument `now`, an instant counted in nanoseconds. For
  the call that `NewRetrier` makes, `TimeSource.Now` also holds the case of a
  call that panics.
* The arguments of `NewMultiPhasesRetryPolicy` are pointers: the constructor
  is embedded once on phases that are not nil (`NewMultiPhasesRetryPolicy`)
  and once on phases of which any may be nil (`NewMultiPhasesRetryPolicyPtr`).
-/

namespace Backoff

/-! ## binary64 -/

/-- A `float64`: not-a-number, an infinity, or the finite value
`(-1)^neg * m * 2^e`. The values the operations produce are canonical
(`F64.Canon`): `m < 2^53`, `-1074 ≤ e ≤ 971`, and `e = -1074` when
`m < 2^52`. -/
inductive F64 where
  | nan : F64
  | inf (neg : Bool) : F64
  | fin (neg : Bool) (m : Nat) (e : Int) : F64
deriving DecidableEq

namespace F64

/-- Number of binary digits of `n`, counted with explicit fuel. -/
def bitLenAux : Nat → Nat → Nat
  | 0, _ => 0
  | fuel + 1, n => if n = 0 then 0 else bitLenAux fuel (n / 2) + 1

/-- Number of binary digits of `n` (`0` for `0`). -/
def bitLen (n : Nat) : Nat := bitLenAux n n

/-- The integer nearest to `a / b`, ties to the even one. -/
def rneDiv (a b : Nat) : Nat :=
  if 2 * (a % b) < b then a / b
  else if b < 2 * (a % b) then a / b + 1
  else if (a / b) % 2 = 0 then a / b else a / b + 1

/-- Exponent of the last mantissa bit of the binary64 nearest to `m * 2^e`. -/
def expOf (m : Nat) (e : Int) : Int := max (e + (bitLen m : Int) - 53) (-1074)

/-- Mantissa of `m * 2^e` rounded at exponent `expOf m e`. -/
def mantOf (m : Nat) (e : Int) : Nat :=
  rneDiv (m * 2 ^ (e - expOf m e).toNat) (2 ^ (expOf m e - e).toNat)

/-- Canonical value for mantissa `mant ≤ 2^53` at exponent `E`; overflow gives
an infinity. -/
def pack (neg : Bool) (mant : Nat) (E : Int) : F64 :=
  if mant = 0 then fin neg 0 (-1074)
  else if mant = 2 ^ 53 then
    (if E + 1 > 971 then inf neg else fin neg (2 ^ 52) (E + 1))
  else if E > 971 then inf neg else fin neg mant E

/-- The binary64 nearest to `(-1)^neg * m * 2^e` (round to nearest, ties to
even). -/
def roundNE (neg : Bool) (m : Nat) (e : Int) : F64 :=
  pack neg (mantOf m e) (expOf m e)

/-- The constant `0`. -/
def zero : F64 := fin false 0 (-1074)

/-- The constant `1`. -/
def one : F64 := fin false (2 ^ 52) (-52)

/-- The constant `.5`. -/
def half : F64 := fin false (2 ^ 52) (-53)

/-- The constant `0.8` as a `float64`: `0x3FE999999999999A`. -/
def c08 : F64 := fin false 7205759403792794 (-53)

/-- The constant `0.2` as a `float64`: `0x3FC999999999999A`. -/
def c02 : F64 := fin false 7205759403792794 (-55)

/-- Conversion `float64(i)` of an integer. -/
def ofInt (i : Int) : F64 := roundNE (decide (i < 0)) i.natAbs 0

/-- A finite value scaled to exponent `g ≤ e`, as a signed integer. -/
def scaled (neg : Bool) (m : Nat) (e g : Int) : Int :=
  if neg then -((m * 2 ^ (e - g).toNat : Nat) : Int) else ((m * 2 ^ (e - g).toNat : Nat) : Int)

/-- Go's `x < y`. -/
def lt : F64 → F64 → Bool
  | nan, _ => false
  | _, nan => false
  | inf a, inf b => a && !b
  | inf a, fin _ _ _ => a
  | fin _ _ _, inf b => !b
  | fin s1 m1 e1, fin s2 m2 e2 =>
    decide (scaled s1 m1 e1 (min e1 e2) < scaled s2 m2 e2 (min e1 e2))

/-- Go's `x == y`. -/
def eq : F64 → F64 → Bool
  | nan, _ => false
  | _, nan => false
  | inf a, inf b => a == b
  | inf _, fin _ _ _ => false
  | fin _ _ _, inf _ => false
  | fin s1 m1 e1, fin s2 m2 e2 =>
    decide (scaled s1 m1 e1 (min e1 e2) = scaled s2 m2 e2 (min e1 e2))

/-- Go's `x <= y`. -/
def le (x y : F64) : Bool := lt x y || eq x y

/-- Go's `math.IsNaN`. -/
def isNaN : F64 → Bool
  | nan => true
  | _ => false

/-- Go's `math.Signbit`. -/
def signbit : F64 → Bool
  | nan => false
  | inf s => s
  | fin s _ _ => s

/-- Go's `x * y`. -/
def mul : F64 → F64 → F64
  | nan, _ => nan
  | _, nan => nan
  | inf a, inf b => inf (xor a b)
  | inf a, fin s m _ => if m = 0 then nan else inf (xor a s)
  | fin s m _, inf b => if m = 0 then nan else inf (xor s b)
  | fin s1 m1 e1, fin s2 m2 e2 => roundNE (xor s1 s2) (m1 * m2) (e1 + e2)

/-- Go's `x + y`. -/
def add : F64 → F64 → F64
  | nan, _ => nan
  | _, nan => nan
  | inf a, inf b => if a = b then inf a else nan
  | inf a, fin _ _ _ => inf a
  | fin _ _ _, inf b => inf b
  | fin s1 m1 e1, fin s2 m2 e2 =>
    let t := scaled s1 m1 e1 (min e1 e2) + scaled s2 m2 e2 (min e1 e2)
    if t = 0 then fin (s1 && s2) 0 (-1074)
    else roundNE (decide (t < 0)) t.natAbs (min e1 e2)

/-- Go's `x / y`: the quotient is computed with 64 extra bits and a sticky
bit, then rounded. -/
def div : F64 → F64 → F64
  | nan, _ => nan
  | _, nan => nan
  | inf _, inf _ => nan
  | inf a, fin s _ _ => inf (xor a s)
  | fin s _ _, inf b => fin (xor s b) 0 (-1074)
  | fin s1 m1 e1, fin s2 m2 e2 =>
    if m2 = 0 then (if m1 = 0 then nan else inf (xor s1 s2))
    else
      let k := bitLen m2 + 64
      let q := (m1 * 2 ^ k) / m2
      let sticky := if (m1 * 2 ^ k) % m2 = 0 then 0 else 1
      roundNE (xor s1 s2) (2 * q + sticky) (e1 - e2 - (k : Int) - 1)

/-- The integer part of a finite value, rounded toward zero (`0` for the
others). -/
def truncInt : F64 → Int
  | nan => 0
  | inf _ => 0
  | fin s m e =>
    let t : Nat := if 0 ≤ e then m * 2 ^ e.toNat else m / 2 ^ (-e).toNat
    if s then -(t : Int) else (t : Int)

/-- Conversion `int64(x)` (also `int(x)` and `time.Duration(x)`): truncation
toward zero; a value outside the range of `int64`, an infinity and a NaN give
`-2^63`, as the amd64 conversion instruction does. -/
def toInt64 : F64 → Int
  | nan => -2 ^ 63
  | inf _ => -2 ^ 63
  | fin s m e =>
    if -2 ^ 63 ≤ truncInt (fin s m e) ∧ truncInt (fin s m e) < 2 ^ 63 then truncInt (fin s m e)
    else -2 ^ 63

/-- Go's `math.Min`. -/
def min (x y : F64) : F64 :=
  if x = inf true ∨ y = inf true then inf true
  else if isNaN x || isNaN y then nan
  else if eq x zero && eq x y then (if signbit x then x else y)
  else if lt x y then x else y

/-- Go's `math.Max`. -/
def max (x y : F64) : F64 :=
  if x = inf false ∨ y = inf false then inf false
  else if isNaN x || isNaN y then nan
  else if eq x zero && eq x y then (if signbit x then y else x)
  else if lt y x then x else y

/-- Go's `math.Abs`. -/
def abs : F64 → F64
  | nan => nan
  | inf _ => inf false
  | fin _ m e => fin false m e

/-- Go's `math.Frexp` of a finite non-zero value: the fraction in `[1/2, 1)`
(with the sign of the value) and the power of two. -/
def frexp : F64 → F64 × Int
  | fin s m e => if m = 0 then (fin s m e, 0) else (roundNE s m (-(bitLen m : Int)), e + bitLen m)
  | x => (x, 0)

/-- Go's `math.Ldexp(frac, exp)`: `frac * 2^exp`, rounded. -/
def ldexp : F64 → Int → F64
  | fin s m e, k => if m = 0 then fin s m e else roundNE s m (e + k)
  | x, _ => x

/-- The loop of `math.Pow` that multiplies the answer `a1 * 2^ae` by
`(x1 * 2^xe)^i`, by repeated squaring over the bits of `i`. -/
def powLoop : Nat → Nat → F64 → Int → F64 → Int → F64 × Int
  | 0, _, a1, ae, _, _ => (a1, ae)
  | fuel + 1, i, a1, ae, x1, xe =>
    if i = 0 then (a1, ae)
    else if xe < -4096 ∨ 4096 < xe then (a1, ae + xe)
    else
      let a1n := if i % 2 = 1 then mul a1 x1 else a1
      let aen := if i % 2 = 1 then ae + xe else ae
      let x2 := mul x1 x1
      if lt x2 half then powLoop fuel (i / 2) a1n aen (add x2 x2) (xe * 2 - 1)
      else powLoop fuel (i / 2) a1n aen x2 (xe * 2)

/-- Whether the `float64` value of the integer `n` is an odd integer (Go's
`isOddInt`). -/
def isOddInt (y : F64) : Bool := decide (truncInt y % 2 = 1) && lt (abs y) (fin false (2 ^ 52) 1)

/-- Go's `math.Pow(x, float64(n))`, the library function, for the
integer-valued exponents `ComputeNextDelay` passes: the special cases in the
order of the library, then repeated squaring on the fraction and exponent of
`x`, and a final `Ldexp`. -/
def pow (x : F64) (n : Int) : F64 :=
  let y := ofInt n
  if eq y zero || eq x one then one
  else if eq y one then x
  else if isNaN x then nan
  else if eq x zero then
    (if lt y zero then (if signbit x && isOddInt y then inf true else inf false)
     else (if signbit x && isOddInt y then x else zero))
  else if x = inf true then
    (if lt y zero then (if isOddInt y then fin true 0 (-1074) else zero)
     else (if isOddInt y then inf true else inf false))
  else if x = inf false then
    (if lt y zero then zero else inf false)
  else if le (fin false (2 ^ 52) 11) (abs y) then
    (if eq x (fin true (2 ^ 52) (-52)) then one
     else if (lt (abs x) one) = (lt zero y) then zero
     else inf false)
  else
    let r := powLoop 64 (truncInt (abs y)).toNat one 0 (frexp x).1 (frexp x).2
    if lt y zero then ldexp (div one r.1) (-r.2) else ldexp r.1 r.2

end F64

/-! ## The retry policy -/

/-- Go's `NoInterval`. -/
def NoInterval : Int := 0

/-- Go's `done`, the duration `-1`. -/
def done : Int := -1

/-- Go's `noMaximumAttempts`. -/
def noMaximumAttempts : Int := 0

/-- Go's `defaultMaximumInterval`, 10 s in nanoseconds. -/
def defaultMaximumInterval : Int := 10 * 1000000000

/-- Go's `defaultExpirationInterval`, one minute in nanoseconds. -/
def defaultExpirationInterval : Int := 60 * 1000000000

/-- Go's `defaultBackoffCoefficient`, `2.0`. -/
def defaultBackoffCoefficient : F64 := F64.fin false (2 ^ 52) (-51)

/-- Result of a 64-bit signed subtraction or addition: wrapped into
`[-2^63, 2^63)`. -/
def wrap64 (i : Int) : Int := (i + 2 ^ 63) % 2 ^ 64 - 2 ^ 63

/-- Go's `ExponentialRetryPolicy`. Durations are in nanoseconds. -/
structure ExponentialRetryPolicy where
  initialInterval : Int
  backoffCoefficient : F64
  maximumInterval : Int
  expirationInterval : Int
  maximumAttempts : Int
deriving DecidableEq

/-- Go's `NewExponentialRetryPolicy`. -/
def NewExponentialRetryPolicy (initialInterval : Int) : ExponentialRetryPolicy where
  initialInterval := initialInterval
  backoffCoefficient := defaultBackoffCoefficient
  maximumInterval := defaultMaximumInterval
  expirationInterval := defaultExpirationInterval
  maximumAttempts := noMaximumAttempts

/-- Go's `rand.Intn(n)` with the outcome of the random source made explicit:
`none` is the panic for `n ≤ 0`. -/
def randIntn (draw : Nat) (n : Int) : Option Int :=
  if n ≤ 0 then none else some ((draw : Int) % n)

/-- The bound `jitterPortion` that `ComputeNextDelay` passes to `rand.Intn`. -/
def jitterPortion (nextInterval : F64) : Int :=
  if F64.toInt64 (F64.mul F64.c02 nextInterval) < 1 then 1
  else F64.toInt64 (F64.mul F64.c02 nextInterval)

/-- The clamped interval of `ComputeNextDelay`: `nextInterval` after the
`maximumInterval` and the remaining-time clamps. -/
def clampInterval (p : ExponentialRetryPolicy) (elapsedTime : Int) (nextInterval : F64) : F64 :=
  let n1 := if p.maximumInterval ≠ NoInterval then
      F64.min nextInterval (F64.ofInt p.maximumInterval) else nextInterval
  if p.expirationInterval ≠ NoInterval then
    F64.min (F64.max F64.zero (F64.ofInt (wrap64 (p.expirationInterval - elapsedTime)))) n1
  else n1

/-- The jitter step of `ComputeNextDelay`: the returned duration for the
clamped interval `nextInterval`. -/
def addJitter (nextInterval : F64) (draw : Nat) : Option Int :=
  match randIntn draw (jitterPortion nextInterval) with
  | none => none
  | some r => some (F64.toInt64 (F64.add (F64.mul nextInterval F64.c08) (F64.ofInt r)))

/-- The interval `initialInterval * math.Pow(backoffCoefficient, numAttempts)`
that `ComputeNextDelay` starts from. -/
def rawInterval (p : ExponentialRetryPolicy) (numAttempts : Int) : F64 :=
  F64.mul (F64.ofInt p.initialInterval) (F64.pow p.backoffCoefficient numAttempts)

/-- Go's `ExponentialRetryPolicy.ComputeNextDelay`. `none` is a panic. -/
def ComputeNextDelay (p : ExponentialRetryPolicy) (elapsedTime numAttempts : Int)
    (draw : Nat) : Option Int :=
  if p.maximumAttempts ≠ noMaximumAttempts ∧ numAttempts ≥ p.maximumAttempts then some done
  else if p.expirationInterval ≠ NoInterval ∧ elapsedTime > p.expirationInterval then some done
  else if F64.le (rawInterval p numAttempts) F64.zero then some done
  else if F64.toInt64 (clampInterval p elapsedTime (rawInterval p numAttempts))
      < p.initialInterval then some done
  else addJitter (clampInterval p elapsedTime (rawInterval p numAttempts)) draw

/-! ## Specification vocabulary -/

namespace F64

/-- The integer `k` is nearest to `x`, ties to even. -/
def IsRNE (x : ℚ) (k : ℕ) : Prop :=
  (k : ℚ) - 1 / 2 ≤ x ∧ x ≤ k + 1 / 2 ∧ (x = k + 1 / 2 → k % 2 = 0) ∧ (x = k - 1 / 2 → k % 2 = 0)

/-- Rounded value of `m * 2^e`: what `roundNE` stores, as a rational. -/
def rv (m : Nat) (e : Int) : ℚ := (mantOf m e : ℚ) * 2 ^ expOf m e

/-- The rational value of a finite `float64` (`0` for the others). -/
def toRat : F64 → ℚ
  | fin s m e => if s then -((m : ℚ) * 2 ^ e) else (m : ℚ) * 2 ^ e
  | _ => 0

/-- The value is finite, has its sign bit clear, and equals `v`. -/
def IsVal (x : F64) (v : ℚ) : Prop := ∃ m e, x = fin false m e ∧ (m : ℚ) * 2 ^ e = v

/-- The non-negative rational `v` rounds to `w`. -/
def Rounds (v w : ℚ) : Prop := ∃ (m : ℕ) (e : ℤ), (m : ℚ) * 2 ^ e = v ∧ rv m e = w

/-- The rational `v` is a non-negative `float64` value. -/
def Repr53 (v : ℚ) : Prop := ∃ (n : ℕ) (g : ℤ), n < 2 ^ 53 ∧ -1074 ≤ g ∧ (n : ℚ) * 2 ^ g = v

/-- Mantissa and exponent are in the range of the format. -/
def Canon : F64 → Prop
  | fin _ m e => m < 2 ^ 53 ∧ -1074 ≤ e
  | _ => True

/-- The value is at most `c`: a NaN, `-Inf`, or a finite value `≤ c`. -/
def LeVal (x : F64) (c : ℚ) : Prop :=
  match x with
  | nan => True
  | inf s => s = true
  | fin s m e => toRat (fin s m e) ≤ c

/-- The value of the constant `0.8` as a `float64`. -/
def C8 : ℚ := 7205759403792794 * 2 ^ (-53 : ℤ)

/-- The value of the constant `0.2` as a `float64`. -/
def C2 : ℚ := 7205759403792794 * 2 ^ (-55 : ℤ)

end F64

/-! ## Multi-phase policies and the retrier -/

/-- Go's `MultiPhasesRetryPolicy`. The phases are the policies the slice
points to; a nil pointer is not a phase. -/
structure MultiPhasesRetryPolicy where
  policies : List ExponentialRetryPolicy
deriving DecidableEq

/-- Go's `NewMultiPhasesRetryPolicy`; `none` is the panic. The loop runs over
`i = 0, ..., len(policies) - 2`, no index at all for the empty list. -/
def NewMultiPhasesRetryPolicy (policies : List ExponentialRetryPolicy) :
    Option MultiPhasesRetryPolicy :=
  if (List.range (policies.length - 1)).any
      (fun i => decide ((policies.get? i).map ExponentialRetryPolicy.maximumAttempts
        = some noMaximumAttempts))
  then none
  else some ⟨policies⟩

/-- Go's `NewMultiPhasesRetryPolicy` on its arguments as they are passed:
pointers, of which any may be nil (`none`). The loop reads
`policies[i].maximumAttempts` for `i = 0, ..., len(policies) - 2`: at a nil
phase this is a nil dereference, at a phase without a bound the explicit
panic. The last phase is not read. `none` is the panic, of either kind, and
the policy returned holds the pointers as they were passed. -/
def NewMultiPhasesRetryPolicyPtr (policies : List (Option ExponentialRetryPolicy)) :
    Option (List (Option ExponentialRetryPolicy)) :=
  if (List.range (policies.length - 1)).any
      (fun i =>
        match policies.get? i with
        | some (some p) => decide (p.maximumAttempts = noMaximumAttempts)
        | some none => true
        | none => false)
  then none
  else some policies

/-- The loop of `MultiPhasesRetryPolicy.ComputeNextDelay` over the phases that
are left, with the running `previousStageRetryCount`. The outcome of the
random source for the call of the first of these phases is `draw 0`, for the
next one `draw 1`, and so on. -/
def phasesDelay : List ExponentialRetryPolicy → Int → Int → Int → (Nat → Nat) → Option Int
  | [], _, _, _, _ => some done
  | policy :: rest, elapsedTime, numAttempts, previousStageRetryCount, draw =>
    match ComputeNextDelay policy elapsedTime (wrap64 (numAttempts - previousStageRetryCount))
        (draw 0) with
    | none => none
    | some nextInterval =>
      if nextInterval ≠ done then some nextInterval
      else phasesDelay rest elapsedTime numAttempts
        (wrap64 (previousStageRetryCount + policy.maximumAttempts)) (fun i => draw (i + 1))

/-- Go's `MultiPhasesRetryPolicy.ComputeNextDelay`. `none` is a panic. -/
def MultiPhasesRetryPolicy.ComputeNextDelay (tp : MultiPhasesRetryPolicy)
    (elapsedTime numAttempts : Int) (draw : Nat → Nat) : Option Int :=
  phasesDelay tp.policies elapsedTime numAttempts 0 draw

/-- Go's interface `RetryPolicy`: a value with the method `ComputeNextDelay`.
The outcomes of the random source are the argument `draw`. -/
structure RetryPolicy where
  ComputeNextDelay : Int → Int → (Nat → Nat) → Option Int

/-- An `*ExponentialRetryPolicy` as a `RetryPolicy`. -/
def ExponentialRetryPolicy.toRetryPolicy (p : ExponentialRetryPolicy) : RetryPolicy where
  ComputeNextDelay elapsedTime numAttempts draw :=
    Backoff.ComputeNextDelay p elapsedTime numAttempts (draw 0)

/-- A `MultiPhasesRetryPolicy` as a `RetryPolicy`. -/
def MultiPhasesRetryPolicy.toRetryPolicy (tp : MultiPhasesRetryPolicy) : RetryPolicy where
  ComputeNextDelay := tp.ComputeNextDelay

/-- Go's `Time.Sub` on instants counted in nanoseconds: the difference,
or the largest (smallest) `Duration` when the difference is above (below) the
range of `int64`. -/
def timeSub (t u : Int) : Int :=
  if t - u > 2 ^ 63 - 1 then 2 ^ 63 - 1
  else if t - u < -2 ^ 63 then -2 ^ 63
  else t - u

/-- Go's `retrierImpl`. The interface `clock.TimeSource` is not part of this
package: a clock is a value of a type `C`, and what `clock.Now()` returns at a
call is an argument `now` of the operation that makes the call, an instant
counted in nanoseconds. -/
structure retrierImpl (C : Type) where
  policy : RetryPolicy
  clock : C
  currentAttempt : Int
  startTime : Int

/-- Go's `NewRetrier`; a nil `policy` or `clock` is `none`, and the result
`none` is the panic. -/
def NewRetrier {C : Type} (policy : Option RetryPolicy) (clock : Option C) (now : Int) :
    Option (retrierImpl C) :=
  match policy with
  | none => none
  | some policy =>
    match clock with
    | none => none
    | some clock => some { policy := policy, clock := clock, startTime := now,
                           currentAttempt := 0 }

/-- A clock of Go's `clock.TimeSource`, an interface of another package, at the
one call `clock.Now()` that `NewRetrier` makes: the instant that the call
returns, or `none` when the call panics, as it does for an implementation
whose `Now` reads through a nil pointer held in the interface value. -/
structure TimeSource where
  Now : Option Int

/-- Go's `NewRetrier` together with its call of `clock.Now()`: the two guards
come first, then the call in the composite literal. `none` is a panic, of a
guard or of the call. -/
def NewRetrierOfTimeSource (policy : Option RetryPolicy) (clock : Option TimeSource) :
    Option (retrierImpl TimeSource) :=
  match policy with
  | none => none
  | some policy =>
    match clock with
    | none => none
    | some clock =>
      match clock.Now with
      | none => none
      | some now => some { policy := policy, clock := clock, startTime := now,
                           currentAttempt := 0 }

/-- Go's `retrierImpl.getElapsedTime`. -/
def retrierImpl.getElapsedTime {C : Type} (r : retrierImpl C) (now : Int) : Int :=
  timeSub now r.startTime

/-- Go's `retrierImpl.Reset`. -/
def retrierImpl.Reset {C : Type} (r : retrierImpl C) (now : Int) : retrierImpl C :=
  { r with startTime := now, currentAttempt := 0 }

/-- Go's `retrierImpl.NextBackOff`: the returned interval and the retrier
after the call. `none` is a panic of the policy. -/
def retrierImpl.NextBackOff {C : Type} (r : retrierImpl C) (now : Int) (draw : Nat → Nat) :
    Option (Int × retrierImpl C) :=
  match r.policy.ComputeNextDelay (r.getElapsedTime now) r.currentAttempt draw with
  | none => none
  | some nextInterval =>
    some (nextInterval, { r with currentAttempt := wrap64 (r.currentAttempt + 1) })

/-- The retrier after a sequence of `NextBackOff` calls, one for each pair of a
clock reading and outcomes of the random source. -/
def retrierImpl.afterCalls {C : Type} (r : retrierImpl C) :
    List (Int × (Nat → Nat)) → Option (retrierImpl C)
  | [] => some r
  | (now, draw) :: calls =>
    match r.NextBackOff now draw with
    | none => none
    | some (_, r1) => retrierImpl.afterCalls r1 calls

end Backoff

/-! ## The weighted round-robin scheduler

The scheduler of package `task` (`weighted_round_robin_task_scheduler.go`, with
its channel pool) is not among the sources; only its test is. Its operations
are modelled from the specification, for one dispatcher worker and with the
calls of producers and the rounds of the worker as the steps of a sequential
state machine. -/

namespace Scheduler

/-- Modelled from the spec: the states `Initial`, `Running`, `Stopped` of the
scheduler state machine; the scheduler source is missing. -/
inductive State where
  | Initial
  | Running
  | Stopped
deriving DecidableEq

/-- Modelled from the spec: the errors the scheduler deals in, `SchedulerClosed`
(`ErrTaskSchedulerClosed` in the test) and the error of a processor, opaque to
the scheduler; their declarations are in the missing scheduler source. -/
inductive Error where
  | SchedulerClosed
  | ProcessorError
deriving DecidableEq

/-- Modelled from the spec: a `WeightedChannel` of the missing channel pool, a
bounded task channel of fixed capacity (`buffer` holds the buffered tasks, the
oldest first), a fixed weight, and a reference count. -/
structure WeightedChannel (T : Type) where
  buffer : List T
  capacity : Nat
  weight : Nat
  refCount : Nat
deriving DecidableEq

/-- Modelled from the spec: the lookup of the missing `ChannelPool`, a mapping
from keys to weighted channels; the pool is the list of its channels in the
order of their creation, the stable order in which a dispatcher visits them. -/
def getChannel {K T : Type} [DecidableEq K] :
    List (K × WeightedChannel T) → K → Option (WeightedChannel T)
  | [], _ => none
  | (k, ch) :: rest, key => if k = key then some ch else getChannel rest key

/-- Modelled from the spec: an operation on the channel of `key` in the
missing `ChannelPool`; the other channels are left as they are. -/
def modifyChannel {K T : Type} [DecidableEq K] :
    List (K × WeightedChannel T) → K → (WeightedChannel T → WeightedChannel T) →
      List (K × WeightedChannel T)
  | [], _, _ => []
  | (k, ch) :: rest, key, f =>
    if k = key then (k, f ch) :: rest else (k, ch) :: modifyChannel rest key f

/-- Modelled from the spec: `GetOrCreateChannel(key, weight)` of the missing
`ChannelPool`: the channel for `key`, created with capacity `QueueSize` and the
given weight if absent; the reference count is incremented, and for a channel
that exists the supplied weight is ignored. -/
def GetOrCreateChannel {K T : Type} [DecidableEq K] (pool : List (K × WeightedChannel T))
    (queueSize : Nat) (key : K) (weight : Nat) : List (K × WeightedChannel T) :=
  match getChannel pool key with
  | some _ => modifyChannel pool key (fun ch => { ch with refCount := ch.refCount + 1 })
  | none => pool ++ [(key, { buffer := [], capacity := queueSize, weight := weight,
                             refCount := 1 })]

/-- Modelled from the spec: the `releaseFn` that the missing
`GetOrCreateChannel` returns: it decrements the reference count once. -/
def releaseFn {K T : Type} [DecidableEq K] (pool : List (K × WeightedChannel T)) (key : K) :
    List (K × WeightedChannel T) :=
  modifyChannel pool key (fun ch => { ch with refCount := ch.refCount - 1 })

/-- Modelled from the spec: the construction parameters of the missing
scheduler, `QueueSize`, `DispatcherCount`, `TaskToChannelKeyFn` and
`ChannelKeyToWeightFn`. -/
structure WeightedRoundRobinTaskSchedulerOptions (K T : Type) where
  QueueSize : Nat
  DispatcherCount : Nat
  TaskToChannelKeyFn : T → K
  ChannelKeyToWeightFn : K → Nat

/-- Modelled from the spec: the missing scheduler, its options, the state of
its state machine and its channel pool. -/
structure weightedRoundRobinTaskSchedulerImpl (K T : Type) where
  options : WeightedRoundRobinTaskSchedulerOptions K T
  state : State
  pool : List (K × WeightedChannel T)

/-- Modelled from the spec: `Start` of the missing scheduler: `Initial` becomes
`Running`; in the other states it is a no-op. -/
def Start {K T : Type} (s : weightedRoundRobinTaskSchedulerImpl K T) :
    weightedRoundRobinTaskSchedulerImpl K T :=
  if s.state = State.Initial then { s with state := State.Running } else s

/-- Modelled from the spec: `Stop` of the missing scheduler: `Running` becomes
`Stopped`; in the other states it is a no-op. -/
def Stop {K T : Type} (s : weightedRoundRobinTaskSchedulerImpl K T) :
    weightedRoundRobinTaskSchedulerImpl K T :=
  if s.state = State.Running then { s with state := State.Stopped } else s

/-- Modelled from the spec: the non-blocking send of a task on the channel of
`key`, of the missing scheduler: `none` when the channel is full (or absent). -/
def trySend {K T : Type} [DecidableEq K] (pool : List (K × WeightedChannel T)) (key : K)
    (task : T) : Option (List (K × WeightedChannel T)) :=
  match getChannel pool key with
  | none => none
  | some ch =>
    if ch.buffer.length < ch.capacity then
      some (modifyChannel pool key (fun c => { c with buffer := c.buffer ++ [task] }))
    else none

/-- Modelled from the spec: `Submit(task)` of the missing scheduler, steps 1
to 6. The result is the returned error (`some none` for success), or `none`
when the channel is full: the call blocks, holding its reference, and does not
return as long as no dispatcher receives from the channel and the scheduler is
not stopped. -/
def Submit {K T : Type} [DecidableEq K] (s : weightedRoundRobinTaskSchedulerImpl K T)
    (task : T) :
    Option (Option Error) × weightedRoundRobinTaskSchedulerImpl K T :=
  if s.state = State.Stopped then (some (some Error.SchedulerClosed), s)
  else
    let k := s.options.TaskToChannelKeyFn task
    let w := s.options.ChannelKeyToWeightFn k
    let pool := GetOrCreateChannel s.pool s.options.QueueSize k w
    match trySend pool k task with
    | some sent => (some none, { s with pool := releaseFn sent k })
    | none => (none, { s with pool := pool })

/-- Modelled from the spec: `TrySubmit(task)` of the missing scheduler: the
steps of `Submit` with a non-blocking send; on a full channel it returns
`(false, nil)`. -/
def TrySubmit {K T : Type} [DecidableEq K] (s : weightedRoundRobinTaskSchedulerImpl K T)
    (task : T) :
    (Bool × Option Error) × weightedRoundRobinTaskSchedulerImpl K T :=
  if s.state = State.Stopped then ((false, some Error.SchedulerClosed), s)
  else
    let k := s.options.TaskToChannelKeyFn task
    let w := s.options.ChannelKeyToWeightFn k
    let pool := GetOrCreateChannel s.pool s.options.QueueSize k w
    match trySend pool k task with
    | some sent => ((true, none), { s with pool := releaseFn sent k })
    | none => ((false, none), { s with pool := releaseFn pool k })

/-- A sequence of `TrySubmit` calls: the results in order and the scheduler
after the last call. -/
def trySubmitAll {K T : Type} [DecidableEq K] (s : weightedRoundRobinTaskSchedulerImpl K T) :
    List T → List (Bool × Option Error) × weightedRoundRobinTaskSchedulerImpl K T
  | [] => ([], s)
  | task :: tasks =>
    ((TrySubmit s task).1 :: (trySubmitAll (TrySubmit s task).2 tasks).1,
      (trySubmitAll (TrySubmit s task).2 tasks).2)

/-- What the scheduler and the processor do to a task: the calls
`processor.Submit(task)`, `task.Nack()` and `task.Ack()`. -/
inductive Event (T : Type) where
  | ProcessorSubmit (task : T)
  | Nack (task : T)
  | Ack (task : T)
deriving DecidableEq

/-- Modelled from the spec: the handoff of a dequeued task to the processor,
of the missing dispatcher: `processor.Submit(task)` is called, and if it
returns an error the scheduler calls `task.Nack()`. The processor is the
function `processorSubmit` from a task to the error it returns. -/
def handoff {T : Type} (processorSubmit : T → Option Error) (task : T) : List (Event T) :=
  match processorSubmit task with
  | some _ => [Event.ProcessorSubmit task, Event.Nack task]
  | none => [Event.ProcessorSubmit task]

/-- Modelled from the spec: the visit of one channel in a round of the missing
dispatcher: up to `weight` tasks are received without blocking, each handed to
the processor as it is received. The result is the calls made and the tasks
left in the channel. -/
def dispatchChannel {T : Type} (processorSubmit : T → Option Error) :
    Nat → List T → List (Event T) × List T
  | 0, buffer => ([], buffer)
  | _ + 1, [] => ([], [])
  | weight + 1, task :: buffer =>
    (handoff processorSubmit task ++ (dispatchChannel processorSubmit weight buffer).1,
      (dispatchChannel processorSubmit weight buffer).2)

/-- Modelled from the spec: one round of the missing dispatcher, a visit of
every channel of the pool in stable order. -/
def round {K T : Type} (processorSubmit : T → Option Error) :
    List (K × WeightedChannel T) → List (Event T) × List (K × WeightedChannel T)
  | [] => ([], [])
  | (k, ch) :: rest =>
    ((dispatchChannel processorSubmit ch.weight ch.buffer).1 ++ (round processorSubmit rest).1,
      (k, { ch with buffer := (dispatchChannel processorSubmit ch.weight ch.buffer).2 })
        :: (round processorSubmit rest).2)

/-- Modelled from the spec: `r` complete rounds of one dispatcher worker of the
missing scheduler, with no submission in between. -/
def rounds {K T : Type} (processorSubmit : T → Option Error) :
    Nat → List (K × WeightedChannel T) → List (Event T) × List (K × WeightedChannel T)
  | 0, pool => ([], pool)
  | r + 1, pool =>
    ((round processorSubmit pool).1 ++ (rounds processorSubmit r (round processorSubmit pool).2).1,
      (rounds processorSubmit r (round processorSubmit pool).2).2)

/-- The numbers of tasks buffered in the channels of a pool, in the order of
the pool. -/
def remaining {K T : Type} (pool : List (K × WeightedChannel T)) : List Nat :=
  pool.map (fun kc => kc.2.buffer.length)

/-- The tasks buffered in the channel of `key`; none when there is no such
channel. -/
def buffered {K T : Type} [DecidableEq K] (pool : List (K × WeightedChannel T)) (key : K) :
    List T :=
  match getChannel pool key with
  | some ch => ch.buffer
  | none => []

end Scheduler

/-! ## Strings and numbers of the Go library

A Go string is embedded as the list of its bytes, a byte as a `Char`. Of the
packages `strconv` and `strings` the functions the sources call are embedded:
`Itoa` (also what `fmt` prints for an `int` under `%v`), `Atoi`, `HasPrefix`
and `LastIndex` for a separator of one byte. -/

namespace Strconv

/-- The decimal digit `d < 10` as a character. -/
def digitChar (d : Nat) : Char := Char.ofNat (48 + d)

/-- The decimal digits of `n` in front of `acc`, computed with explicit fuel. -/
def formatNatAux : Nat → Nat → List Char → List Char
  | 0, _, acc => acc
  | fuel + 1, n, acc =>
    if n < 10 then digitChar n :: acc
    else formatNatAux fuel (n / 10) (digitChar (n % 10) :: acc)

/-- The decimal numeral of `n`. -/
def formatNat (n : Nat) : List Char := formatNatAux (n + 1) n []

/-- Go's `strconv.Itoa`, also what `fmt` prints for an `int` under `%v`. -/
def Itoa (i : Int) : List Char :=
  if i < 0 then '-' :: formatNat i.natAbs else formatNat i.natAbs

/-- The value of a decimal digit; `none` for any other character. -/
def digitVal (c : Char) : Option Nat :=
  if 48 ≤ c.toNat ∧ c.toNat ≤ 57 then some (c.toNat - 48) else none

/-- The number read from a string of decimal digits, continuing from `acc`;
`none` when a character is not a digit. -/
def parseDigits : List Char → Nat → Option Nat
  | [], acc => some acc
  | c :: cs, acc =>
    match digitVal c with
    | none => none
    | some d => parseDigits cs (acc * 10 + d)

/-- Go's `strconv.Atoi` on a 64-bit platform (and `strconv.ParseInt(s, 10, 64)`):
an optional sign, then one or more decimal digits, the value within the range
of `int64`; `none` is the error. -/
def Atoi (s : List Char) : Option Int :=
  match s with
  | [] => none
  | c :: cs =>
    if c = '-' then
      (if cs = [] then none
       else match parseDigits cs 0 with
        | none => none
        | some n => if n ≤ 2 ^ 63 then some (-(n : Int)) else none)
    else if c = '+' then
      (if cs = [] then none
       else match parseDigits cs 0 with
        | none => none
        | some n => if n < 2 ^ 63 then some (n : Int) else none)
    else
      match parseDigits (c :: cs) 0 with
      | none => none
      | some n => if n < 2 ^ 63 then some (n : Int) else none

end Strconv

namespace Strings

/-- Go's `strings.HasPrefix`. -/
def HasPrefix (s pre : List Char) : Bool := pre.isPrefixOf s

/-- The index of the last `c` in `s` from position `i` on, or `best` when
there is none. -/
def lastIndexAux : List Char → Char → Nat → Int → Int
  | [], _, _, best => best
  | x :: xs, c, i, best => lastIndexAux xs c (i + 1) (if x = c then (i : Int) else best)

/-- Go's `strings.LastIndex(s, sep)` for a separator `sep` of the one byte `c`:
the index of the last `c` in `s`, or `-1`. -/
def LastIndex (s : List Char) (c : Char) : Int := lastIndexAux s c 0 (-1)

end Strings

/-! ## Task list names of `service/matching/tasklist/identifier.go`

A method with a pointer receiver that changes the receiver (`init`) returns
the receiver after the call next to its result. `int` is 64-bit. -/

namespace Tasklist

/-- Modelled from the spec: the constant `constants.ReservedTaskListPrefix`,
declared outside the sources; the comment of `newTaskListName` gives the form
`/__cadence_sys/[original-name]/[partitionID]` of the names that carry it. -/
def ReservedTaskListPrefix : List Char := "/__cadence_sys/".toList

/-- Go's `qualifiedTaskListName`. A string is the list of its bytes. -/
structure qualifiedTaskListName where
  name : List Char
  baseName : List Char
  partition : Int
deriving DecidableEq

/-- The error of `qualifiedTaskListName.init`,
`invalid partitioned task list name` followed by the name. -/
structure Error where
  name : List Char
deriving DecidableEq

/-- Go's `qualifiedTaskListName.IsRoot`. -/
def qualifiedTaskListName.IsRoot (tn : qualifiedTaskListName) : Bool :=
  decide (tn.partition = 0)

/-- Go's `qualifiedTaskListName.Partition`. -/
def qualifiedTaskListName.Partition (tn : qualifiedTaskListName) : Int := tn.partition

/-- Go's `qualifiedTaskListName.GetRoot`. -/
def qualifiedTaskListName.GetRoot (tn : qualifiedTaskListName) : List Char := tn.baseName

/-- Go's `qualifiedTaskListName.GetName`. -/
def qualifiedTaskListName.GetName (tn : qualifiedTaskListName) : List Char := tn.name

/-- Go's `qualifiedTaskListName.GetPartition`. -/
def qualifiedTaskListName.GetPartition (tn : qualifiedTaskListName) (partition : Int) :
    List Char :=
  if partition = 0 then tn.baseName
  else ReservedTaskListPrefix ++ tn.baseName ++ "/".toList ++ Strconv.Itoa partition

/-- Go's `qualifiedTaskListName.Parent`. The arithmetic is that of `int`:
64-bit, wrapping, the division truncated toward zero. -/
def qualifiedTaskListName.Parent (tn : qualifiedTaskListName) (degree : Int) : List Char :=
  if tn.IsRoot || decide (degree = 0) then []
  else
    tn.GetPartition (Backoff.wrap64 (Backoff.wrap64 (Int.tdiv
      (Backoff.wrap64 (Backoff.wrap64 (tn.partition + degree) - 1)) degree) - 1))

/-- Go's `qualifiedTaskListName.init`: the name after the call and the error
returned. -/
def qualifiedTaskListName.init (tn : qualifiedTaskListName) :
    qualifiedTaskListName × Option Error :=
  if ¬ Strings.HasPrefix tn.name ReservedTaskListPrefix then (tn, none)
  else if Strings.LastIndex tn.name '/' ≤ (ReservedTaskListPrefix.length : Int) then
    (tn, some ⟨tn.name⟩)
  else
    match Strconv.Atoi (tn.name.drop (Strings.LastIndex tn.name '/' + 1).toNat) with
    | none => (tn, some ⟨tn.name⟩)
    | some p =>
      if p ≤ 0 then (tn, some ⟨tn.name⟩)
      else
        ({ tn with
            partition := p
            baseName := (tn.name.take (Strings.LastIndex tn.name '/').toNat).drop
              ReservedTaskListPrefix.length },
          none)

/-- Go's `newTaskListName`: the name returned, the zero value with an error,
and the error. -/
def newTaskListName (name : List Char) : qualifiedTaskListName × Option Error :=
  match (qualifiedTaskListName.init { name := name, baseName := name, partition := 0 }).2 with
  | some err => ({ name := [], baseName := [], partition := 0 }, some err)
  | none => ((qualifiedTaskListName.init { name := name, baseName := name, partition := 0 }).1,
      none)

end Tasklist

/-! ## The archive query parser of `common/archiver/filestore/queryParser.go`

The functions that convert the `where` expression update a `*parsedQuery` in
place and return an error: they are embedded as functions from the query
before the call to the error and the query after it. -/

namespace Filestore

/-- Go's `parsedQuery`. A pointer field is an option, a string the list of its
bytes, and a close status (`types.WorkflowExecutionCloseStatus`) its integer. -/
structure parsedQuery where
  earliestCloseTime : Int
  latestCloseTime : Int
  workflowID : Option (List Char)
  runID : Option (List Char)
  workflowTypeName : Option (List Char)
  closeStatus : Option Int
  emptyResult : Bool
deriving DecidableEq

/-- The errors the parser returns, one for each message, with the text the
message is formatted with. -/
inductive Error where
  | whereExpressionIsNil
  | onlyComparisonAndAnd
  | invalidFilterName
  | invalidValue
  | notAStringValue (s : List Char)
  | onlyOperatorEq (filter : List Char)
  | unknownCloseStatus (s : List Char)
  | operatorNotSupportedForCloseTime (op : List Char)
  | unknownFilterName (s : List Char)
  | timeParse (s : List Char)
deriving DecidableEq

/-- The expressions of the library `sqlparser`, as far as the parser looks at
them. In a comparison `Left` is the string of the column name when the left
side is a `*sqlparser.ColName`, and `Right` the string of the value when the
right side is a `*sqlparser.SQLVal`; `Other` is an expression of any other
kind, `Nil` the nil expression. -/
inductive Expr where
  | ComparisonExpr (Left : Option (List Char)) (Operator : List Char)
      (Right : Option (List Char))
  | AndExpr (Left Right : Expr)
  | ParenExpr (Expr : Expr)
  | Other
  | Nil

/-- What the parser takes from outside the sources: `time.Parse` with the
layout `time.RFC3339` followed by `UnixNano` (`none` is the error),
`strings.TrimSpace`, `strings.ToLower`, and the integers of the six close
statuses of package `types`. -/
structure Library where
  timeParse : List Char → Option Int
  TrimSpace : List Char → List Char
  ToLower : List Char → List Char
  WorkflowExecutionCloseStatusCompleted : Int
  WorkflowExecutionCloseStatusFailed : Int
  WorkflowExecutionCloseStatusCanceled : Int
  WorkflowExecutionCloseStatusTerminated : Int
  WorkflowExecutionCloseStatusContinuedAsNew : Int
  WorkflowExecutionCloseStatusTimedOut : Int

/-- Go's constant `WorkflowID`. -/
def WorkflowID : List Char := "WorkflowID".toList

/-- Go's constant `RunID`. -/
def RunID : List Char := "RunID".toList

/-- Go's constant `WorkflowType`. -/
def WorkflowType : List Char := "WorkflowType".toList

/-- Go's constant `CloseTime`. -/
def CloseTime : List Char := "CloseTime".toList

/-- Go's constant `CloseStatus`. -/
def CloseStatus : List Char := "CloseStatus".toList

/-- Go's `extractStringValue`: the text between single quotes. -/
def extractStringValue (s : List Char) : Except Error (List Char) :=
  if 2 ≤ s.length ∧ s.head? = some (Char.ofNat 39) ∧ s.getLast? = some (Char.ofNat 39) then
    Except.ok ((s.drop 1).take (s.length - 2))
  else Except.error (Error.notAStringValue s)

/-- Go's `convertStatusStr`; the cases of the `switch` are tried in order. -/
def convertStatusStr (lib : Library) (statusStr : List Char) : Except Error Int :=
  if lib.ToLower (lib.TrimSpace statusStr) = "completed".toList
      ∨ lib.ToLower (lib.TrimSpace statusStr)
        = Strconv.Itoa lib.WorkflowExecutionCloseStatusCompleted then
    Except.ok lib.WorkflowExecutionCloseStatusCompleted
  else if lib.ToLower (lib.TrimSpace statusStr) = "failed".toList
      ∨ lib.ToLower (lib.TrimSpace statusStr)
        = Strconv.Itoa lib.WorkflowExecutionCloseStatusFailed then
    Except.ok lib.WorkflowExecutionCloseStatusFailed
  else if lib.ToLower (lib.TrimSpace statusStr) = "canceled".toList
      ∨ lib.ToLower (lib.TrimSpace statusStr)
        = Strconv.Itoa lib.WorkflowExecutionCloseStatusCanceled then
    Except.ok lib.WorkflowExecutionCloseStatusCanceled
  else if lib.ToLower (lib.TrimSpace statusStr) = "terminated".toList
      ∨ lib.ToLower (lib.TrimSpace statusStr)
        = Strconv.Itoa lib.WorkflowExecutionCloseStatusTerminated then
    Except.ok lib.WorkflowExecutionCloseStatusTerminated
  else if lib.ToLower (lib.TrimSpace statusStr) = "continuedasnew".toList
      ∨ lib.ToLower (lib.TrimSpace statusStr) = "continued_as_new".toList
      ∨ lib.ToLower (lib.TrimSpace statusStr)
        = Strconv.Itoa lib.WorkflowExecutionCloseStatusContinuedAsNew then
    Except.ok lib.WorkflowExecutionCloseStatusContinuedAsNew
  else if lib.ToLower (lib.TrimSpace statusStr) = "timedout".toList
      ∨ lib.ToLower (lib.TrimSpace statusStr) = "timed_out".toList
      ∨ lib.ToLower (lib.TrimSpace statusStr)
        = Strconv.Itoa lib.WorkflowExecutionCloseStatusTimedOut then
    Except.ok lib.WorkflowExecutionCloseStatusTimedOut
  else Except.error (Error.unknownCloseStatus (lib.ToLower (lib.TrimSpace statusStr)))

/-- Go's `convertToTimestamp`; `strconv.ParseInt(s, 10, 64)` reads what
`strconv.Atoi` reads. -/
def convertToTimestamp (lib : Library) (timeStr : List Char) : Except Error Int :=
  match Strconv.Atoi timeStr with
  | some timestamp => Except.ok timestamp
  | none =>
    match extractStringValue timeStr with
    | Except.error err => Except.error err
    | Except.ok timestampStr =>
      match lib.timeParse timestampStr with
      | none => Except.error (Error.timeParse timestampStr)
      | some nanos => Except.ok nanos

/-- Go's `queryParser.convertCloseTime`, with fuel for its calls of itself:
the error returned and the query after the call. The arithmetic is that of
`int64`. -/
def convertCloseTimeAux : Nat → Int → List Char → parsedQuery → Option Error × parsedQuery
  | 0, _, op, query => (some (Error.operatorNotSupportedForCloseTime op), query)
  | fuel + 1, timestamp, op, query =>
    if op = "=".toList then
      match convertCloseTimeAux fuel timestamp ">=".toList query with
      | (some err, q1) => (some err, q1)
      | (none, q1) =>
        match convertCloseTimeAux fuel timestamp "<=".toList q1 with
        | (some err, q2) => (some err, q2)
        | (none, q2) => (none, q2)
    else if op = "<".toList then
      (none, { query with
        latestCloseTime := min query.latestCloseTime (Backoff.wrap64 (timestamp - 1)) })
    else if op = "<=".toList then
      (none, { query with latestCloseTime := min query.latestCloseTime timestamp })
    else if op = ">".toList then
      (none, { query with
        earliestCloseTime :=
          max query.earliestCloseTime (Backoff.wrap64 (timestamp + 1)) })
    else if op = ">=".toList then
      (none, { query with
        earliestCloseTime := max query.earliestCloseTime timestamp })
    else (some (Error.operatorNotSupportedForCloseTime op), query)

/-- Go's `queryParser.convertCloseTime`: a call with `=` calls the function
twice more, and these calls call it no further. -/
def convertCloseTime (timestamp : Int) (op : List Char) (query : parsedQuery) :
    Option Error × parsedQuery :=
  convertCloseTimeAux 2 timestamp op query

/-- Go's `queryParser.convertComparisonExpr`: the error returned and the query
after the call. -/
def convertComparisonExpr (lib : Library) (Left : Option (List Char)) (Operator : List Char)
    (Right : Option (List Char)) (query : parsedQuery) : Option Error × parsedQuery :=
  match Left with
  | none => (some Error.invalidFilterName, query)
  | some colNameStr =>
    match Right with
    | none => (some Error.invalidValue, query)
    | some valStr =>
      if colNameStr = WorkflowID then
        match extractStringValue valStr with
        | Except.error err => (some err, query)
        | Except.ok val =>
          if Operator ≠ "=".toList then (some (Error.onlyOperatorEq WorkflowID), query)
          else if query.workflowID ≠ none ∧ query.workflowID ≠ some val then
            (none, { query with emptyResult := true })
          else (none, { query with workflowID := some val })
      else if colNameStr = RunID then
        match extractStringValue valStr with
        | Except.error err => (some err, query)
        | Except.ok val =>
          if Operator ≠ "=".toList then (some (Error.onlyOperatorEq RunID), query)
          else if query.runID ≠ none ∧ query.runID ≠ some val then
            (none, { query with emptyResult := true })
          else (none, { query with runID := some val })
      else if colNameStr = WorkflowType then
        match extractStringValue valStr with
        | Except.error err => (some err, query)
        | Except.ok val =>
          if Operator ≠ "=".toList then (some (Error.onlyOperatorEq WorkflowType), query)
          else if query.workflowTypeName ≠ none
              ∧ query.workflowTypeName ≠ some val then
            (none, { query with emptyResult := true })
          else (none, { query with workflowTypeName := some val })
      else if colNameStr = CloseStatus then
        if Operator ≠ "=".toList then (some (Error.onlyOperatorEq CloseStatus), query)
        else
          match convertStatusStr lib
              (match extractStringValue valStr with
                | Except.error _ => valStr
                | Except.ok val => val) with
          | Except.error err => (some err, query)
          | Except.ok status =>
            if query.closeStatus ≠ none ∧ query.closeStatus ≠ some status then
              (none, { query with emptyResult := true })
            else (none, { query with closeStatus := some status })
      else if colNameStr = CloseTime then
        match convertToTimestamp lib valStr with
        | Except.error err => (some err, query)
        | Except.ok timestamp => convertCloseTime timestamp Operator query
      else (some (Error.unknownFilterName colNameStr), query)

/-- Go's `queryParser.convertWhereExpr`, with `convertAndExpr` and
`convertParenExpr`, the two functions it calls and that call it, in its cases:
the error returned and the query after the call. -/
def convertWhereExpr (lib : Library) : Expr → parsedQuery → Option Error × parsedQuery
  | Expr.Nil, query => (some Error.whereExpressionIsNil, query)
  | Expr.ComparisonExpr l op r, query => convertComparisonExpr lib l op r query
  | Expr.AndExpr l r, query =>
    match convertWhereExpr lib l query with
    | (some err, q1) => (some err, q1)
    | (none, q1) => convertWhereExpr lib r q1
  | Expr.ParenExpr e, query => convertWhereExpr lib e query
  | Expr.Other, query => (some Error.onlyComparisonAndAnd, query)

end Filestore

/-! ## The replication task ack manager of
`service/history/replication/task_ack_manager.go`

The collaborators of `GetTasks` (the ack levels, the task reader, the task
store) are parameters: what their methods return is given by functions, and
the calls `GetTasks` makes on them are recorded in order. -/

namespace Replication

/-- Go's `persistence.ReplicationTaskInfo`, declared outside the sources: the
two fields `GetTasks` reads. -/
structure ReplicationTaskInfo where
  TaskID : Int
  CreationTime : Int
deriving DecidableEq

/-- An error of `store.Get` as the three `errors.As` tests of `GetTasks`
classify it: one of the three kinds that are logged and passed over, or any
other error. -/
inductive GetError where
  | BadRequestError
  | InternalDataInconsistencyError
  | EntityNotExistsError
  | Other
deriving DecidableEq

/-- Whether one of the three `errors.As` tests of `GetTasks` holds. -/
def GetError.isWarning : GetError → Bool
  | GetError.Other => false
  | _ => true

/-- Go's `types.ReplicationMessages`, the fields `GetTasks` sets; `R` is
`*types.ReplicationTask`. -/
structure ReplicationMessages (R : Type) where
  ReplicationTasks : List R
  HasMore : Bool
  LastRetrievedMessageID : Int
deriving DecidableEq

/-- Go's interface `ackLevelStore`; `E` is the type of errors. -/
structure ackLevelStore (E : Type) where
  GetTransferMaxReadLevel : Int
  GetClusterReplicationLevel : String → Int
  UpdateClusterReplicationLevel : String → Int → Option E

/-- Go's interface `taskReader`: the tasks, whether there are more, and the
error. -/
structure taskReader (E : Type) where
  Read : Int → Int → List ReplicationTaskInfo × Bool × Option E

/-- The methods `Get` and `Ack` of `*TaskStore`, whose source is not part of
the sources: `Get` returns a task, or nil, and an error, or nil. -/
structure TaskStore (R E : Type) where
  Get : String → ReplicationTaskInfo → Option R × Option GetError
  Ack : String → Int → Option E

/-- Go's `TaskAckManager`: the collaborators whose results `GetTasks` uses.
The metrics scope, the logger and the time source only record and log. -/
structure TaskAckManager (R E : Type) where
  ackLevels : ackLevelStore E
  reader : taskReader E
  store : TaskStore R E

/-- The calls `GetTasks` makes on its collaborators, apart from those that
only read a level, record or log. -/
inductive Call where
  | Read (readLevel maxReadLevel : Int)
  | Get (cluster : String) (task : ReplicationTaskInfo)
  | UpdateClusterReplicationLevel (cluster : String) (lastTaskID : Int)
  | Ack (cluster : String) (lastTaskID : Int)
deriving DecidableEq

/-- The state of the loop of `GetTasks` over the tasks read. -/
structure LoopState (R : Type) where
  replicationTasks : List R
  hasMore : Bool
  readLevel : Int
  calls : List Call

/-- The loop of `GetTasks` over the tasks read: `store.Get` for each task, a
`break` with `hasMore = true` at an error that is none of the three kinds, and
otherwise the read level moved to the task and the replication task, when not
nil, appended. -/
def getTasksLoop {R E : Type} (store : TaskStore R E) (pollingCluster : String) :
    List ReplicationTaskInfo → LoopState R → LoopState R
  | [], st => st
  | task :: tasks, st =>
    match (store.Get pollingCluster task).2 with
    | some err =>
      if err.isWarning then
        getTasksLoop store pollingCluster tasks
          { replicationTasks := st.replicationTasks
              ++ ((store.Get pollingCluster task).1).toList
            hasMore := st.hasMore
            readLevel := task.TaskID
            calls := st.calls ++ [Call.Get pollingCluster task] }
      else
        { st with hasMore := true, calls := st.calls ++ [Call.Get pollingCluster task] }
    | none =>
      getTasksLoop store pollingCluster tasks
        { replicationTasks := st.replicationTasks
            ++ ((store.Get pollingCluster task).1).toList
          hasMore := st.hasMore
          readLevel := task.TaskID
          calls := st.calls ++ [Call.Get pollingCluster task] }

/-- The `lastReadTaskID` that `GetTasks` works with: its argument, or the
replication level of the cluster when the argument is `EmptyMessageID`. -/
def effectiveLastReadTaskID {R E : Type} (t : TaskAckManager R E) (EmptyMessageID : Int)
    (pollingCluster : String) (lastReadTaskID : Int) : Int :=
  if lastReadTaskID = EmptyMessageID then t.ackLevels.GetClusterReplicationLevel pollingCluster
  else lastReadTaskID

/-- Go's `TaskAckManager.GetTasks`: the messages (nil with an error), the
error, and the calls made on the collaborators, in order. `EmptyMessageID` is
the constant `common.EmptyMessageID`, declared outside the sources. The errors
of `UpdateClusterReplicationLevel` and of `store.Ack` are logged and go no
further. -/
def GetTasks {R E : Type} (t : TaskAckManager R E) (EmptyMessageID : Int)
    (pollingCluster : String) (lastReadTaskID : Int) :
    (Option (ReplicationMessages R) × Option E) × List Call :=
  let lastReadTaskID := effectiveLastReadTaskID t EmptyMessageID pollingCluster lastReadTaskID
  let read := t.reader.Read lastReadTaskID t.ackLevels.GetTransferMaxReadLevel
  match read.2.2 with
  | some err =>
    ((none, some err), [Call.Read lastReadTaskID t.ackLevels.GetTransferMaxReadLevel])
  | none =>
    let st := getTasksLoop t.store pollingCluster read.1
      { replicationTasks := [], hasMore := read.2.1, readLevel := lastReadTaskID, calls := [] }
    ((some { ReplicationTasks := st.replicationTasks
             HasMore := st.hasMore
             LastRetrievedMessageID := st.readLevel },
        none),
      [Call.Read lastReadTaskID t.ackLevels.GetTransferMaxReadLevel] ++ st.calls
        ++ [Call.UpdateClusterReplicationLevel pollingCluster lastReadTaskID,
            Call.Ack pollingCluster lastReadTaskID])

end Replication

namespace Backoff

/-! ## The random bound -/

/-- The bound passed to `rand.Intn` is at least one. -/
theorem jitterPortion_pos (x : F64) : 1 ≤ jitterPortion x := by
  unfold jitterPortion
  split <;> omega

/-- The jitter step never panics. -/
theorem addJitter_eq (x : F64) (draw : Nat) :
    addJitter x draw = some (F64.toInt64 (F64.add (F64.mul x F64.c08)
      (F64.ofInt ((draw : Int) % jitterPortion x)))) := by
  have h := jitterPortion_pos x
  simp only [addJitter, randIntn]
  rw [if_neg (by omega)]

/-! ## Rounding to nearest, ties to even -/

namespace F64

theorem bitLenAux_zero (fuel : Nat) : bitLenAux fuel 0 = 0 := by
  cases fuel <;> simp [bitLenAux]

theorem bitLenAux_spec (fuel : Nat) : ∀ n : Nat, n ≤ fuel → n ≠ 0 →
    ∃ k, bitLenAux fuel n = k + 1 ∧ 2 ^ k ≤ n ∧ n < 2 ^ (k + 1) := by
  induction fuel with
  | zero => intro n h hn; omega
  | succ f ih =>
    intro n h hn
    simp only [bitLenAux, if_neg hn]
    by_cases h2 : n / 2 = 0
    · refine ⟨0, ?_, ?_, ?_⟩
      · rw [h2, bitLenAux_zero]
      · simp; omega
      · simp; omega
    · obtain ⟨k, hk, hlo, hhi⟩ := ih (n / 2) (by omega) h2
      refine ⟨k + 1, by rw [hk], ?_, ?_⟩
      · rw [pow_succ]; omega
      · rw [pow_succ]; omega

theorem bitLen_spec (n : Nat) (hn : n ≠ 0) :
    ∃ k, bitLen n = k + 1 ∧ 2 ^ k ≤ n ∧ n < 2 ^ (k + 1) :=
  bitLenAux_spec n n le_rfl hn

theorem bitLen_zero : bitLen 0 = 0 := rfl


theorem rneDiv_isRNE (a b : ℕ) (hb : 0 < b) : IsRNE ((a : ℚ) / b) (rneDiv a b) := by
  have hbq : (0 : ℚ) < b := by exact_mod_cast hb
  have hdm : (a : ℚ) = b * (a / b : ℕ) + (a % b : ℕ) := by exact_mod_cast (Nat.div_add_mod a b).symm
  have hr : a % b < b := Nat.mod_lt _ hb
  have hx : (a : ℚ) / b = (a / b : ℕ) + ((a % b : ℕ) : ℚ) / b := by
    field_simp
    linarith
  have hrq : ((a % b : ℕ) : ℚ) < b := by exact_mod_cast hr
  have hr0 : (0 : ℚ) ≤ ((a % b : ℕ) : ℚ) := by positivity
  set q := a / b
  set r := a % b
  have hfrac : ((r : ℚ) / b < 1 / 2 ↔ 2 * r < b) := by
    rw [div_lt_iff₀ hbq]
    constructor
    · intro h; have : (2 * r : ℚ) < b := by linarith
      exact_mod_cast this
    · intro h; have : (2 * r : ℚ) < b := by exact_mod_cast h
      linarith
  have hfrac2 : ((1 : ℚ) / 2 < (r : ℚ) / b ↔ b < 2 * r) := by
    rw [lt_div_iff₀ hbq]
    constructor
    · intro h; have : (b : ℚ) < 2 * r := by linarith
      exact_mod_cast this
    · intro h; have : (b : ℚ) < 2 * r := by exact_mod_cast h
      linarith
  have hf0 : (0 : ℚ) ≤ (r : ℚ) / b := by positivity
  have hf1 : (r : ℚ) / b < 1 := by rw [div_lt_one hbq]; exact hrq
  unfold rneDiv IsRNE
  rw [hx]
  by_cases h1 : 2 * r < b
  · rw [if_pos h1]
    have := hfrac.2 h1
    refine ⟨by linarith, by linarith, fun h => by linarith, fun h => by linarith⟩
  · rw [if_neg h1]
    by_cases h2 : b < 2 * r
    · rw [if_pos h2]
      have := hfrac2.2 h2
      push_cast
      refine ⟨by linarith, by linarith, fun h => by linarith, fun h => by linarith⟩
    · rw [if_neg h2]
      have heq : (r : ℚ) / b = 1 / 2 := by
        have h3 : ¬ (r : ℚ) / b < 1 / 2 := fun h => h1 (hfrac.1 h)
        have h4 : ¬ (1 : ℚ) / 2 < (r : ℚ) / b := fun h => h2 (hfrac2.1 h)
        linarith [not_lt.1 h3, not_lt.1 h4]
      by_cases h5 : q % 2 = 0
      · rw [if_pos h5]
        refine ⟨by linarith, by linarith, fun _ => h5, fun h => by linarith⟩
      · rw [if_neg h5]
        push_cast
        refine ⟨by linarith, by linarith, fun h => by linarith, fun _ => by omega⟩

theorem IsRNE.mono_rne {x y : ℚ} {k l : ℕ} (hk : IsRNE x k) (hl : IsRNE y l) (h : x ≤ y) : k ≤ l := by
  by_contra hc
  have hlk : l + 1 ≤ k := by omega
  have hq : (l : ℚ) + 1 ≤ k := by exact_mod_cast hlk
  obtain ⟨k1, _, _, k4⟩ := hk
  obtain ⟨_, l2, l3, _⟩ := hl
  have e1 : x = k - 1 / 2 := by linarith
  have e2 : y = l + 1 / 2 := by linarith
  have e3 : (k : ℚ) = l + 1 := by linarith
  have e3' : k = l + 1 := by exact_mod_cast e3
  have := k4 e1
  have := l3 e2
  omega

theorem IsRNE.exact_rne {n k : ℕ} (h : IsRNE (n : ℚ) k) : k = n := by
  obtain ⟨h1, h2, _, _⟩ := h
  have a : (k : ℚ) < n + 1 := by linarith
  have b : (n : ℚ) < k + 1 := by linarith
  have a' : k < n + 1 := by exact_mod_cast a
  have b' : n < k + 1 := by exact_mod_cast b
  omega



theorem two_zpow_toNat_div (a b : ℤ) :
    ((2 : ℚ) ^ (a - b).toNat) / 2 ^ (b - a).toNat = 2 ^ (a - b) := by
  rcases le_total b a with h | h
  · have h1 : (b - a).toNat = 0 := by omega
    have h2 : ((a - b).toNat : ℤ) = a - b := by omega
    rw [h1, pow_zero, div_one, ← zpow_natCast, h2]
  · have h1 : (a - b).toNat = 0 := by omega
    have h2 : ((b - a).toNat : ℤ) = b - a := by omega
    rw [h1, pow_zero, ← zpow_natCast, h2, one_div, ← zpow_neg]
    congr 1; omega

theorem mantOf_isRNE (m : ℕ) (e : ℤ) :
    IsRNE ((m : ℚ) * 2 ^ e / 2 ^ expOf m e) (mantOf m e) := by
  have h := rneDiv_isRNE (m * 2 ^ (e - expOf m e).toNat) (2 ^ (expOf m e - e).toNat) (by positivity)
  have hx : ((m * 2 ^ (e - expOf m e).toNat : ℕ) : ℚ) / ((2 ^ (expOf m e - e).toNat : ℕ) : ℚ)
      = (m : ℚ) * 2 ^ e / 2 ^ expOf m e := by
    push_cast
    rw [mul_div_assoc, two_zpow_toNat_div, zpow_sub₀ (by norm_num), mul_div_assoc]
  rw [hx] at h
  exact h

theorem val_level (m : ℕ) (e : ℤ) (hm : m ≠ 0) :
    (2 : ℚ) ^ (e + bitLen m - 1) ≤ m * 2 ^ e ∧ (m : ℚ) * 2 ^ e < 2 ^ (e + bitLen m) := by
  obtain ⟨k, hk, hlo, hhi⟩ := bitLen_spec m hm
  have hlo' : (2 : ℚ) ^ (k : ℤ) ≤ m := by rw [zpow_natCast]; exact_mod_cast hlo
  have hhi' : (m : ℚ) < 2 ^ ((k : ℤ) + 1) := by
    have : (m : ℚ) < 2 ^ (k + 1) := by exact_mod_cast hhi
    rw [show ((k : ℤ) + 1) = ((k + 1 : ℕ) : ℤ) by push_cast; rfl, zpow_natCast]; exact this
  have hp : (0 : ℚ) < 2 ^ e := zpow_pos (by norm_num) e
  rw [hk]
  push_cast
  constructor
  · rw [show e + ((k : ℤ) + 1) - 1 = k + e by ring, zpow_add₀ (by norm_num)]
    exact mul_le_mul_of_nonneg_right hlo' hp.le
  · rw [show e + ((k : ℤ) + 1) = (k + 1) + e by ring, zpow_add₀ (by norm_num)]
    exact mul_lt_mul_of_pos_right hhi' hp

theorem expOf_ge_min (m : ℕ) (e : ℤ) : -1074 ≤ expOf m e := le_max_right _ _

theorem expOf_ge_level (m : ℕ) (e : ℤ) : e + bitLen m - 53 ≤ expOf m e := le_max_left _ _

theorem expOf_cases (m : ℕ) (e : ℤ) :
    expOf m e = e + bitLen m - 53 ∨ (expOf m e = -1074 ∧ e + bitLen m - 53 ≤ -1074) := by
  unfold expOf
  rcases le_total (e + (bitLen m : ℤ) - 53) (-1074) with h | h
  · right; exact ⟨max_eq_right h, h⟩
  · left; exact max_eq_left h

theorem mantOf_zero (e : ℤ) : mantOf 0 e = 0 := by
  simp [mantOf, rneDiv]

theorem two_zpow_le {a b : ℤ} (h : a ≤ b) : (2 : ℚ) ^ a ≤ 2 ^ b :=
  zpow_le_zpow_right₀ (by norm_num) h

theorem two_zpow_pos (a : ℤ) : (0 : ℚ) < 2 ^ a := zpow_pos (by norm_num) a

theorem two_zpow_lt_imp {a b : ℤ} (h : (2 : ℚ) ^ a < 2 ^ b) : a < b := by
  by_contra hc
  exact absurd (two_zpow_le (not_lt.1 hc)) (not_le.2 h)

/-- The scaled value `m * 2^e / 2^E` is below `2^53`. -/
theorem scaled_lt (m : ℕ) (e : ℤ) : (m : ℚ) * 2 ^ e / 2 ^ expOf m e < 2 ^ (53 : ℤ) := by
  by_cases hm : m = 0
  · subst hm; simp; positivity
  · have h := (val_level m e hm).2
    rw [div_lt_iff₀ (two_zpow_pos _), ← zpow_add₀ (by norm_num)]
    exact lt_of_lt_of_le h (two_zpow_le (by have := expOf_ge_level m e; omega))

theorem mantOf_le (m : ℕ) (e : ℤ) : mantOf m e ≤ 2 ^ 53 := by
  have h := mantOf_isRNE m e
  have h2 := scaled_lt m e
  have h3 : ((mantOf m e : ℕ) : ℚ) < ((2 ^ 53 + 1 : ℕ) : ℚ) := by
    have := h.1
    have h4 : (2 : ℚ) ^ (53 : ℤ) = ((2 ^ 53 : ℕ) : ℚ) := by norm_num
    rw [h4] at h2
    push_cast at h2 ⊢
    linarith
  have : mantOf m e < 2 ^ 53 + 1 := by exact_mod_cast h3
  omega

theorem mantOf_ge (m : ℕ) (e : ℤ) (hm : m ≠ 0) (hE : expOf m e = e + bitLen m - 53) :
    2 ^ 52 ≤ mantOf m e := by
  have h := mantOf_isRNE m e
  have hl := (val_level m e hm).1
  have hs : (2 : ℚ) ^ (52 : ℤ) ≤ (m : ℚ) * 2 ^ e / 2 ^ expOf m e := by
    rw [le_div_iff₀ (two_zpow_pos _), ← zpow_add₀ (by norm_num)]
    refine le_trans (two_zpow_le ?_) hl
    omega
  have h3 : ((2 ^ 52 : ℕ) : ℚ) < ((mantOf m e + 1 : ℕ) : ℚ) := by
    have := h.2.1
    have h4 : (2 : ℚ) ^ (52 : ℤ) = ((2 ^ 52 : ℕ) : ℚ) := by norm_num
    rw [h4] at hs
    push_cast at hs ⊢
    linarith
  have : 2 ^ 52 < mantOf m e + 1 := by exact_mod_cast h3
  omega

theorem rv_nonneg (m : ℕ) (e : ℤ) : 0 ≤ rv m e := by
  unfold rv; have := two_zpow_pos (expOf m e); positivity

theorem rv_zero (e : ℤ) : rv 0 e = 0 := by simp [rv, mantOf_zero]

/-- Rounding is monotone. -/
theorem rv_mono {m1 m2 : ℕ} {e1 e2 : ℤ} (h : (m1 : ℚ) * 2 ^ e1 ≤ m2 * 2 ^ e2) :
    rv m1 e1 ≤ rv m2 e2 := by
  by_cases h1 : m1 = 0
  · subst h1; rw [rv_zero]; exact rv_nonneg _ _
  have h2 : m2 ≠ 0 := by
    rintro rfl
    have : (0 : ℚ) < m1 * 2 ^ e1 := by
      have := two_zpow_pos e1
      have : (0 : ℚ) < m1 := by exact_mod_cast Nat.pos_of_ne_zero h1
      positivity
    simp at h; linarith
  have hL : e1 + bitLen m1 - 1 < e2 + bitLen m2 :=
    two_zpow_lt_imp (lt_of_le_of_lt (le_trans (val_level m1 e1 h1).1 h) (val_level m2 e2 h2).2)
  have hE : expOf m1 e1 ≤ expOf m2 e2 := by
    unfold expOf
    exact max_le_max (by omega) le_rfl
  rcases eq_or_lt_of_le hE with heq | hlt
  · unfold rv
    rw [heq]
    have hk := mantOf_isRNE m1 e1
    have hl := mantOf_isRNE m2 e2
    rw [heq] at hk
    have : mantOf m1 e1 ≤ mantOf m2 e2 :=
      hk.mono_rne hl (div_le_div_of_nonneg_right h (two_zpow_pos _).le)
    have hq : (mantOf m1 e1 : ℚ) ≤ mantOf m2 e2 := by exact_mod_cast this
    exact mul_le_mul_of_nonneg_right hq (two_zpow_pos _).le
  · have hE2 : expOf m2 e2 = e2 + bitLen m2 - 53 := by
      rcases expOf_cases m2 e2 with h | ⟨h, _⟩
      · exact h
      · have := expOf_ge_min m1 e1; omega
    have hk2 : ((2 ^ 52 : ℕ) : ℚ) ≤ mantOf m2 e2 := by exact_mod_cast mantOf_ge m2 e2 h2 hE2
    have hk1 : (mantOf m1 e1 : ℚ) ≤ ((2 ^ 53 : ℕ) : ℚ) := by exact_mod_cast mantOf_le m1 e1
    unfold rv
    calc (mantOf m1 e1 : ℚ) * 2 ^ expOf m1 e1
        ≤ ((2 ^ 53 : ℕ) : ℚ) * 2 ^ expOf m1 e1 :=
          mul_le_mul_of_nonneg_right hk1 (two_zpow_pos _).le
      _ = 2 ^ (53 + expOf m1 e1) := by
          rw [zpow_add₀ (by norm_num)]; norm_num
      _ ≤ 2 ^ (52 + expOf m2 e2) := two_zpow_le (by omega)
      _ = ((2 ^ 52 : ℕ) : ℚ) * 2 ^ expOf m2 e2 := by
          rw [zpow_add₀ (by norm_num)]; norm_num
      _ ≤ (mantOf m2 e2 : ℚ) * 2 ^ expOf m2 e2 :=
          mul_le_mul_of_nonneg_right hk2 (two_zpow_pos _).le

/-- The rounded value depends on the value only. -/
theorem rv_congr {m1 m2 : ℕ} {e1 e2 : ℤ} (h : (m1 : ℚ) * 2 ^ e1 = m2 * 2 ^ e2) :
    rv m1 e1 = rv m2 e2 :=
  le_antisymm (rv_mono h.le) (rv_mono h.ge)

/-- A value with a mantissa below `2^53` and an exponent of at least `-1074`
is not changed by rounding. -/
theorem rv_exact {m : ℕ} {e : ℤ} (hm : m < 2 ^ 53) (he : -1074 ≤ e) :
    rv m e = m * 2 ^ e := by
  by_cases h0 : m = 0
  · subst h0; simp [rv_zero]
  have hE : expOf m e ≤ e := by
    obtain ⟨k, hk, hlo, hhi⟩ := bitLen_spec m h0
    have : k < 53 := by
      by_contra hc
      have : 2 ^ 53 ≤ 2 ^ k := Nat.pow_le_pow_right (by norm_num) (not_lt.1 hc)
      omega
    unfold expOf
    exact max_le (by rw [hk]; push_cast; omega) he
  have hk := mantOf_isRNE m e
  have hx : (m : ℚ) * 2 ^ e / 2 ^ expOf m e = ((m * 2 ^ (e - expOf m e).toNat : ℕ) : ℚ) := by
    push_cast
    rw [mul_div_assoc, ← zpow_sub₀ (by norm_num), ← zpow_natCast]
    congr 2; omega
  rw [hx] at hk
  have := hk.exact_rne
  unfold rv
  rw [this]
  push_cast
  rw [mul_assoc, ← zpow_natCast, ← zpow_add₀ (by norm_num)]
  congr 2; omega

/-- Rounding is exact on every representable value. -/
theorem rv_exact_of_eq {m n : ℕ} {e g : ℤ} (h : (m : ℚ) * 2 ^ e = n * 2 ^ g)
    (hn : n < 2 ^ 53) (hg : -1074 ≤ g) : rv m e = m * 2 ^ e := by
  rw [rv_congr h, rv_exact hn hg, h]

/-- The rounding error is at most half a unit of the last place. -/
theorem rv_err (m : ℕ) (e : ℤ) :
    rv m e ≤ m * 2 ^ e + 2 ^ (expOf m e - 1) ∧ (m : ℚ) * 2 ^ e ≤ rv m e + 2 ^ (expOf m e - 1) := by
  have hk := mantOf_isRNE m e
  have hp := two_zpow_pos (expOf m e)
  have hv : (m : ℚ) * 2 ^ e = (m * 2 ^ e / 2 ^ expOf m e) * 2 ^ expOf m e := by
    field_simp
  have hh : (2 : ℚ) ^ (expOf m e - 1) = 1 / 2 * 2 ^ expOf m e := by
    rw [zpow_sub₀ (by norm_num)]; norm_num; ring
  unfold rv
  rw [hh]
  constructor
  · have := hk.1
    nlinarith
  · have := hk.2.1
    nlinarith

theorem expOf_le_of_lt {m : ℕ} {e k : ℤ} (h0 : m ≠ 0) (h : (m : ℚ) * 2 ^ e < 2 ^ k)
    (hk : -1021 ≤ k) : expOf m e ≤ k - 53 := by
  have := (val_level m e h0).1
  have := two_zpow_lt_imp (lt_of_le_of_lt this h)
  unfold expOf
  exact max_le (by omega) (by omega)

theorem expOf_ge_of_le {m : ℕ} {e k : ℤ} (h0 : m ≠ 0) (h : (2 : ℚ) ^ k ≤ (m : ℚ) * 2 ^ e) :
    k - 52 ≤ expOf m e := by
  have := (val_level m e h0).2
  have := two_zpow_lt_imp (lt_of_le_of_lt h this)
  have := expOf_ge_level m e
  omega

/-- Below `2^k` the rounding error is at most `2^(k-54)`. -/
theorem rv_le_add {m : ℕ} {e k : ℤ} (h : (m : ℚ) * 2 ^ e < 2 ^ k) (hk : -1021 ≤ k) :
    rv m e ≤ m * 2 ^ e + 2 ^ (k - 54) := by
  by_cases h0 : m = 0
  · subst h0; rw [rv_zero]; have := two_zpow_pos (k - 54); simp; linarith
  · have h1 := (rv_err m e).1
    have h2 := expOf_le_of_lt h0 h hk
    have : (2 : ℚ) ^ (expOf m e - 1) ≤ 2 ^ (k - 54) := two_zpow_le (by omega)
    linarith

/-- From `2^k` on, the rounded value is a multiple of `2^(k-52)`. -/
theorem rv_grid {m : ℕ} {e k : ℤ} (h : (2 : ℚ) ^ k ≤ (m : ℚ) * 2 ^ e) :
    ∃ n : ℕ, rv m e = n * 2 ^ (k - 52) := by
  by_cases h0 : m = 0
  · exact ⟨0, by subst h0; simp [rv_zero]⟩
  · have h2 := expOf_ge_of_le h0 h
    refine ⟨mantOf m e * 2 ^ (expOf m e - (k - 52)).toNat, ?_⟩
    unfold rv
    push_cast
    rw [mul_assoc, ← zpow_natCast, ← zpow_add₀ (by norm_num)]
    congr 2; omega

end F64

/-! ## Values of the operations -/

namespace F64

theorem toRat_true (m : ℕ) (e : ℤ) : toRat (fin true m e) = -((m : ℚ) * 2 ^ e) := rfl

theorem toRat_false (m : ℕ) (e : ℤ) : toRat (fin false m e) = (m : ℚ) * 2 ^ e := rfl

theorem toRat_neg_le (m : ℕ) (e : ℤ) : toRat (fin true m e) ≤ 0 := by
  have := two_zpow_pos e
  rw [toRat_true]
  have : (0 : ℚ) ≤ (m : ℚ) * 2 ^ e := by positivity
  linarith

theorem toRat_pos_ge (m : ℕ) (e : ℤ) : 0 ≤ toRat (fin false m e) := by
  have := two_zpow_pos e
  rw [toRat_false]
  positivity

theorem scaled_cast (s : Bool) (m : ℕ) (e g : ℤ) (h : g ≤ e) :
    ((scaled s m e g : ℤ) : ℚ) = toRat (fin s m e) * 2 ^ (-g) := by
  have hp : ((2 : ℚ) ^ (e - g).toNat) = 2 ^ e * 2 ^ (-g) := by
    rw [← zpow_natCast, ← zpow_add₀ (by norm_num)]
    congr 1; omega
  cases s
  · rw [toRat_false]
    show (((m * 2 ^ (e - g).toNat : ℕ) : ℤ) : ℚ) = _
    push_cast
    rw [hp]; ring
  · rw [toRat_true]
    show ((-((m * 2 ^ (e - g).toNat : ℕ) : ℤ) : ℤ) : ℚ) = _
    push_cast
    rw [hp]; ring

theorem lt_fin_iff (s1 s2 : Bool) (m1 m2 : ℕ) (e1 e2 : ℤ) :
    lt (fin s1 m1 e1) (fin s2 m2 e2) = true ↔ toRat (fin s1 m1 e1) < toRat (fin s2 m2 e2) := by
  unfold lt
  rw [decide_eq_true_iff, ← Int.cast_lt (R := ℚ), scaled_cast _ _ _ _ (min_le_left _ _),
    scaled_cast _ _ _ _ (min_le_right _ _)]
  exact mul_lt_mul_right (two_zpow_pos _)

theorem eq_fin_iff (s1 s2 : Bool) (m1 m2 : ℕ) (e1 e2 : ℤ) :
    eq (fin s1 m1 e1) (fin s2 m2 e2) = true ↔ toRat (fin s1 m1 e1) = toRat (fin s2 m2 e2) := by
  unfold eq
  rw [decide_eq_true_iff, ← Int.cast_inj (α := ℚ), scaled_cast _ _ _ _ (min_le_left _ _),
    scaled_cast _ _ _ _ (min_le_right _ _)]
  exact mul_left_inj' (two_zpow_pos _).ne'

theorem le_fin_iff (s1 s2 : Bool) (m1 m2 : ℕ) (e1 e2 : ℤ) :
    le (fin s1 m1 e1) (fin s2 m2 e2) = true ↔ toRat (fin s1 m1 e1) ≤ toRat (fin s2 m2 e2) := by
  unfold le
  rw [Bool.or_eq_true, lt_fin_iff, eq_fin_iff, le_iff_lt_or_eq]

/-! ### `pack` and `roundNE` -/

theorem pack_canon (s : Bool) (mant : ℕ) (E : ℤ) (hm : mant ≤ 2 ^ 53) (hE : -1074 ≤ E) :
    Canon (pack s mant E) := by
  unfold pack
  split_ifs <;> simp only [Canon] <;> first | trivial | (constructor <;> omega)

theorem roundNE_canon (s : Bool) (m : ℕ) (e : ℤ) : Canon (roundNE s m e) :=
  pack_canon s _ _ (mantOf_le m e) (expOf_ge_min m e)

theorem pack_ne_nan (s : Bool) (mant : ℕ) (E : ℤ) : pack s mant E ≠ nan := by
  unfold pack
  split_ifs <;> simp

theorem roundNE_ne_nan (s : Bool) (m : ℕ) (e : ℤ) : roundNE s m e ≠ nan := pack_ne_nan _ _ _

theorem pack_sign (s : Bool) (mant : ℕ) (E : ℤ) :
    pack s mant E = inf s ∨ ∃ m e, pack s mant E = fin s m e := by
  unfold pack
  split_ifs <;> simp

theorem roundNE_sign (s : Bool) (m : ℕ) (e : ℤ) :
    roundNE s m e = inf s ∨ ∃ m' e', roundNE s m e = fin s m' e' := pack_sign _ _ _

theorem pack_val (s : Bool) (mant : ℕ) (E : ℤ) (hm : mant ≤ 2 ^ 53) (hE : -1074 ≤ E)
    (hE2 : mant = 0 ∨ E ≤ 970) :
    ∃ m e, pack s mant E = fin s m e ∧ (m : ℚ) * 2 ^ e = mant * 2 ^ E ∧ m < 2 ^ 53 ∧ -1074 ≤ e := by
  unfold pack
  by_cases h0 : mant = 0
  · rw [if_pos h0]
    exact ⟨0, -1074, rfl, by subst h0; simp, by norm_num, le_rfl⟩
  · have hE3 : E ≤ 970 := by rcases hE2 with h | h; exact absurd h h0; exact h
    rw [if_neg h0]
    by_cases h1 : mant = 2 ^ 53
    · rw [if_pos h1, if_neg (by omega)]
      refine ⟨2 ^ 52, E + 1, rfl, ?_, by norm_num, by omega⟩
      subst h1
      rw [zpow_add₀ (by norm_num)]
      push_cast
      ring
    · rw [if_neg h1, if_neg (by omega)]
      exact ⟨mant, E, rfl, rfl, by omega, hE⟩

theorem roundNE_val (s : Bool) (m : ℕ) (e : ℤ) (h : (m : ℚ) * 2 ^ e < 2 ^ (1023 : ℤ)) :
    ∃ m' e', roundNE s m e = fin s m' e' ∧ (m' : ℚ) * 2 ^ e' = rv m e ∧ m' < 2 ^ 53 ∧ -1074 ≤ e' := by
  unfold roundNE rv
  refine pack_val s _ _ (mantOf_le m e) (expOf_ge_min m e) ?_
  by_cases h0 : m = 0
  · left; subst h0; exact mantOf_zero e
  · right
    have := expOf_le_of_lt h0 h (by norm_num)
    omega

/-! ### `Rounds` -/

theorem Rounds.nonneg {v w : ℚ} (h : Rounds v w) : 0 ≤ w := by
  obtain ⟨m, e, _, rfl⟩ := h; exact rv_nonneg m e

theorem Rounds.mono {v w v' w' : ℚ} (h : Rounds v w) (h' : Rounds v' w') (hv : v ≤ v') :
    w ≤ w' := by
  obtain ⟨m, e, rfl, rfl⟩ := h
  obtain ⟨m', e', rfl, rfl⟩ := h'
  exact rv_mono hv

theorem Repr53.rounds {v : ℚ} (h : Repr53 v) : Rounds v v := by
  obtain ⟨n, g, hn, hg, rfl⟩ := h
  exact ⟨n, g, rfl, rv_exact hn hg⟩

theorem Rounds.exact {v w : ℚ} (h : Rounds v w) (hr : Repr53 v) : w = v :=
  le_antisymm (h.mono hr.rounds le_rfl) (hr.rounds.mono h le_rfl)

theorem Rounds.le_of_le {v w u : ℚ} (h : Rounds v w) (hu : Repr53 u) (hv : v ≤ u) : w ≤ u :=
  h.mono hu.rounds hv

theorem Rounds.ge_of_ge {v w u : ℚ} (h : Rounds v w) (hu : Repr53 u) (hv : u ≤ v) : u ≤ w :=
  hu.rounds.mono h hv

theorem Rounds.le_add {v w : ℚ} {k : ℤ} (h : Rounds v w) (hv : v < 2 ^ k) (hk : -1021 ≤ k) :
    w ≤ v + 2 ^ (k - 54) := by
  obtain ⟨m, e, rfl, rfl⟩ := h
  exact rv_le_add hv hk

theorem Rounds.grid {v w : ℚ} {k : ℤ} (h : Rounds v w) (hv : 2 ^ k ≤ v) :
    ∃ n : ℕ, w = n * 2 ^ (k - 52) := by
  obtain ⟨m, e, rfl, rfl⟩ := h
  exact rv_grid hv

theorem Repr53.of_nat {n : ℕ} (h : n ≤ 2 ^ 53) : Repr53 (n : ℚ) := by
  rcases Nat.lt_or_ge n (2 ^ 53) with h1 | h1
  · exact ⟨n, 0, h1, by norm_num, by simp⟩
  · have : n = 2 ^ 53 := by omega
    subst this
    exact ⟨2 ^ 52, 1, by norm_num, by norm_num, by norm_num⟩

theorem IsVal.val_repr {x : F64} {v : ℚ} (h : IsVal x v) (hc : Canon x) : Repr53 v := by
  obtain ⟨m, e, rfl, rfl⟩ := h
  exact ⟨m, e, hc.1, hc.2, rfl⟩

theorem IsVal.val_nonneg {x : F64} {v : ℚ} (h : IsVal x v) : 0 ≤ v := by
  obtain ⟨m, e, rfl, rfl⟩ := h
  have := two_zpow_pos e; positivity

theorem roundNE_isVal (m : ℕ) (e : ℤ) (h : (m : ℚ) * 2 ^ e < 2 ^ (1023 : ℤ)) :
    ∃ w, Rounds ((m : ℚ) * 2 ^ e) w ∧ IsVal (roundNE false m e) w := by
  obtain ⟨m', e', h1, h2, _, _⟩ := roundNE_val false m e h
  exact ⟨rv m e, ⟨m, e, rfl, rfl⟩, ⟨m', e', h1, h2⟩⟩

theorem mul_canon (x y : F64) : Canon (mul x y) := by
  unfold mul
  split <;> first | trivial | (split_ifs <;> trivial) | exact roundNE_canon _ _ _

theorem mul_isVal {x y : F64} {vx vy : ℚ} (hx : IsVal x vx) (hy : IsVal y vy)
    (h : vx * vy < 2 ^ (1023 : ℤ)) : ∃ w, Rounds (vx * vy) w ∧ IsVal (mul x y) w := by
  obtain ⟨m1, e1, rfl, rfl⟩ := hx
  obtain ⟨m2, e2, rfl, rfl⟩ := hy
  have hv : ((m1 * m2 : ℕ) : ℚ) * 2 ^ (e1 + e2) = (m1 : ℚ) * 2 ^ e1 * ((m2 : ℚ) * 2 ^ e2) := by
    rw [zpow_add₀ (by norm_num)]; push_cast; ring
  have := roundNE_isVal (m1 * m2) (e1 + e2) (by rw [hv]; exact h)
  rw [hv] at this
  exact this

theorem add_isVal {x y : F64} {vx vy : ℚ} (hx : IsVal x vx) (hy : IsVal y vy)
    (h : vx + vy < 2 ^ (1023 : ℤ)) : ∃ w, Rounds (vx + vy) w ∧ IsVal (add x y) w := by
  obtain ⟨m1, e1, rfl, rfl⟩ := hx
  obtain ⟨m2, e2, rfl, rfl⟩ := hy
  have h1 := scaled_cast false m1 e1 (Min.min e1 e2) (min_le_left _ _)
  have h2 := scaled_cast false m2 e2 (Min.min e1 e2) (min_le_right _ _)
  rw [toRat_false] at h1 h2
  have hn1 : scaled false m1 e1 (Min.min e1 e2) = ((m1 * 2 ^ (e1 - Min.min e1 e2).toNat : ℕ) : ℤ) := rfl
  have hn2 : scaled false m2 e2 (Min.min e1 e2) = ((m2 * 2 ^ (e2 - Min.min e1 e2).toNat : ℕ) : ℤ) := rfl
  set n := m1 * 2 ^ (e1 - Min.min e1 e2).toNat + m2 * 2 ^ (e2 - Min.min e1 e2).toNat with hn
  have ht : scaled false m1 e1 (Min.min e1 e2) + scaled false m2 e2 (Min.min e1 e2) = (n : ℤ) := by
    rw [hn1, hn2, hn]; push_cast; rfl
  have hv : (n : ℚ) * 2 ^ (Min.min e1 e2) = (m1 : ℚ) * 2 ^ e1 + (m2 : ℚ) * 2 ^ e2 := by
    have : ((n : ℤ) : ℚ) = (m1 : ℚ) * 2 ^ e1 * 2 ^ (-Min.min e1 e2)
        + (m2 : ℚ) * 2 ^ e2 * 2 ^ (-Min.min e1 e2) := by
      rw [← ht]; push_cast; rw [h1, h2]
    have hp := two_zpow_pos (Min.min e1 e2)
    have : (n : ℚ) = ((m1 : ℚ) * 2 ^ e1 + (m2 : ℚ) * 2 ^ e2) * 2 ^ (-Min.min e1 e2) := by
      rw [add_mul]; exact_mod_cast this
    rw [this, mul_assoc, ← zpow_add₀ (by norm_num)]
    simp
  have hr : add (fin false m1 e1) (fin false m2 e2) = roundNE false n (Min.min e1 e2) := by
    show (if scaled false m1 e1 (Min.min e1 e2) + scaled false m2 e2 (Min.min e1 e2) = 0
        then fin (false && false) 0 (-1074)
        else roundNE (decide (scaled false m1 e1 (Min.min e1 e2)
          + scaled false m2 e2 (Min.min e1 e2) < 0))
          (scaled false m1 e1 (Min.min e1 e2) + scaled false m2 e2 (Min.min e1 e2)).natAbs
          (Min.min e1 e2)) = _
    rw [ht]
    by_cases h0 : n = 0
    · rw [if_pos (by exact_mod_cast h0), h0]
      simp [roundNE, pack, mantOf_zero]
    · rw [if_neg (by exact_mod_cast h0)]
      have : decide ((n : ℤ) < 0) = false := by simp
      rw [this, Int.natAbs_ofNat]
  rw [hr, ← hv]
  exact roundNE_isVal n _ (by rw [hv]; exact h)

theorem ofInt_canon (i : ℤ) : Canon (ofInt i) := roundNE_canon _ _ _

theorem ofInt_isVal {i : ℤ} (h0 : 0 ≤ i) (h : (i : ℚ) < 2 ^ (1023 : ℤ)) :
    ∃ w, Rounds (i : ℚ) w ∧ IsVal (ofInt i) w := by
  have hv : ((i.natAbs : ℕ) : ℚ) * 2 ^ (0 : ℤ) = (i : ℚ) := by
    rw [zpow_zero, mul_one, ← Int.cast_natCast, Int.natAbs_of_nonneg h0]
  have hd : decide (i < 0) = false := by simp; exact h0
  unfold ofInt
  rw [hd, ← hv]
  exact roundNE_isVal _ _ (by rw [hv]; exact h)

theorem ofInt_neg {i : ℤ} (h : i < 0) :
    ofInt i = inf true ∨ ∃ m e, ofInt i = fin true m e := by
  have hd : decide (i < 0) = true := by simp; exact h
  unfold ofInt
  rw [hd]
  exact roundNE_sign _ _ _

/-! ### Conversion to an integer -/

theorem toInt64_nan : toInt64 nan = -2 ^ 63 := rfl

theorem toInt64_inf (s : Bool) : toInt64 (inf s) = -2 ^ 63 := rfl

theorem toInt64_fin (s : Bool) (m : ℕ) (e : ℤ) :
    toInt64 (fin s m e) = if -2 ^ 63 ≤ truncInt (fin s m e) ∧ truncInt (fin s m e) < 2 ^ 63
      then truncInt (fin s m e) else -2 ^ 63 := rfl

theorem truncInt_true (m : ℕ) (e : ℤ) :
    truncInt (fin true m e)
      = -(((if 0 ≤ e then m * 2 ^ e.toNat else m / 2 ^ (-e).toNat : ℕ)) : ℤ) := rfl

theorem truncInt_false (m : ℕ) (e : ℤ) :
    truncInt (fin false m e)
      = (((if 0 ≤ e then m * 2 ^ e.toNat else m / 2 ^ (-e).toNat : ℕ)) : ℤ) := rfl

theorem truncInt_neg_le (m : ℕ) (e : ℤ) : truncInt (fin true m e) ≤ 0 := by
  rw [truncInt_true]
  omega

theorem toInt64_neg_le (m : ℕ) (e : ℤ) : toInt64 (fin true m e) ≤ 0 := by
  have := truncInt_neg_le m e
  rw [toInt64_fin]
  split_ifs <;> omega

theorem truncInt_spec (m : ℕ) (e : ℤ) :
    0 ≤ truncInt (fin false m e) ∧ ((truncInt (fin false m e) : ℤ) : ℚ) ≤ (m : ℚ) * 2 ^ e
    ∧ (m : ℚ) * 2 ^ e < truncInt (fin false m e) + 1 := by
  rw [truncInt_false]
  by_cases he : 0 ≤ e
  · rw [if_pos he]
    have hv : (((m * 2 ^ e.toNat : ℕ) : ℤ) : ℚ) = (m : ℚ) * 2 ^ e := by
      push_cast
      rw [← zpow_natCast]
      congr 2; omega
    refine ⟨by positivity, hv.le, by rw [hv]; linarith⟩
  · rw [if_neg he]
    have hdpos : 0 < 2 ^ (-e).toNat := by positivity
    have hdq : ((2 ^ (-e).toNat : ℕ) : ℚ) = 2 ^ (-e) := by
      push_cast; rw [← zpow_natCast]; congr 1; omega
    generalize 2 ^ (-e).toNat = d at hdpos hdq
    have hval : (m : ℚ) * 2 ^ e = (m : ℚ) / d := by
      rw [hdq, zpow_neg, div_eq_mul_inv, inv_inv]
    have hdm : (m : ℚ) = d * (m / d : ℕ) + (m % d : ℕ) := by
      exact_mod_cast (Nat.div_add_mod m d).symm
    have hr : ((m % d : ℕ) : ℚ) < d := by exact_mod_cast Nat.mod_lt m hdpos
    have hr0 : (0 : ℚ) ≤ ((m % d : ℕ) : ℚ) := by positivity
    have hdq0 : (0 : ℚ) < d := by exact_mod_cast hdpos
    generalize m / d = q at hdm
    rw [hval, Int.cast_natCast]
    refine ⟨by positivity, ?_, ?_⟩
    · rw [le_div_iff₀ hdq0]; nlinarith
    · rw [div_lt_iff₀ hdq0]; nlinarith

theorem toInt64_le_val (m : ℕ) (e : ℤ) :
    ((toInt64 (fin false m e) : ℤ) : ℚ) ≤ (m : ℚ) * 2 ^ e := by
  obtain ⟨h0, h1, _⟩ := truncInt_spec m e
  rw [toInt64_fin]
  split_ifs
  · exact h1
  · have : (0 : ℚ) ≤ (m : ℚ) * 2 ^ e := by have := two_zpow_pos e; positivity
    push_cast; linarith

theorem toInt64_isVal {x : F64} {v : ℚ} (h : IsVal x v) (hv : v < 2 ^ 63) :
    0 ≤ toInt64 x ∧ ((toInt64 x : ℤ) : ℚ) ≤ v ∧ v < toInt64 x + 1 := by
  obtain ⟨m, e, rfl, rfl⟩ := h
  obtain ⟨h0, h1, h2⟩ := truncInt_spec m e
  have hlt : truncInt (fin false m e) < 2 ^ 63 := by
    have : ((truncInt (fin false m e) : ℤ) : ℚ) < ((2 ^ 63 : ℤ) : ℚ) := by
      push_cast; linarith
    exact_mod_cast this
  have : toInt64 (fin false m e) = truncInt (fin false m e) := by
    rw [toInt64_fin, if_pos ⟨by omega, hlt⟩]
  rw [this]
  exact ⟨h0, h1, h2⟩

/-- A positive conversion result comes from a finite value below `2^63` with
a clear sign bit. -/
theorem toInt64_pos {x : F64} (h : 0 < toInt64 x) :
    ∃ v, IsVal x v ∧ v < 2 ^ 63 ∧ ((toInt64 x : ℤ) : ℚ) ≤ v ∧ v < toInt64 x + 1 := by
  rcases x with _ | s | ⟨s, m, e⟩
  · rw [toInt64_nan] at h; omega
  · rw [toInt64_inf] at h; omega
  · cases s
    · obtain ⟨h0, h1, h2⟩ := truncInt_spec m e
      have hx : toInt64 (fin false m e) = truncInt (fin false m e)
          ∧ truncInt (fin false m e) < 2 ^ 63 := by
        rw [toInt64_fin] at h ⊢
        split_ifs at h ⊢ with hc
        · exact ⟨rfl, hc.2⟩
        · omega
      rw [hx.1]
      refine ⟨_, ⟨m, e, rfl, rfl⟩, ?_, h1, h2⟩
      have : ((truncInt (fin false m e) + 1 : ℤ) : ℚ) ≤ ((2 ^ 63 : ℤ) : ℚ) := by
        exact_mod_cast hx.2
      push_cast at this
      linarith
    · have := toInt64_neg_le m e; omega

theorem toInt64_le_of_LeVal {x : F64} {c : ℚ} (h : LeVal x c) (hc : 0 ≤ c) :
    ((toInt64 x : ℤ) : ℚ) ≤ c := by
  rcases x with _ | s | ⟨s, m, e⟩
  · rw [toInt64_nan]; push_cast; linarith
  · rw [toInt64_inf]; push_cast; linarith
  · cases s
    · exact le_trans (toInt64_le_val m e) h
    · have : ((toInt64 (fin true m e) : ℤ) : ℚ) ≤ 0 := by exact_mod_cast toInt64_neg_le m e
      linarith

/-! ### `math.Min` and `math.Max` -/

theorem min_cases (a b : F64) :
    F64.min a b = inf true ∨ F64.min a b = nan ∨ F64.min a b = a ∨ F64.min a b = b := by
  unfold F64.min
  split_ifs <;> simp

theorem max_cases (a b : F64) :
    F64.max a b = inf false ∨ F64.max a b = nan ∨ F64.max a b = a ∨ F64.max a b = b := by
  unfold F64.max
  split_ifs <;> simp

theorem min_canon {a b : F64} (ha : Canon a) (hb : Canon b) : Canon (F64.min a b) := by
  rcases min_cases a b with h | h | h | h <;> rw [h] <;> trivial

theorem max_canon {a b : F64} (ha : Canon a) (hb : Canon b) : Canon (F64.max a b) := by
  rcases max_cases a b with h | h | h | h <;> rw [h] <;> trivial

theorem min_fin_fin (s1 s2 : Bool) (m1 m2 : ℕ) (e1 e2 : ℤ) :
    F64.min (fin s1 m1 e1) (fin s2 m2 e2)
      = if (eq (fin s1 m1 e1) zero && eq (fin s1 m1 e1) (fin s2 m2 e2)) = true
        then (if s1 = true then fin s1 m1 e1 else fin s2 m2 e2)
        else if lt (fin s1 m1 e1) (fin s2 m2 e2) = true then fin s1 m1 e1 else fin s2 m2 e2 := by
  unfold F64.min
  rw [if_neg (by simp), if_neg (by simp [isNaN])]
  rfl

theorem max_fin_fin (s1 s2 : Bool) (m1 m2 : ℕ) (e1 e2 : ℤ) :
    F64.max (fin s1 m1 e1) (fin s2 m2 e2)
      = if (eq (fin s1 m1 e1) zero && eq (fin s1 m1 e1) (fin s2 m2 e2)) = true
        then (if s1 = true then fin s2 m2 e2 else fin s1 m1 e1)
        else if lt (fin s2 m2 e2) (fin s1 m1 e1) = true then fin s1 m1 e1 else fin s2 m2 e2 := by
  unfold F64.max
  rw [if_neg (by simp), if_neg (by simp [isNaN])]
  rfl

theorem toRat_zero : toRat zero = 0 := by simp [zero, toRat]

/-- The minimum of two finite values has the smaller value. -/
theorem min_fin_toRat (s1 s2 : Bool) (m1 m2 : ℕ) (e1 e2 : ℤ) :
    ∃ s m e, F64.min (fin s1 m1 e1) (fin s2 m2 e2) = fin s m e ∧
      toRat (fin s m e) = Min.min (toRat (fin s1 m1 e1)) (toRat (fin s2 m2 e2)) := by
  rw [min_fin_fin]
  by_cases hz : (eq (fin s1 m1 e1) zero && eq (fin s1 m1 e1) (fin s2 m2 e2)) = true
  · rw [if_pos hz]
    rw [Bool.and_eq_true, zero, eq_fin_iff, eq_fin_iff] at hz
    split_ifs
    · exact ⟨_, _, _, rfl, by rw [← hz.2, min_self]⟩
    · exact ⟨_, _, _, rfl, by rw [← hz.2, min_self]⟩
  · rw [if_neg hz]
    by_cases hl : lt (fin s1 m1 e1) (fin s2 m2 e2) = true
    · rw [if_pos hl]
      rw [lt_fin_iff] at hl
      exact ⟨_, _, _, rfl, (min_eq_left hl.le).symm⟩
    · rw [if_neg hl]
      rw [lt_fin_iff, not_lt] at hl
      exact ⟨_, _, _, rfl, (min_eq_right hl).symm⟩

theorem min_LeVal_right {a b : F64} {c : ℚ} (h : LeVal b c) : LeVal (F64.min a b) c := by
  rcases a with _ | sa | ⟨sa, ma, ea⟩ <;> rcases b with _ | sb | ⟨sb, mb, eb⟩
  all_goals try (simp [F64.min, isNaN, LeVal]; done)
  · -- nan, inf
    cases sb <;> simp [F64.min, isNaN, LeVal]
  · cases sa <;> simp [F64.min, isNaN, LeVal]
  · -- inf, inf
    have hb : sb = true := h
    subst hb
    simp [F64.min, LeVal]
  · -- inf, fin
    cases sa
    · have : F64.min (inf false) (fin sb mb eb) = fin sb mb eb := by
        simp [F64.min, isNaN, eq, lt]
      rw [this]; exact h
    · simp [F64.min, LeVal]
  · -- fin, inf
    have hb : sb = true := h
    subst hb
    simp [F64.min, LeVal]
  · obtain ⟨s, m, e, h1, h2⟩ := min_fin_toRat sa sb ma mb ea eb
    rw [h1]
    show toRat (fin s m e) ≤ c
    rw [h2]
    exact le_trans (min_le_right _ _) h

theorem min_LeVal_left {a b : F64} {c : ℚ} (h : LeVal a c) : LeVal (F64.min a b) c := by
  rcases a with _ | sa | ⟨sa, ma, ea⟩ <;> rcases b with _ | sb | ⟨sb, mb, eb⟩
  all_goals try (simp [F64.min, isNaN, LeVal]; done)
  · cases sb <;> simp [F64.min, isNaN, LeVal]
  · cases sa <;> simp [F64.min, isNaN, LeVal]
  · have ha : sa = true := h
    subst ha
    simp [F64.min, LeVal]
  · have ha : sa = true := h
    subst ha
    simp [F64.min, LeVal]
  · cases sb
    · have : F64.min (fin sa ma ea) (inf false) = fin sa ma ea := by
        simp [F64.min, isNaN, eq, lt]
      rw [this]; exact h
    · simp [F64.min, LeVal]
  · obtain ⟨s, m, e, h1, h2⟩ := min_fin_toRat sa sb ma mb ea eb
    rw [h1]
    show toRat (fin s m e) ≤ c
    rw [h2]
    exact le_trans (min_le_left _ _) h

theorem min_isVal {a b : F64} {va vb : ℚ} (ha : IsVal a va) (hb : IsVal b vb) :
    IsVal (F64.min a b) (Min.min va vb) := by
  obtain ⟨m1, e1, rfl, rfl⟩ := ha
  obtain ⟨m2, e2, rfl, rfl⟩ := hb
  rcases min_cases (fin false m1 e1) (fin false m2 e2) with h | h | h | h
  · obtain ⟨s, m, e, h1, _⟩ := min_fin_toRat false false m1 m2 e1 e2
    rw [h] at h1; cases h1
  · obtain ⟨s, m, e, h1, _⟩ := min_fin_toRat false false m1 m2 e1 e2
    rw [h] at h1; cases h1
  · obtain ⟨s, m, e, h1, h2⟩ := min_fin_toRat false false m1 m2 e1 e2
    rw [h] at h1 ⊢
    rw [← h1, toRat_false, toRat_false] at h2
    exact ⟨m1, e1, rfl, h2⟩
  · obtain ⟨s, m, e, h1, h2⟩ := min_fin_toRat false false m1 m2 e1 e2
    rw [h] at h1 ⊢
    rw [← h1, toRat_false, toRat_false] at h2
    exact ⟨m2, e2, rfl, h2⟩

/-- `math.Max(0, y)` for a finite `y`: `0` or `y`, whichever is larger. -/
theorem max_zero_fin (s : Bool) (m : ℕ) (e : ℤ) :
    (F64.max zero (fin s m e) = zero ∧ toRat (fin s m e) ≤ 0) ∨
    (F64.max zero (fin s m e) = fin s m e ∧ 0 < toRat (fin s m e)) := by
  rw [zero, max_fin_fin]
  simp only [zero]
  by_cases hz : (eq (fin false 0 (-1074)) (fin false 0 (-1074))
      && eq (fin false 0 (-1074)) (fin s m e)) = true
  · rw [if_pos hz]
    rw [Bool.and_eq_true, eq_fin_iff, eq_fin_iff] at hz
    left
    refine ⟨by simp, ?_⟩
    rw [← hz.2]; simp [toRat]
  · rw [if_neg hz]
    have hz2 : ¬ toRat (fin false 0 (-1074)) = toRat (fin s m e) := by
      intro h
      apply hz
      rw [Bool.and_eq_true, eq_fin_iff, eq_fin_iff]
      exact ⟨rfl, h⟩
    have h0 : toRat (fin false 0 (-1074)) = 0 := by simp [toRat]
    rw [h0] at hz2
    by_cases hl : lt (fin s m e) (fin false 0 (-1074)) = true
    · rw [if_pos hl]
      rw [lt_fin_iff, h0] at hl
      left; exact ⟨rfl, hl.le⟩
    · rw [if_neg hl]
      rw [lt_fin_iff, h0, not_lt] at hl
      right; exact ⟨rfl, lt_of_le_of_ne hl hz2⟩

theorem max_zero_isVal {y : F64} {v : ℚ} (h : IsVal y v) : IsVal (F64.max zero y) v := by
  obtain ⟨m, e, rfl, rfl⟩ := h
  rcases max_zero_fin false m e with ⟨h1, h2⟩ | ⟨h1, _⟩
  · rw [h1]
    have h3 := toRat_pos_ge m e
    rw [toRat_false] at h2 h3
    exact ⟨0, -1074, rfl, by rw [Nat.cast_zero, zero_mul]; linarith⟩
  · rw [h1]; exact ⟨m, e, rfl, rfl⟩

theorem max_zero_neg (m : ℕ) (e : ℤ) : F64.max zero (fin true m e) = zero := by
  rcases max_zero_fin true m e with ⟨h1, _⟩ | ⟨_, h2⟩
  · exact h1
  · have := toRat_neg_le m e; linarith

/-! ### The jitter step -/

theorem c08_isVal : IsVal c08 C8 := ⟨7205759403792794, -53, rfl, by simp [C8]⟩

theorem c02_isVal : IsVal c02 C2 := ⟨7205759403792794, -55, rfl, by simp [C2]⟩

theorem C8_eq : C8 = 3602879701896397 / 4503599627370496 := by
  unfold C8; rw [zpow_neg]; norm_num

theorem C2_eq : C2 = 3602879701896397 / 18014398509481984 := by
  unfold C2; rw [zpow_neg]; norm_num

theorem Repr53.of_zero : Repr53 0 := ⟨0, 0, by norm_num, by norm_num, by simp⟩

theorem Repr53.of_int {i : ℤ} (h0 : 0 ≤ i) (h : i ≤ 2 ^ 53) : Repr53 (i : ℚ) := by
  have := Repr53.of_nat (n := i.toNat) (by omega)
  have h2 : ((i.toNat : ℕ) : ℚ) = (i : ℚ) := by
    rw [← Int.cast_natCast, Int.toNat_of_nonneg h0]
  rwa [h2] at this

theorem Repr53.two_zpow {k : ℤ} (h1 : -1074 ≤ k) : Repr53 ((2 : ℚ) ^ k) :=
  ⟨1, k, by norm_num, h1, by simp⟩

/-- A rounded value is representable. -/
theorem Rounds.repr {v w : ℚ} (h : Rounds v w) (hv : v < 2 ^ (1023 : ℤ)) : Repr53 w := by
  obtain ⟨m, e, rfl, rfl⟩ := h
  obtain ⟨m', e', _, h2, h3, h4⟩ := roundNE_val false m e hv
  exact ⟨m', e', h3, h4, h2⟩

theorem Rounds.zero {w : ℚ} (h : Rounds 0 w) : w = 0 := h.exact Repr53.of_zero

theorem ofInt_zero : ofInt 0 = zero := by decide!

theorem toInt64_roundNE_true_le (m : ℕ) (e : ℤ) : toInt64 (roundNE true m e) ≤ 0 := by
  rcases roundNE_sign true m e with h | ⟨m', e', h⟩
  · rw [h, toInt64_inf]; norm_num
  · rw [h]; exact toInt64_neg_le _ _

theorem jitterPortion_cases (x : F64) (draw : ℕ) :
    0 ≤ (draw : ℤ) % jitterPortion x ∧
    (((draw : ℤ) % jitterPortion x = 0 ∧ toInt64 (mul c02 x) ≤ 1) ∨
     ((draw : ℤ) % jitterPortion x + 1 ≤ toInt64 (mul c02 x))) := by
  have hp := jitterPortion_pos x
  have h1 := Int.emod_nonneg (draw : ℤ) (show jitterPortion x ≠ 0 by omega)
  have h2 := Int.emod_lt_of_pos (draw : ℤ) (show 0 < jitterPortion x by omega)
  refine ⟨h1, ?_⟩
  unfold jitterPortion at h2 ⊢
  split_ifs at h2 ⊢ with hj
  · left; exact ⟨by omega, by omega⟩
  · right; omega

/-- The jitter step on a finite non-negative interval below `2^63`, in terms
of the four roundings it performs. -/
theorem addJitter_spec {x : F64} {X : ℚ} (hx : IsVal x X) (hX : X < 2 ^ 63) (draw : ℕ) :
    ∃ (A B R S : ℚ) (j r : ℤ),
      Rounds (X * C8) A ∧ Rounds (C2 * X) B ∧
      (0 ≤ j ∧ (j : ℚ) ≤ B ∧ B < j + 1) ∧
      (0 ≤ r ∧ ((r = 0 ∧ j ≤ 1) ∨ r + 1 ≤ j)) ∧
      Rounds (r : ℚ) R ∧ Rounds (A + R) S ∧
      (S < 2 ^ 63 → ∃ d, addJitter x draw = some d ∧ 0 ≤ d ∧ (d : ℚ) ≤ S ∧ S < d + 1) := by
  have hX0 := hx.val_nonneg
  have hC8 : C8 < 1 := by rw [C8_eq]; norm_num
  have hC80 : 0 < C8 := by rw [C8_eq]; norm_num
  have hC2 : C2 < 1 / 4 := by rw [C2_eq]; norm_num
  have hC20 : 0 < C2 := by rw [C2_eq]; norm_num
  have h1023 : (2 : ℚ) ^ 63 < 2 ^ (1023 : ℤ) := by
    rw [show (2 : ℚ) ^ 63 = 2 ^ (63 : ℤ) by norm_num]
    exact zpow_lt_zpow_right₀ (by norm_num) (by norm_num)
  obtain ⟨A, hA, hAv⟩ := mul_isVal hx c08_isVal (by nlinarith)
  obtain ⟨B, hB, hBv⟩ := mul_isVal c02_isVal hx (by nlinarith)
  have hr63 : Repr53 ((2 : ℚ) ^ 63) := by
    have := Repr53.two_zpow (k := 63) (by norm_num); norm_num at this ⊢; exact this
  have hA63 : A ≤ 2 ^ 63 := hA.le_of_le hr63 (by nlinarith)
  have hB63 : B < 2 ^ 63 := by
    have hr61 : Repr53 ((2 : ℚ) ^ 61) := by
      have := Repr53.two_zpow (k := 61) (by norm_num); norm_num at this ⊢; exact this
    have : B ≤ 2 ^ 61 := hB.le_of_le hr61 (by nlinarith)
    have : (2 : ℚ) ^ 61 < 2 ^ 63 := by norm_num
    linarith
  obtain ⟨hj0, hj1, hj2⟩ := toInt64_isVal hBv hB63
  obtain ⟨hr0, hrj⟩ := jitterPortion_cases x draw
  set r := (draw : ℤ) % jitterPortion x with hr
  set j := toInt64 (mul c02 x) with hj
  have hrB : (r : ℚ) < 2 ^ 63 := by
    rcases hrj with ⟨h, _⟩ | h
    · rw [h]; norm_num
    · have : ((r + 1 : ℤ) : ℚ) ≤ (j : ℚ) := by exact_mod_cast h
      push_cast at this; linarith
  obtain ⟨R, hR, hRv⟩ := ofInt_isVal hr0 (lt_trans hrB h1023)
  have hR63 : R ≤ 2 ^ 63 := hR.le_of_le hr63 hrB.le
  obtain ⟨S, hS, hSv⟩ := add_isVal hAv hRv (by
    have : (2 : ℚ) ^ 63 + 2 ^ 63 < 2 ^ (1023 : ℤ) := by
      rw [show (2 : ℚ) ^ 63 + 2 ^ 63 = 2 ^ (64 : ℤ) by norm_num]
      exact zpow_lt_zpow_right₀ (by norm_num) (by norm_num)
    linarith)
  refine ⟨A, B, R, S, j, r, hA, hB, ⟨hj0, hj1, hj2⟩, ⟨hr0, ?_⟩, hR, hS, ?_⟩
  · rcases hrj with ⟨h, h'⟩ | h
    · left; exact ⟨h, h'⟩
    · right; exact h
  · intro hS63
    obtain ⟨hd0, hd1, hd2⟩ := toInt64_isVal hSv hS63
    exact ⟨_, addJitter_eq x draw, hd0, hd1, hd2⟩

theorem mul_nan_left (y : F64) : mul nan y = nan := by cases y <;> rfl

theorem add_nan_left (y : F64) : add nan y = nan := by cases y <;> rfl

/-- The jitter step on a NaN, an infinity or a value with its sign bit set
returns a duration that is not positive. -/
theorem addJitter_special {x : F64} (hx : ∀ v, ¬ IsVal x v) (draw : ℕ) :
    ∃ d, addJitter x draw = some d ∧ d ≤ 0 := by
  refine ⟨_, addJitter_eq x draw, ?_⟩
  rcases x with _ | s | ⟨s, m, e⟩
  · rw [mul_nan_left, add_nan_left, toInt64_nan]; norm_num
  · have h1 : mul (inf s) c08 = inf (xor s false) := by simp [mul, c08]
    rw [h1]
    generalize ofInt ((draw : ℤ) % jitterPortion (inf s)) = y
    rcases y with _ | s2 | ⟨s2, m2, e2⟩
    · show toInt64 nan ≤ 0
      rw [toInt64_nan]; norm_num
    · show toInt64 (if xor s false = s2 then inf (xor s false) else nan) ≤ 0
      split_ifs
      · rw [toInt64_inf]; norm_num
      · rw [toInt64_nan]; norm_num
    · show toInt64 (inf (xor s false)) ≤ 0
      rw [toInt64_inf]; norm_num
  · cases s
    · exact absurd ⟨m, e, rfl, rfl⟩ (hx _)
    · have hj : toInt64 (mul c02 (fin true m e)) ≤ 0 := toInt64_roundNE_true_le _ _
      have hr : (draw : ℤ) % jitterPortion (fin true m e) = 0 := by
        have : jitterPortion (fin true m e) = 1 := by
          unfold jitterPortion; rw [if_pos (by omega)]
        rw [this]; omega
      rw [hr, ofInt_zero]
      have h1 : mul (fin true m e) c08 = roundNE true (m * 7205759403792794) (e + -53) := rfl
      rw [h1]
      rcases roundNE_sign true (m * 7205759403792794) (e + -53) with h | ⟨m', e', h⟩
      · rw [h]
        show toInt64 (inf true) ≤ 0
        rw [toInt64_inf]; norm_num
      · rw [h]
        show toInt64 (if scaled true m' e' (Min.min e' (-1074)) + scaled false 0 (-1074) (Min.min e' (-1074)) = 0
          then fin (true && false) 0 (-1074)
          else roundNE (decide (scaled true m' e' (Min.min e' (-1074))
            + scaled false 0 (-1074) (Min.min e' (-1074)) < 0))
            (scaled true m' e' (Min.min e' (-1074))
              + scaled false 0 (-1074) (Min.min e' (-1074))).natAbs (Min.min e' (-1074))) ≤ 0
        have hs : scaled false 0 (-1074) (Min.min e' (-1074)) = 0 := by simp [scaled]
        have hs2 : scaled true m' e' (Min.min e' (-1074)) ≤ 0 := by
          simp only [scaled, if_true]; omega
        rw [hs, add_zero]
        split_ifs with h0
        · decide!
        · have : decide (scaled true m' e' (Min.min e' (-1074)) < 0) = true := by
            simp; omega
          rw [this]
          exact toInt64_roundNE_true_le _ _

/-! ### Bounds on the jittered interval -/

theorem C8_add_C2 : C8 + C2 = 1 + 1 / 2 ^ 54 := by
  rw [C8_eq, C2_eq]; norm_num

/-- Below `2^52` the two rounded products add up to at most `X + 9/16`. -/
theorem jitter_sum_le {X A B : ℚ} (hX : X ≤ 2 ^ 52)
    (hA : Rounds (X * C8) A) (hB : Rounds (C2 * X) B) : A + B ≤ X + 9 / 16 := by
  have hC8 : C8 < 1 := by rw [C8_eq]; norm_num
  have hC80 : 0 < C8 := by rw [C8_eq]; norm_num
  have hC2 : C2 < 1 / 4 := by rw [C2_eq]; norm_num
  have hC20 : 0 < C2 := by rw [C2_eq]; norm_num
  have h1 : X * C8 < 2 ^ (52 : ℤ) := by
    have : X * C8 ≤ 2 ^ 52 * C8 := mul_le_mul_of_nonneg_right hX hC80.le
    have : (2 : ℚ) ^ 52 * C8 < 2 ^ 52 := by nlinarith
    norm_num at *; linarith
  have h2 : C2 * X < 2 ^ (50 : ℤ) := by
    have : C2 * X ≤ C2 * 2 ^ 52 := mul_le_mul_of_nonneg_left hX hC20.le
    have : C2 * (2 : ℚ) ^ 52 < 2 ^ 50 := by nlinarith
    norm_num at *; linarith
  have hA' := hA.le_add h1 (by norm_num)
  have hB' := hB.le_add h2 (by norm_num)
  have hs : X * C8 + C2 * X = X + X / 2 ^ 54 := by
    have := C8_add_C2
    have : X * C8 + C2 * X = X * (C8 + C2) := by ring
    rw [this, C8_add_C2]; ring
  have hx4 : X / 2 ^ 54 ≤ 1 / 4 := by
    rw [div_le_iff₀ (by positivity)]; norm_num at hX ⊢; linarith
  have e1 : (2 : ℚ) ^ ((52 : ℤ) - 54) = 1 / 4 := by norm_num
  have e2 : (2 : ℚ) ^ ((50 : ℤ) - 54) = 1 / 16 := by norm_num
  rw [e1] at hA'
  rw [e2] at hB'
  linarith

/-- Up to `2^53` the jittered interval does not exceed the interval. -/
theorem jitter_upper {X A B R S : ℚ} {j r : ℤ} (hXr : Repr53 X) (hX0 : 0 ≤ X)
    (hX : X ≤ 2 ^ 53) (hA : Rounds (X * C8) A) (hB : Rounds (C2 * X) B)
    (hj : 0 ≤ j ∧ (j : ℚ) ≤ B ∧ B < j + 1)
    (hr : 0 ≤ r ∧ ((r = 0 ∧ j ≤ 1) ∨ r + 1 ≤ j))
    (hR : Rounds (r : ℚ) R) (hS : Rounds (A + R) S) : S ≤ X := by
  have hC8 : C8 < 1 := by rw [C8_eq]; norm_num
  have hC80 : 0 < C8 := by rw [C8_eq]; norm_num
  have hC8h : 1 / 2 < C8 := by rw [C8_eq]; norm_num
  have hC2 : C2 < 1 / 4 := by rw [C2_eq]; norm_num
  have hC20 : 0 < C2 := by rw [C2_eq]; norm_num
  have hAX : A ≤ X := hA.le_of_le hXr (by nlinarith)
  rcases hr.2 with ⟨h0, _⟩ | h1
  · subst h0
    have : R = 0 := by
      apply Rounds.zero; simpa using hR
    subst this
    exact hS.le_of_le hXr (by linarith)
  · have hrj : (r : ℚ) + 1 ≤ j := by exact_mod_cast h1
    have hB51 : B ≤ 2 ^ 51 := by
      have hr51 : Repr53 ((2 : ℚ) ^ 51) := by
        have := Repr53.two_zpow (k := 51) (by norm_num); norm_num at this ⊢; exact this
      refine hB.le_of_le hr51 ?_
      have : C2 * X ≤ C2 * 2 ^ 53 := mul_le_mul_of_nonneg_left hX hC20.le
      nlinarith
    have hr53 : r ≤ 2 ^ 53 := by
      have : (r : ℚ) ≤ ((2 ^ 53 : ℤ) : ℚ) := by push_cast; linarith
      exact_mod_cast this
    have hRr : R = r := hR.exact (Repr53.of_int hr.1 hr53)
    subst hRr
    refine hS.le_of_le hXr ?_
    by_cases hX52 : X ≤ 2 ^ 52
    · have := jitter_sum_le hX52 hA hB
      linarith [hj.2.1]
    · rw [not_le] at hX52
      have h1 : X * C8 < 2 ^ (53 : ℤ) := by
        have : X * C8 ≤ 2 ^ 53 * C8 := mul_le_mul_of_nonneg_right hX hC80.le
        have : (2 : ℚ) ^ 53 * C8 < 2 ^ 53 := by nlinarith
        norm_num at *; linarith
      have h2 : C2 * X < 2 ^ (51 : ℤ) := by
        have : C2 * X ≤ C2 * 2 ^ 53 := mul_le_mul_of_nonneg_left hX hC20.le
        have : C2 * (2 : ℚ) ^ 53 < 2 ^ 51 := by nlinarith
        norm_num at *; linarith
      have hA' := hA.le_add h1 (by norm_num)
      have hB' := hB.le_add h2 (by norm_num)
      have hs : X * C8 + C2 * X = X + X / 2 ^ 54 := by
        have : X * C8 + C2 * X = X * (C8 + C2) := by ring
        rw [this, C8_add_C2]; ring
      have hx4 : X / 2 ^ 54 ≤ 1 / 2 := by
        rw [div_le_iff₀ (by positivity)]; norm_num at hX ⊢; linarith
      have e1 : (2 : ℚ) ^ ((53 : ℤ) - 54) = 1 / 2 := by norm_num
      have e2 : (2 : ℚ) ^ ((51 : ℤ) - 54) = 1 / 8 := by norm_num
      rw [e1] at hA'
      rw [e2] at hB'
      have hsum : A + r ≤ X + 1 / 8 := by linarith [hj.2.1]
      obtain ⟨nA, hnA⟩ := hA.grid (k := 51) (by
        have : (2 : ℚ) ^ (51 : ℤ) = 2 ^ 52 * (1 / 2) := by norm_num
        rw [this]; nlinarith)
      obtain ⟨nX, hnX⟩ := hXr.rounds.grid (k := 52) (by norm_num at hX52 ⊢; linarith)
      have e3 : (2 : ℚ) ^ ((51 : ℤ) - 52) = 1 / 2 := by norm_num
      have e4 : (2 : ℚ) ^ ((52 : ℤ) - 52) = 1 := by norm_num
      rw [e3] at hnA
      rw [e4, mul_one] at hnX
      have hlt : (((nA : ℤ) + 2 * r : ℤ) : ℚ) < ((2 * (nX : ℤ) + 1 : ℤ) : ℚ) := by
        push_cast; rw [hnA, hnX] at hsum; linarith
      have hi : (nA : ℤ) + 2 * r < 2 * (nX : ℤ) + 1 := by exact_mod_cast hlt
      have hi2 : (nA : ℤ) + 2 * r ≤ 2 * (nX : ℤ) := by omega
      have hq : (((nA : ℤ) + 2 * r : ℤ) : ℚ) ≤ ((2 * (nX : ℤ) : ℤ) : ℚ) := by exact_mod_cast hi2
      push_cast at hq
      rw [hnA, hnX]; linarith

/-- The jittered interval is at least any integer below `0.8 * X`. -/
theorem jitter_lower {X A R S : ℚ} {F : ℤ} (hA : Rounds (X * C8) A)
    (hAv : X * C8 < 2 ^ (1023 : ℤ)) (hR0 : 0 ≤ R) (hS : Rounds (A + R) S)
    (hF0 : 0 ≤ F) (hF53 : F ≤ 2 ^ 53) (hF : (F : ℚ) ≤ X * C8) : (F : ℚ) ≤ S := by
  have h1 : (F : ℚ) ≤ A := hA.ge_of_ge (Repr53.of_int hF0 hF53) hF
  have h2 : A ≤ S := hS.ge_of_ge (hA.repr hAv) (by linarith)
  linarith

/-- Up to `2^50` the jittered interval stays below the next integer `K + 1`
at or above the interval. -/
theorem jitter_strict {X A B R S : ℚ} {j r K : ℤ} (hX0 : 0 ≤ X)
    (hX : X ≤ 2 ^ 50) (hK0 : 0 ≤ K) (hK : (K : ℚ) < X) (hK1 : X ≤ K + 1)
    (hA : Rounds (X * C8) A) (hB : Rounds (C2 * X) B)
    (hj : 0 ≤ j ∧ (j : ℚ) ≤ B ∧ B < j + 1)
    (hr : 0 ≤ r ∧ ((r = 0 ∧ j ≤ 1) ∨ r + 1 ≤ j))
    (hR : Rounds (r : ℚ) R) (hS : Rounds (A + R) S) : S < K + 1 := by
  have hC8 : C8 < 7 / 8 := by rw [C8_eq]; norm_num
  have hC80 : 0 < C8 := by rw [C8_eq]; norm_num
  have hC20 : 0 < C2 := by rw [C2_eq]; norm_num
  have hK50 : K < 2 ^ 50 := by
    have : (K : ℚ) < ((2 ^ 50 : ℤ) : ℚ) := by push_cast; linarith
    exact_mod_cast this
  have hrep : Repr53 ((K : ℚ) + 7 / 8) := by
    refine ⟨(8 * K + 7).toNat, -3, by omega, by norm_num, ?_⟩
    have : (((8 * K + 7).toNat : ℕ) : ℚ) = 8 * K + 7 := by
      rw [← Int.cast_natCast, Int.toNat_of_nonneg (by omega)]; push_cast; ring
    rw [this, zpow_neg]; norm_num; ring
  have hK0q : (0 : ℚ) ≤ K := by exact_mod_cast hK0
  suffices h : A + R ≤ K + 7 / 8 by
    have := hS.le_of_le hrep h
    linarith
  rcases hr.2 with ⟨h0, _⟩ | h1
  · subst h0
    have : R = 0 := by
      apply Rounds.zero; simpa using hR
    subst this
    have : A ≤ K + 7 / 8 := hA.le_of_le hrep (by nlinarith)
    linarith
  · have hrj : (r : ℚ) + 1 ≤ j := by exact_mod_cast h1
    have hX52 : X ≤ 2 ^ 52 := by
      have : (2 : ℚ) ^ 50 ≤ 2 ^ 52 := by norm_num
      linarith
    have hsum := jitter_sum_le hX52 hA hB
    have hr53 : r ≤ 2 ^ 53 := by
      have : (r : ℚ) ≤ ((2 ^ 53 : ℤ) : ℚ) := by
        push_cast
        have : A + B ≤ 2 ^ 52 + 9 / 16 := by linarith
        have hA0 := hA.nonneg
        have : (2 : ℚ) ^ 52 + 9 / 16 ≤ 2 ^ 53 := by norm_num
        linarith [hj.2.1]
      exact_mod_cast this
    have hRr : R = r := hR.exact (Repr53.of_int hr.1 hr53)
    subst hRr
    linarith [hj.2.1]

/-- Whatever the interval below `2^63` is, the jittered interval stays below
`2^63`. -/
theorem jitter_in_range {X A B R S : ℚ} {j r : ℤ} (hXr : Repr53 X)
    (hX : X < 2 ^ 63) (hA : Rounds (X * C8) A) (hB : Rounds (C2 * X) B)
    (hj : 0 ≤ j ∧ (j : ℚ) ≤ B ∧ B < j + 1)
    (hr : 0 ≤ r ∧ ((r = 0 ∧ j ≤ 1) ∨ r + 1 ≤ j))
    (hR : Rounds (r : ℚ) R) (hS : Rounds (A + R) S) : S < 2 ^ 63 := by
  have hC80 : 0 < C8 := by rw [C8_eq]; norm_num
  have hC20 : 0 < C2 := by rw [C2_eq]; norm_num
  -- the interval is at most the largest value below 2^63
  have hX' : X ≤ 2 ^ 63 - 1024 := by
    by_cases h62 : X < 2 ^ 62
    · have : (2 : ℚ) ^ 62 ≤ 2 ^ 63 - 1024 := by norm_num
      linarith
    · rw [not_lt] at h62
      obtain ⟨n, hn⟩ := hXr.rounds.grid (k := 62) (by norm_num at h62 ⊢; linarith)
      have e : (2 : ℚ) ^ ((62 : ℤ) - 52) = 1024 := by norm_num
      rw [e] at hn
      have hq : (n : ℚ) < 9007199254740992 := by
        rw [hn] at hX; norm_num at hX; linarith
      have hn53 : n < 9007199254740992 := by exact_mod_cast hq
      have hq2 : (n : ℚ) + 1 ≤ 9007199254740992 := by
        exact_mod_cast (show n + 1 ≤ 9007199254740992 by omega)
      rw [hn]; norm_num; linarith
  have hA' : A ≤ 7205759403792793 * 1024 := by
    by_cases h62 : X * C8 < 2 ^ 62
    · have hr62 : Repr53 ((2 : ℚ) ^ 62) := by
        have := Repr53.two_zpow (k := 62) (by norm_num); norm_num at this ⊢; exact this
      have := hA.le_of_le hr62 h62.le
      have : (2 : ℚ) ^ 62 ≤ 7205759403792793 * 1024 := by norm_num
      linarith
    · rw [not_lt] at h62
      obtain ⟨n, hn⟩ := hA.grid (k := 62) (by norm_num at h62 ⊢; linarith)
      have e : (2 : ℚ) ^ ((62 : ℤ) - 52) = 1024 := by norm_num
      rw [e] at hn
      have hlt : X * C8 < 2 ^ (63 : ℤ) := by
        have : X * C8 ≤ (2 ^ 63 - 1024) * C8 := mul_le_mul_of_nonneg_right hX' hC80.le
        rw [C8_eq] at this ⊢; norm_num at this ⊢; linarith
      have hle := hA.le_add hlt (by norm_num)
      have e2 : (2 : ℚ) ^ ((63 : ℤ) - 54) = 512 := by norm_num
      rw [e2] at hle
      have hc : (2 ^ 63 - 1024) * C8 ≤ 7205759403792794 * 1024 - 819 := by
        rw [C8_eq]; norm_num
      have hq : (n : ℚ) < 7205759403792794 := by
        have : X * C8 ≤ (2 ^ 63 - 1024) * C8 := mul_le_mul_of_nonneg_right hX' hC80.le
        rw [hn] at hle; linarith
      have hn' : n < 7205759403792794 := by exact_mod_cast hq
      have hq2 : (n : ℚ) + 1 ≤ 7205759403792794 := by
        exact_mod_cast (show n + 1 ≤ 7205759403792794 by omega)
      rw [hn]; linarith
  have hB' : B ≤ 7205759403792793 * 256 := by
    by_cases h60 : C2 * X < 2 ^ 60
    · have hr60 : Repr53 ((2 : ℚ) ^ 60) := by
        have := Repr53.two_zpow (k := 60) (by norm_num); norm_num at this ⊢; exact this
      have := hB.le_of_le hr60 h60.le
      have : (2 : ℚ) ^ 60 ≤ 7205759403792793 * 256 := by norm_num
      linarith
    · rw [not_lt] at h60
      obtain ⟨n, hn⟩ := hB.grid (k := 60) (by norm_num at h60 ⊢; linarith)
      have e : (2 : ℚ) ^ ((60 : ℤ) - 52) = 256 := by norm_num
      rw [e] at hn
      have hlt : C2 * X < 2 ^ (61 : ℤ) := by
        have : C2 * X ≤ C2 * (2 ^ 63 - 1024) := mul_le_mul_of_nonneg_left hX' hC20.le
        rw [C2_eq] at this ⊢; norm_num at this ⊢; linarith
      have hle := hB.le_add hlt (by norm_num)
      have e2 : (2 : ℚ) ^ ((61 : ℤ) - 54) = 128 := by norm_num
      rw [e2] at hle
      have hc : C2 * (2 ^ 63 - 1024) ≤ 7205759403792794 * 256 - 204 := by
        rw [C2_eq]; norm_num
      have hq : (n : ℚ) < 7205759403792794 := by
        have : C2 * X ≤ C2 * (2 ^ 63 - 1024) := mul_le_mul_of_nonneg_left hX' hC20.le
        rw [hn] at hle; linarith
      have hn' : n < 7205759403792794 := by exact_mod_cast hq
      have hq2 : (n : ℚ) + 1 ≤ 7205759403792794 := by
        exact_mod_cast (show n + 1 ≤ 7205759403792794 by omega)
      rw [hn]; linarith
  have hrB : (r : ℚ) ≤ 7205759403792793 * 256 := by
    rcases hr.2 with ⟨h0, _⟩ | h1
    · rw [h0]; norm_num
    · have hrj : (r : ℚ) + 1 ≤ j := by exact_mod_cast h1
      linarith [hj.2.1]
  have hR' : R ≤ 7205759403792793 * 256 := by
    refine hR.le_of_le ⟨7205759403792793, 8, by norm_num, by norm_num, by norm_num⟩ hrB
  have hsum : A + R < 2 ^ (63 : ℤ) := by norm_num; linarith
  have hle := hS.le_add hsum (by norm_num)
  have e2 : (2 : ℚ) ^ ((63 : ℤ) - 54) = 512 := by norm_num
  rw [e2] at hle
  linarith

/-! ### Delays -/

theorem IsVal.leVal {x : F64} {v c : ℚ} (h : IsVal x v) (hc : v ≤ c) : LeVal x c := by
  obtain ⟨m, e, rfl, rfl⟩ := h
  exact hc

theorem IsVal.of_leVal {x : F64} {v c : ℚ} (h : IsVal x v) (hc : LeVal x c) : v ≤ c := by
  obtain ⟨m, e, rfl, rfl⟩ := h
  exact hc

theorem C8_ge : 4 / 5 ≤ C8 := by rw [C8_eq]; norm_num

theorem two_pow_63_lt : (2 : ℚ) ^ 63 < 2 ^ (1023 : ℤ) := by
  rw [show (2 : ℚ) ^ 63 = 2 ^ (63 : ℤ) by norm_num]
  exact zpow_lt_zpow_right₀ (by norm_num) (by norm_num)

/-- An interval of at most `c ≤ 2^53` gives a delay of at most `c`. -/
theorem addJitter_le {x : F64} {c : ℚ} {draw : ℕ} {d : ℤ} (hcan : Canon x) (hl : LeVal x c)
    (hc0 : 0 ≤ c) (hc : c ≤ 2 ^ 53) (h : addJitter x draw = some d) : (d : ℚ) ≤ c := by
  by_cases hv : ∃ v, IsVal x v
  · obtain ⟨X, hX⟩ := hv
    have hXc := hX.of_leVal hl
    have hX63 : X < 2 ^ 63 := by
      have : (2 : ℚ) ^ 53 < 2 ^ 63 := by norm_num
      linarith
    obtain ⟨A, B, R, S, j, r, hA, hB, hj, hr, hR, hS, hd⟩ := addJitter_spec hX hX63 draw
    have hSX := jitter_upper (hX.val_repr hcan) hX.val_nonneg (le_trans hXc hc) hA hB hj hr hR hS
    obtain ⟨d', h1, _, h3, _⟩ := hd (by linarith)
    rw [h] at h1
    cases h1
    linarith
  · obtain ⟨d', h1, h2⟩ := addJitter_special (fun v hv' => hv ⟨v, hv'⟩) draw
    rw [h] at h1
    cases h1
    have : (d : ℚ) ≤ 0 := by exact_mod_cast h2
    linarith

/-- A finite non-negative interval below `2^63` gives a non-negative delay. -/
theorem addJitter_nonneg {x : F64} {X : ℚ} (hX : IsVal x X) (hcan : Canon x)
    (hX63 : X < 2 ^ 63) (draw : ℕ) : ∃ d, addJitter x draw = some d ∧ 0 ≤ d := by
  obtain ⟨A, B, R, S, j, r, hA, hB, hj, hr, hR, hS, hd⟩ := addJitter_spec hX hX63 draw
  have hS63 := jitter_in_range (hX.val_repr hcan) hX63 hA hB hj hr hR hS
  obtain ⟨d, h1, h2, _, _⟩ := hd hS63
  exact ⟨d, h1, h2⟩

/-- An interval `X ≤ 2^53` gives a delay between `⌊0.8 X⌋` and `X`. -/
theorem addJitter_between {x : F64} {X : ℚ} (hX : IsVal x X) (hcan : Canon x)
    (hX53 : X ≤ 2 ^ 53) (draw : ℕ) :
    ∃ d, addJitter x draw = some d ∧ ⌊(4 / 5 : ℚ) * X⌋ ≤ d ∧ (d : ℚ) ≤ X := by
  have hX0 := hX.val_nonneg
  have hX63 : X < 2 ^ 63 := by
    have : (2 : ℚ) ^ 53 < 2 ^ 63 := by norm_num
    linarith
  obtain ⟨A, B, R, S, j, r, hA, hB, hj, hr, hR, hS, hd⟩ := addJitter_spec hX hX63 draw
  have hSX := jitter_upper (hX.val_repr hcan) hX0 hX53 hA hB hj hr hR hS
  obtain ⟨d, h1, h2, h3, h4⟩ := hd (by linarith)
  refine ⟨d, h1, ?_, by linarith⟩
  have hC8 : C8 < 1 := by rw [C8_eq]; norm_num
  have hF : ((⌊(4 / 5 : ℚ) * X⌋ : ℤ) : ℚ) ≤ (4 / 5 : ℚ) * X := Int.floor_le _
  have hF0 : 0 ≤ ⌊(4 / 5 : ℚ) * X⌋ := Int.floor_nonneg.2 (by positivity)
  have hF53 : ⌊(4 / 5 : ℚ) * X⌋ ≤ 2 ^ 53 := by
    have : ((⌊(4 / 5 : ℚ) * X⌋ : ℤ) : ℚ) ≤ ((2 ^ 53 : ℤ) : ℚ) := by push_cast; linarith
    exact_mod_cast this
  have hlow := jitter_lower (F := ⌊(4 / 5 : ℚ) * X⌋) hA
    (by have := two_pow_63_lt; nlinarith) hR.nonneg hS hF0 hF53
    (by have := C8_ge; nlinarith)
  have : ((⌊(4 / 5 : ℚ) * X⌋ : ℤ) : ℚ) < ((d + 1 : ℤ) : ℚ) := by push_cast; linarith
  have : ⌊(4 / 5 : ℚ) * X⌋ < d + 1 := by exact_mod_cast this
  omega

/-- A positive interval `X ≤ 2^50` gives a delay strictly below `X`. -/
theorem addJitter_lt {x : F64} {X : ℚ} (hX : IsVal x X) (hX0 : 0 < X)
    (hX50 : X ≤ 2 ^ 50) (draw : ℕ) {d : ℤ} (h : addJitter x draw = some d) : (d : ℚ) < X := by
  have hX63 : X < 2 ^ 63 := by
    have : (2 : ℚ) ^ 50 < 2 ^ 63 := by norm_num
    linarith
  obtain ⟨A, B, R, S, j, r, hA, hB, hj, hr, hR, hS, hd⟩ := addJitter_spec hX hX63 draw
  have hK0 : 0 ≤ ⌈X⌉ - 1 := by
    have : 0 < ⌈X⌉ := Int.ceil_pos.2 hX0
    omega
  have hK : (((⌈X⌉ - 1 : ℤ)) : ℚ) < X := by
    have := Int.ceil_lt_add_one X
    push_cast; linarith
  have hK1 : X ≤ ((⌈X⌉ - 1 : ℤ) : ℚ) + 1 := by
    have := Int.le_ceil X
    push_cast; linarith
  have hS1 := jitter_strict hX0.le hX50 hK0 hK hK1 hA hB hj hr hR hS
  obtain ⟨d', h1, _, h3, _⟩ := hd (by
    have : ((⌈X⌉ - 1 : ℤ) : ℚ) + 1 < 2 ^ 63 := by linarith
    linarith)
  rw [h] at h1
  cases h1
  have : (d : ℚ) < ((⌈X⌉ - 1 + 1 : ℤ) : ℚ) := by push_cast at hS1 ⊢; linarith
  have hdi : d < ⌈X⌉ - 1 + 1 := by exact_mod_cast this
  have : (d : ℚ) ≤ ((⌈X⌉ - 1 : ℤ) : ℚ) := by exact_mod_cast (show d ≤ ⌈X⌉ - 1 by omega)
  linarith

/-! ### Conversions of integers -/

theorem ofInt_exact {i : ℤ} (h0 : 0 ≤ i) (h : i ≤ 2 ^ 53) : IsVal (ofInt i) (i : ℚ) := by
  have hlt : (i : ℚ) < 2 ^ (1023 : ℤ) := by
    have : (i : ℚ) ≤ ((2 ^ 53 : ℤ) : ℚ) := by exact_mod_cast h
    have : (2 : ℚ) ^ 53 < 2 ^ 63 := by norm_num
    have := two_pow_63_lt
    push_cast at *; linarith
  obtain ⟨w, hw, hv⟩ := ofInt_isVal h0 hlt
  rw [hw.exact (Repr53.of_int h0 h)] at hv
  exact hv

/-- An integer below `2^63` converts to a value at least any smaller
representable one. -/
theorem ofInt_ge {i : ℤ} {c : ℚ} (hc : Repr53 c) (hci : c ≤ i) (hi : i < 2 ^ 63) :
    ∃ w, IsVal (ofInt i) w ∧ c ≤ w := by
  have hc0 : 0 ≤ c := by
    obtain ⟨n, g, _, _, rfl⟩ := hc
    have := two_zpow_pos g; positivity
  have h0 : 0 ≤ i := by
    have : (0 : ℚ) ≤ i := le_trans hc0 hci
    exact_mod_cast this
  have hlt : (i : ℚ) < 2 ^ (1023 : ℤ) := by
    have : (i : ℚ) < ((2 ^ 63 : ℤ) : ℚ) := by exact_mod_cast hi
    have := two_pow_63_lt
    push_cast at *; linarith
  obtain ⟨w, hw, hv⟩ := ofInt_isVal h0 hlt
  exact ⟨w, hv, hw.ge_of_ge hc hci⟩

theorem ofInt_leVal {i c : ℤ} (hic : i ≤ c) (hc0 : 0 ≤ c) (hc : c ≤ 2 ^ 53) :
    LeVal (ofInt i) (c : ℚ) := by
  have hc0q : (0 : ℚ) ≤ c := by exact_mod_cast hc0
  rcases lt_or_le i 0 with h | h
  · rcases ofInt_neg h with h1 | ⟨m, e, h1⟩
    · rw [h1]; rfl
    · rw [h1]; exact le_trans (toRat_neg_le m e) hc0q
  · exact (ofInt_exact h (by omega)).leVal (by exact_mod_cast hic)

end F64

namespace F64

/-- Between `2^50` and `2^52` the jittered interval stays below the next
integer `K + 1` at or above the interval: the sum is a multiple of `1/8`. -/
theorem jitter_strict_top {X A B R S : ℚ} {j r K : ℤ} (hX50 : 2 ^ 50 < X)
    (hX : X ≤ 2 ^ 52) (hK : (K : ℚ) < X) (hK1 : X ≤ K + 1)
    (hA : Rounds (X * C8) A) (hB : Rounds (C2 * X) B)
    (hj : 0 ≤ j ∧ (j : ℚ) ≤ B ∧ B < j + 1)
    (hr : 0 ≤ r ∧ ((r = 0 ∧ j ≤ 1) ∨ r + 1 ≤ j))
    (hR : Rounds (r : ℚ) R) (hS : Rounds (A + R) S) : S < K + 1 := by
  have hC8 : C8 < 7 / 8 := by rw [C8_eq]; norm_num
  have hC8h : 1 / 2 < C8 := by rw [C8_eq]; norm_num
  have hC80 : 0 < C8 := by rw [C8_eq]; norm_num
  have hX0 : 0 ≤ X := by
    have : (0 : ℚ) < 2 ^ 50 := by norm_num
    linarith
  have hK0 : 0 ≤ K := by
    have : ((-1 : ℤ) : ℚ) < (K : ℚ) := by
      push_cast
      have : (0 : ℚ) < 2 ^ 50 := by norm_num
      linarith
    have : (-1 : ℤ) < K := by exact_mod_cast this
    omega
  have hK52 : K < 2 ^ 52 := by
    have : (K : ℚ) < ((2 ^ 52 : ℤ) : ℚ) := by push_cast; linarith
    exact_mod_cast this
  have hrep : Repr53 ((K : ℚ) + 1 / 2) := by
    refine ⟨(2 * K + 1).toNat, -1, by omega, by norm_num, ?_⟩
    have : (((2 * K + 1).toNat : ℕ) : ℚ) = 2 * K + 1 := by
      rw [← Int.cast_natCast, Int.toNat_of_nonneg (by omega)]; push_cast; ring
    rw [this, zpow_neg]; norm_num; ring
  suffices h : A + R ≤ K + 1 / 2 by
    have := hS.le_of_le hrep h
    linarith
  have hsum := jitter_sum_le hX hA hB
  have hB0 := hB.nonneg
  have hrle : (r : ℚ) ≤ 2 ^ 53 := by
    have hA0 := hA.nonneg
    rcases hr.2 with ⟨h0, _⟩ | h1
    · rw [h0]; norm_num
    · have hrj : (r : ℚ) + 1 ≤ j := by exact_mod_cast h1
      have : (2 : ℚ) ^ 52 + 9 / 16 ≤ 2 ^ 53 := by norm_num
      linarith [hj.2.1]
  have hr53 : r ≤ 2 ^ 53 := by
    have : (r : ℚ) ≤ ((2 ^ 53 : ℤ) : ℚ) := by push_cast; exact hrle
    exact_mod_cast this
  have hRr : R = r := hR.exact (Repr53.of_int hr.1 hr53)
  subst hRr
  have hrB : (r : ℚ) ≤ B - 1 ∨ r = 0 := by
    rcases hr.2 with ⟨h0, _⟩ | h1
    · right; exact h0
    · left
      have hrj : (r : ℚ) + 1 ≤ j := by exact_mod_cast h1
      linarith [hj.2.1]
  obtain ⟨nA, hnA⟩ := hA.grid (k := 49) (by
    have : (2 : ℚ) ^ (49 : ℤ) = 2 ^ 50 * (1 / 2) := by norm_num
    rw [this]; nlinarith)
  have e3 : (2 : ℚ) ^ ((49 : ℤ) - 52) = 1 / 8 := by norm_num
  rw [e3] at hnA
  rcases hrB with h | h
  · have hle : A + r ≤ K + 9 / 16 := by linarith
    have hlt : (((nA : ℤ) + 8 * r : ℤ) : ℚ) < ((8 * K + 5 : ℤ) : ℚ) := by
      push_cast; rw [hnA] at hle; linarith
    have hi : (nA : ℤ) + 8 * r < 8 * K + 5 := by exact_mod_cast hlt
    have hq : (((nA : ℤ) + 8 * r : ℤ) : ℚ) ≤ ((8 * K + 4 : ℤ) : ℚ) := by
      exact_mod_cast (show (nA : ℤ) + 8 * r ≤ 8 * K + 4 by omega)
    push_cast at hq
    rw [hnA]; linarith
  · subst h
    have h1 : X * C8 < 2 ^ (52 : ℤ) := by
      have : X * C8 ≤ 2 ^ 52 * C8 := mul_le_mul_of_nonneg_right hX hC80.le
      have : (2 : ℚ) ^ 52 * C8 < 2 ^ 52 := by nlinarith
      norm_num at *; linarith
    have hA' := hA.le_add h1 (by norm_num)
    have e1 : (2 : ℚ) ^ ((52 : ℤ) - 54) = 1 / 4 := by norm_num
    rw [e1] at hA'
    have hK50 : (2 : ℚ) ^ 50 - 1 ≤ K := by linarith
    have : X * C8 ≤ (K + 1) * C8 := mul_le_mul_of_nonneg_right hK1 hC80.le
    have : ((K : ℚ) + 1) * (1 - C8) ≥ (2 ^ 50) * (1 / 8) := by
      have h2 : (2 : ℚ) ^ 50 ≤ K + 1 := by linarith
      have h3 : (1 : ℚ) / 8 ≤ 1 - C8 := by linarith
      have : (0 : ℚ) ≤ 2 ^ 50 := by norm_num
      nlinarith
    have : (2 : ℚ) ^ 50 * (1 / 8) ≥ 1 := by norm_num
    push_cast
    nlinarith

/-- A positive interval `X ≤ 2^52` gives a delay strictly below `X`. -/
theorem addJitter_lt_top {x : F64} {X : ℚ} (hX : IsVal x X) (hX0 : 0 < X)
    (hX52 : X ≤ 2 ^ 52) (draw : ℕ) {d : ℤ} (h : addJitter x draw = some d) : (d : ℚ) < X := by
  by_cases hX50 : X ≤ 2 ^ 50
  · exact addJitter_lt hX hX0 hX50 draw h
  · rw [not_le] at hX50
    have hX63 : X < 2 ^ 63 := by
      have : (2 : ℚ) ^ 52 < 2 ^ 63 := by norm_num
      linarith
    obtain ⟨A, B, R, S, j, r, hA, hB, hj, hr, hR, hS, hd⟩ := addJitter_spec hX hX63 draw
    have hK : (((⌈X⌉ - 1 : ℤ)) : ℚ) < X := by
      have := Int.ceil_lt_add_one X
      push_cast; linarith
    have hK1 : X ≤ ((⌈X⌉ - 1 : ℤ) : ℚ) + 1 := by
      have := Int.le_ceil X
      push_cast; linarith
    have hS1 := jitter_strict_top hX50 hX52 hK hK1 hA hB hj hr hR hS
    obtain ⟨d', h1, _, h3, _⟩ := hd (by
      have : ((⌈X⌉ - 1 : ℤ) : ℚ) + 1 < 2 ^ 63 := by linarith
      linarith)
    rw [h] at h1
    cases h1
    have : (d : ℚ) < ((⌈X⌉ - 1 + 1 : ℤ) : ℚ) := by push_cast at hS1 ⊢; linarith
    have hdi : d < ⌈X⌉ - 1 + 1 := by exact_mod_cast this
    have : (d : ℚ) ≤ ((⌈X⌉ - 1 : ℤ) : ℚ) := by exact_mod_cast (show d ≤ ⌈X⌉ - 1 by omega)
    linarith

/-- A value with a positive rational is finite with its sign bit clear. -/
theorem isVal_of_toRat_pos {x : F64} (h : 0 < toRat x) : IsVal x (toRat x) := by
  rcases x with _ | s | ⟨s, m, e⟩
  · exact absurd h (lt_irrefl _)
  · exact absurd h (lt_irrefl _)
  · cases s
    · exact ⟨m, e, rfl, rfl⟩
    · exact absurd h (not_lt.2 (toRat_neg_le m e))

end F64

/-! ## The clamped interval -/

theorem wrap64_id {i : ℤ} (h1 : -2 ^ 63 ≤ i) (h2 : i < 2 ^ 63) : wrap64 i = i := by
  unfold wrap64
  rw [Int.emod_eq_of_lt (by omega) (by omega)]
  omega

theorem rawInterval_canon (p : ExponentialRetryPolicy) (n : ℤ) :
    F64.Canon (rawInterval p n) := F64.mul_canon _ _

theorem zero_canon : F64.Canon F64.zero := ⟨by norm_num, by norm_num⟩

theorem clampInterval_canon (p : ExponentialRetryPolicy) (e : ℤ) {x : F64} (hx : F64.Canon x) :
    F64.Canon (clampInterval p e x) := by
  unfold clampInterval
  simp only
  split_ifs
  · exact F64.min_canon (F64.max_canon zero_canon (F64.ofInt_canon _))
      (F64.min_canon hx (F64.ofInt_canon _))
  · exact F64.min_canon (F64.max_canon zero_canon (F64.ofInt_canon _)) hx
  · exact F64.min_canon hx (F64.ofInt_canon _)
  · exact hx

/-- The clamped interval is at most a bounded `maximumInterval` up to `2^53`. -/
theorem clampInterval_le_max (p : ExponentialRetryPolicy) (e : ℤ) (x : F64) {c : ℤ}
    (hb : p.maximumInterval ≠ NoInterval) (hc : p.maximumInterval ≤ c) (hc0 : 0 ≤ c)
    (hc53 : c ≤ 2 ^ 53) : F64.LeVal (clampInterval p e x) (c : ℚ) := by
  unfold clampInterval
  simp only [if_pos hb]
  split_ifs
  · exact F64.min_LeVal_right (F64.min_LeVal_right (F64.ofInt_leVal hc hc0 hc53))
  · exact F64.min_LeVal_right (F64.ofInt_leVal hc hc0 hc53)

/-- The clamped interval is at most the remaining time, when that is at most
`2^53`. -/
theorem clampInterval_le_remaining (p : ExponentialRetryPolicy) (e : ℤ) (x : F64) {c : ℤ}
    (hb : p.expirationInterval ≠ NoInterval) (he : e ≤ p.expirationInterval)
    (hc : p.expirationInterval - e ≤ c) (hc53 : c ≤ 2 ^ 53) :
    F64.LeVal (clampInterval p e x) (c : ℚ) := by
  unfold clampInterval
  simp only [if_pos hb]
  have hw : wrap64 (p.expirationInterval - e) = p.expirationInterval - e :=
    wrap64_id (by omega) (by omega)
  rw [hw]
  have h1 : F64.IsVal (F64.max F64.zero (F64.ofInt (p.expirationInterval - e)))
      ((p.expirationInterval - e : ℤ) : ℚ) :=
    F64.max_zero_isVal (F64.ofInt_exact (by omega) (by omega))
  exact F64.min_LeVal_left (h1.leVal (by exact_mod_cast hc))

/-! ## Guards of `ComputeNextDelay` -/

/-- C3: with a bounded `maximumAttempts`, every attempt count
`numAttempts ≥ maximumAttempts` gives `done`, whatever the other fields, the
elapsed time and the jitter draw are. -/
theorem ComputeNextDelay_attempts_exhausted (p : ExponentialRetryPolicy)
    (elapsedTime numAttempts : Int) (draw : Nat)
    (hb : p.maximumAttempts ≠ noMaximumAttempts) (hn : numAttempts ≥ p.maximumAttempts) :
    ComputeNextDelay p elapsedTime numAttempts draw = some done := by
  unfold ComputeNextDelay
  rw [if_pos ⟨hb, hn⟩]

/-- Witness of C3: a policy with `maximumAttempts = 5` at attempt 5. -/
theorem ComputeNextDelay_attempts_exhausted_witness :
    ComputeNextDelay { NewExponentialRetryPolicy 100000000 with maximumAttempts := 5 } 0 5 0
      = some done :=
  ComputeNextDelay_attempts_exhausted _ 0 5 0 (by decide) (by decide)

/-- C4: with a bounded `expirationInterval`, every elapsed time beyond it gives
`done`, whatever the attempt count and the other fields are. -/
theorem ComputeNextDelay_expired (p : ExponentialRetryPolicy)
    (elapsedTime numAttempts : Int) (draw : Nat)
    (hb : p.expirationInterval ≠ NoInterval) (he : elapsedTime > p.expirationInterval) :
    ComputeNextDelay p elapsedTime numAttempts draw = some done := by
  unfold ComputeNextDelay
  split
  · rfl
  · rw [if_pos ⟨hb, he⟩]

/-- Witness of C4: the default policy one nanosecond after its expiration. -/
theorem ComputeNextDelay_expired_witness :
    ComputeNextDelay (NewExponentialRetryPolicy 100000000) 60000000001 0 0 = some done :=
  ComputeNextDelay_expired _ 60000000001 0 0 (by decide) (by decide)

/-- C10: `ComputeNextDelay` never panics: for every policy, elapsed time,
attempt count and jitter draw it returns a duration, and the bound it passes
to `rand.Intn` is at least 1. -/
theorem ComputeNextDelay_no_panic (p : ExponentialRetryPolicy)
    (elapsedTime numAttempts : Int) (draw : Nat) :
    (∃ d, ComputeNextDelay p elapsedTime numAttempts draw = some d) ∧
    (∀ x draw, randIntn draw (jitterPortion x) ≠ none) ∧
    1 ≤ jitterPortion (clampInterval p elapsedTime (rawInterval p numAttempts)) := by
  refine ⟨?_, ?_, jitterPortion_pos _⟩
  · unfold ComputeNextDelay
    split
    · exact ⟨_, rfl⟩
    · split
      · exact ⟨_, rfl⟩
      · split
        · exact ⟨_, rfl⟩
        · split
          · exact ⟨_, rfl⟩
          · exact ⟨_, addJitter_eq _ _⟩
  · intro x draw
    have h := jitterPortion_pos x
    simp only [randIntn]
    rw [if_neg (by omega)]
    simp

/-! ## Bounds on the result of `ComputeNextDelay` -/

/-- A result other than `done` comes out of the jitter step, with every guard
passed. -/
theorem ComputeNextDelay_not_done {p : ExponentialRetryPolicy} {e n : ℤ} {draw : ℕ} {d : ℤ}
    (h : ComputeNextDelay p e n draw = some d) (hd : d ≠ done) :
    ¬ (p.expirationInterval ≠ NoInterval ∧ e > p.expirationInterval) ∧
    ¬ (F64.toInt64 (clampInterval p e (rawInterval p n)) < p.initialInterval) ∧
    addJitter (clampInterval p e (rawInterval p n)) draw = some d := by
  unfold ComputeNextDelay at h
  split_ifs at h with g1 g2 g3 g4
  · exact absurd (Option.some.inj h).symm hd
  · exact absurd (Option.some.inj h).symm hd
  · exact absurd (Option.some.inj h).symm hd
  · exact absurd (Option.some.inj h).symm hd
  · exact ⟨g2, g4, h⟩

/-- With every guard passed the result is that of the jitter step. -/
theorem ComputeNextDelay_eq_addJitter {p : ExponentialRetryPolicy} {e n : ℤ} (draw : ℕ)
    (g1 : ¬ (p.maximumAttempts ≠ noMaximumAttempts ∧ n ≥ p.maximumAttempts))
    (g2 : ¬ (p.expirationInterval ≠ NoInterval ∧ e > p.expirationInterval))
    (g3 : ¬ (F64.le (rawInterval p n) F64.zero = true))
    (g4 : ¬ (F64.toInt64 (clampInterval p e (rawInterval p n)) < p.initialInterval)) :
    ComputeNextDelay p e n draw = addJitter (clampInterval p e (rawInterval p n)) draw := by
  unfold ComputeNextDelay
  rw [if_neg g1, if_neg g2, if_neg g3, if_neg g4]

/-- C1 (amended): with a bounded `expirationInterval` and a remaining budget
`expirationInterval - elapsed` of at most `2^53` ns, every result that is not
`done` is a delay `d` with `elapsed + d ≤ expirationInterval`, for every
attempt count and jitter draw. -/
theorem ComputeNextDelay_within_budget (p : ExponentialRetryPolicy) (elapsedTime numAttempts : ℤ)
    (draw : ℕ) (d : ℤ) (hb : p.expirationInterval ≠ NoInterval)
    (h53 : p.expirationInterval - elapsedTime ≤ 2 ^ 53)
    (h : ComputeNextDelay p elapsedTime numAttempts draw = some d) (hd : d ≠ done) :
    elapsedTime + d ≤ p.expirationInterval := by
  obtain ⟨g2, _, hj⟩ := ComputeNextDelay_not_done h hd
  have he : elapsedTime ≤ p.expirationInterval := by
    by_contra hc
    exact g2 ⟨hb, by omega⟩
  have hl := clampInterval_le_remaining p elapsedTime (rawInterval p numAttempts) hb he
    le_rfl h53
  have hq := F64.addJitter_le
    (clampInterval_canon p elapsedTime (rawInterval_canon p numAttempts)) hl
    (by exact_mod_cast (show (0 : ℤ) ≤ p.expirationInterval - elapsedTime by omega))
    (by exact_mod_cast h53) hj
  have : d ≤ p.expirationInterval - elapsedTime := by exact_mod_cast hq
  omega

/-- Witness of C1: the default policy for 100 ms at elapsed time 0, attempt 0
and draw 0 returns 80 ms, within the 60 s budget. -/
theorem ComputeNextDelay_within_budget_witness :
    ComputeNextDelay (NewExponentialRetryPolicy 100000000) 0 0 0 = some 80000000 ∧
    (0 : ℤ) + 80000000 ≤ (NewExponentialRetryPolicy 100000000).expirationInterval :=
  ⟨by decide!, ComputeNextDelay_within_budget (NewExponentialRetryPolicy 100000000) 0 0 0
    80000000 (by decide) (by decide) (by decide!) (by decide)⟩

/-- Counterexample to C1 as stated: with `expirationInterval = 2^53 + 3` ns,
no `maximumInterval`, `initialInterval = 2^53` ns and coefficient 2, attempt 1
at elapsed time 0 can return `2^53 + 4` ns, one more than the whole budget:
`float64(2^53 + 3)` is `2^53 + 4`. -/
theorem ComputeNextDelay_budget_counterexample :
    ComputeNextDelay ⟨2 ^ 53, defaultBackoffCoefficient, 0, 2 ^ 53 + 3, 0⟩ 0 1
      1801439850948198 = some (2 ^ 53 + 4) ∧
    ¬ ((0 : ℤ) + (2 ^ 53 + 4) ≤ 2 ^ 53 + 3) :=
  ⟨by decide!, by decide⟩

/-- C2 (amended): with a bounded `maximumInterval` of at most `2^53` ns that
is positive, or with a positive `initialInterval`, every result that is not
`done` is at most `maximumInterval`, for every elapsed time, attempt count and
jitter draw. -/
theorem ComputeNextDelay_le_maximumInterval (p : ExponentialRetryPolicy)
    (elapsedTime numAttempts : ℤ) (draw : ℕ) (d : ℤ)
    (hb : p.maximumInterval ≠ NoInterval) (h53 : p.maximumInterval ≤ 2 ^ 53)
    (hpos : 0 < p.maximumInterval ∨ 0 < p.initialInterval)
    (h : ComputeNextDelay p elapsedTime numAttempts draw = some d) (hd : d ≠ done) :
    d ≤ p.maximumInterval := by
  obtain ⟨_, g4, hj⟩ := ComputeNextDelay_not_done h hd
  have hcan := clampInterval_canon p elapsedTime (rawInterval_canon p numAttempts)
  rcases lt_or_le 0 p.maximumInterval with h0 | h0
  · have hl := clampInterval_le_max p elapsedTime (rawInterval p numAttempts) hb le_rfl
      h0.le h53
    have hq := F64.addJitter_le hcan hl (by exact_mod_cast h0.le) (by exact_mod_cast h53) hj
    exact_mod_cast hq
  · have hi : 0 < p.initialInterval := by
      rcases hpos with h1 | h1
      · omega
      · exact h1
    have hl := clampInterval_le_max p elapsedTime (rawInterval p numAttempts) (c := 0) hb h0
      le_rfl (by norm_num)
    have hq := F64.toInt64_le_of_LeVal hl (by norm_num)
    have : F64.toInt64 (clampInterval p elapsedTime (rawInterval p numAttempts)) ≤ 0 := by
      exact_mod_cast hq
    exact absurd (by omega) g4

/-- Witness of C2: the default policy for 100 ms at attempt 7 and draw 0
returns 8 s, below its `maximumInterval` of 10 s. -/
theorem ComputeNextDelay_le_maximumInterval_witness :
    ComputeNextDelay (NewExponentialRetryPolicy 100000000) 0 7 0 = some 8000000000 ∧
    (8000000000 : ℤ) ≤ (NewExponentialRetryPolicy 100000000).maximumInterval :=
  ⟨by decide!, ComputeNextDelay_le_maximumInterval (NewExponentialRetryPolicy 100000000) 0 7 0
    8000000000 (by decide) (by decide) (Or.inl (by decide)) (by decide!) (by decide)⟩

/-- Counterexample to C2 as stated: with `maximumInterval = 2^53 + 3` ns the
delay can be `2^53 + 4` ns (`float64(2^53 + 3)` is `2^53 + 4`); and with a
negative `initialInterval`, coefficient and `maximumInterval` (-100 ns, -2,
-50 ns) attempt 1 returns -40 ns, above the maximum of -50 ns. -/
theorem ComputeNextDelay_maximumInterval_counterexample :
    (ComputeNextDelay ⟨2 ^ 53, defaultBackoffCoefficient, 2 ^ 53 + 3, 0, 0⟩ 0 1
      1801439850948198 = some (2 ^ 53 + 4) ∧ ¬ ((2 ^ 53 + 4 : ℤ) ≤ 2 ^ 53 + 3)) ∧
    (ComputeNextDelay ⟨-100, F64.fin true (2 ^ 52) (-51), -50, defaultExpirationInterval, 0⟩
      0 1 0 = some (-40) ∧ ¬ ((-40 : ℤ) ≤ -50)) :=
  ⟨⟨by decide!, by decide⟩, ⟨by decide!, by decide⟩⟩

/-- C7 (amended): with `0 < initialInterval ≤ 2^53` ns, a bounded
`maximumInterval` smaller than `initialInterval`, or a bounded
`expirationInterval` with `expirationInterval - elapsed < initialInterval`,
makes `ComputeNextDelay` return `done`, for every attempt count; and every
result that is not `done` was computed from a clamped interval whose integer
duration is at least `initialInterval`. -/
theorem ComputeNextDelay_below_initial (p : ExponentialRetryPolicy)
    (elapsedTime numAttempts : ℤ) (draw : ℕ)
    (h0 : 0 < p.initialInterval) (h53 : p.initialInterval ≤ 2 ^ 53) :
    (((p.maximumInterval ≠ NoInterval ∧ p.maximumInterval < p.initialInterval) ∨
      (p.expirationInterval ≠ NoInterval ∧
        p.expirationInterval - elapsedTime < p.initialInterval)) →
      ComputeNextDelay p elapsedTime numAttempts draw = some done) ∧
    (∀ d, ComputeNextDelay p elapsedTime numAttempts draw = some d → d ≠ done →
      p.initialInterval
        ≤ F64.toInt64 (clampInterval p elapsedTime (rawInterval p numAttempts))) := by
  refine ⟨fun hc => ?_, fun d h hd => ?_⟩
  · unfold ComputeNextDelay
    split_ifs with g1 g2 g3 g4
    · rfl
    · rfl
    · rfl
    · rfl
    · exfalso
      apply g4
      have hl : F64.LeVal (clampInterval p elapsedTime (rawInterval p numAttempts))
          ((p.initialInterval - 1 : ℤ) : ℚ) := by
        rcases hc with ⟨hb, hlt⟩ | ⟨hb, hlt⟩
        · exact clampInterval_le_max p elapsedTime _ hb (by omega) (by omega) (by omega)
        · have he : elapsedTime ≤ p.expirationInterval := by
            by_contra hc2
            exact g2 ⟨hb, by omega⟩
          exact clampInterval_le_remaining p elapsedTime _ hb he (by omega) (by omega)
      have hq := F64.toInt64_le_of_LeVal hl
        (by exact_mod_cast (show (0 : ℤ) ≤ p.initialInterval - 1 by omega))
      have : F64.toInt64 (clampInterval p elapsedTime (rawInterval p numAttempts))
          ≤ p.initialInterval - 1 := by exact_mod_cast hq
      omega
  · have := (ComputeNextDelay_not_done h hd).2.1
    omega

/-- Witness of C7: a policy for 100 ms whose `maximumInterval` is 50 ms. -/
theorem ComputeNextDelay_below_initial_witness :
    ComputeNextDelay { NewExponentialRetryPolicy 100000000 with maximumInterval := 50000000 }
      0 0 0 = some done :=
  (ComputeNextDelay_below_initial _ 0 0 0 (by decide) (by decide)).1
    (Or.inl ⟨by decide, by decide⟩)

/-- Counterexample to C7 as stated: with `initialInterval = 2^53 + 4` ns and
the smaller `maximumInterval = 2^53 + 3` ns, attempt 0 is not `done`: it
returns 7205759403792797 ns, because `float64(2^53 + 3)` is `2^53 + 4`. -/
theorem ComputeNextDelay_below_initial_counterexample :
    ((2 ^ 53 + 3 : ℤ) ≠ NoInterval ∧ (2 ^ 53 + 3 : ℤ) < 2 ^ 53 + 4) ∧
    ComputeNextDelay ⟨2 ^ 53 + 4, defaultBackoffCoefficient, 2 ^ 53 + 3, 0, 0⟩ 0 0 0
      = some 7205759403792797 ∧ (7205759403792797 : ℤ) ≠ done :=
  ⟨⟨by decide, by decide⟩, by decide!, by decide⟩

/-- C9: with `initialInterval > 0`, `ComputeNextDelay` returns either exactly
`done` (`-1`) or a non-negative duration, for every elapsed time, attempt count
and jitter draw. -/
theorem ComputeNextDelay_done_or_nonneg (p : ExponentialRetryPolicy)
    (elapsedTime numAttempts : ℤ) (draw : ℕ) (h0 : 0 < p.initialInterval) :
    ∃ d, ComputeNextDelay p elapsedTime numAttempts draw = some d ∧ (d = done ∨ 0 ≤ d) := by
  unfold ComputeNextDelay
  split_ifs with g1 g2 g3 g4
  · exact ⟨done, rfl, Or.inl rfl⟩
  · exact ⟨done, rfl, Or.inl rfl⟩
  · exact ⟨done, rfl, Or.inl rfl⟩
  · exact ⟨done, rfl, Or.inl rfl⟩
  · have hpos : 0 < F64.toInt64 (clampInterval p elapsedTime (rawInterval p numAttempts)) := by
      omega
    obtain ⟨v, hv, hv63, _, _⟩ := F64.toInt64_pos hpos
    obtain ⟨d, h1, h2⟩ := F64.addJitter_nonneg hv
      (clampInterval_canon p elapsedTime (rawInterval_canon p numAttempts)) hv63 draw
    exact ⟨d, h1, Or.inr h2⟩

/-- Witness of C9: the default policy for 100 ms. -/
theorem ComputeNextDelay_done_or_nonneg_witness :
    ∃ d, ComputeNextDelay (NewExponentialRetryPolicy 100000000) 0 0 0 = some d ∧
      (d = done ∨ 0 ≤ d) :=
  ComputeNextDelay_done_or_nonneg (NewExponentialRetryPolicy 100000000) 0 0 0 (by decide)

/-- C8, the failing input: with `initialInterval = -100` ns and coefficient
`-2.0` (the other fields at their defaults), attempt 1 at elapsed time 0 is
not `done`: `-100 * (-2)^1 = 200 > 0`, and the result is 160 ns for draw 0. -/
theorem ComputeNextDelay_negative_initial_retries :
    ComputeNextDelay ⟨-100, F64.fin true (2 ^ 52) (-51), defaultMaximumInterval,
      defaultExpirationInterval, noMaximumAttempts⟩ 0 1 0 = some 160 ∧
    F64.fin true (2 ^ 52) (-51) = F64.ofInt (-2) := by
  constructor <;> decide!

/-! ## The first attempt and the default schedule -/

theorem pow_zero (x : F64) : F64.pow x 0 = F64.one := by
  unfold F64.pow
  have h : F64.eq (F64.ofInt 0) F64.zero = true := by decide!
  simp only [h, Bool.true_or, if_true]

theorem one_isVal : F64.IsVal F64.one 1 := ⟨2 ^ 52, -52, rfl, by norm_num⟩

theorem isVal_toRat {x : F64} {v : ℚ} (h : F64.IsVal x v) : F64.toRat x = v := by
  obtain ⟨m, e, rfl, rfl⟩ := h
  rfl

theorem not_le_zero_of_isVal {x : F64} {v : ℚ} (h : F64.IsVal x v) (hv : 0 < v) :
    ¬ (F64.le x F64.zero = true) := by
  obtain ⟨m, e, rfl, rfl⟩ := h
  rw [F64.zero, F64.le_fin_iff, F64.toRat_false, F64.toRat_false]
  simp only [Nat.cast_zero, zero_mul, not_le]
  exact hv

/-- The first interval is `initialInterval` itself. -/
theorem rawInterval_zero (p : ExponentialRetryPolicy) (h0 : 0 ≤ p.initialInterval)
    (h53 : p.initialInterval ≤ 2 ^ 53) :
    F64.IsVal (rawInterval p 0) (p.initialInterval : ℚ) := by
  unfold rawInterval
  rw [pow_zero]
  have hi := F64.ofInt_exact h0 h53
  have hlt : (p.initialInterval : ℚ) * 1 < 2 ^ (1023 : ℤ) := by
    have : (p.initialInterval : ℚ) ≤ ((2 ^ 53 : ℤ) : ℚ) := by exact_mod_cast h53
    have : (2 : ℚ) ^ 53 < 2 ^ 63 := by norm_num
    have := F64.two_pow_63_lt
    push_cast at *; linarith
  obtain ⟨w, hw, hv⟩ := F64.mul_isVal hi one_isVal hlt
  rw [mul_one] at hw
  rw [hw.exact (F64.Repr53.of_int h0 h53)] at hv
  exact hv

/-- A representable interval that no cap reaches is left as it is by the
clamps. -/
theorem clampInterval_isVal (p : ExponentialRetryPolicy) (e : ℤ) {x : F64} {X : ℚ}
    (hx : F64.IsVal x X) (hr : F64.Repr53 X)
    (hmax : p.maximumInterval = NoInterval ∨
      (X ≤ (p.maximumInterval : ℚ) ∧ p.maximumInterval < 2 ^ 63))
    (hexp : p.expirationInterval = NoInterval ∨
      (X ≤ ((p.expirationInterval - e : ℤ) : ℚ) ∧ p.expirationInterval - e < 2 ^ 63)) :
    F64.IsVal (clampInterval p e x) X := by
  have hX0 := hx.val_nonneg
  have h1 : F64.IsVal (if p.maximumInterval ≠ NoInterval then
      F64.min x (F64.ofInt p.maximumInterval) else x) X := by
    split_ifs with hb
    · rcases hmax with h | ⟨h, h63⟩
      · exact absurd h hb
      · obtain ⟨w, hw, hle⟩ := F64.ofInt_ge hr h h63
        have := F64.min_isVal hx hw
        rwa [min_eq_left hle] at this
    · exact hx
  unfold clampInterval
  simp only
  generalize (if p.maximumInterval ≠ NoInterval then
      F64.min x (F64.ofInt p.maximumInterval) else x) = n1 at h1 ⊢
  split_ifs with hb
  · rcases hexp with h | ⟨h, h63⟩
    · exact absurd h hb
    · have hnn : 0 ≤ p.expirationInterval - e := by
        have : (0 : ℚ) ≤ ((p.expirationInterval - e : ℤ) : ℚ) := le_trans hX0 h
        exact_mod_cast this
      rw [wrap64_id (by omega) h63]
      obtain ⟨w, hw, hle⟩ := F64.ofInt_ge hr h h63
      have := F64.min_isVal (F64.max_zero_isVal hw) h1
      rwa [min_eq_right hle] at this
  · exact h1

/-- C6 (amended): with `0 < initialInterval ≤ 2^53` ns and no cap applying at
attempt 0 (attempts not exhausted, `initialInterval ≤ maximumInterval` or
unbounded, `initialInterval ≤ expirationInterval - elapsed` or unbounded, the
caps being 64-bit durations), `ComputeNextDelay(e, 0)` returns a delay `d` with
`⌊0.8 * initialInterval⌋ ≤ d ≤ initialInterval`, hence below
`initialInterval + 0.2 * initialInterval`, for every jitter draw. -/
theorem ComputeNextDelay_first_attempt (p : ExponentialRetryPolicy) (elapsedTime : ℤ)
    (draw : ℕ) (h0 : 0 < p.initialInterval) (h53 : p.initialInterval ≤ 2 ^ 53)
    (hatt : p.maximumAttempts = noMaximumAttempts ∨ 0 < p.maximumAttempts)
    (hmax : p.maximumInterval = NoInterval ∨
      (p.initialInterval ≤ p.maximumInterval ∧ p.maximumInterval < 2 ^ 63))
    (hexp : p.expirationInterval = NoInterval ∨
      (p.initialInterval ≤ p.expirationInterval - elapsedTime ∧
        p.expirationInterval - elapsedTime < 2 ^ 63)) :
    ∃ d, ComputeNextDelay p elapsedTime 0 draw = some d ∧
      ⌊(4 / 5 : ℚ) * p.initialInterval⌋ ≤ d ∧ d ≤ p.initialInterval ∧
      (d : ℚ) < p.initialInterval + (1 / 5 : ℚ) * p.initialInterval := by
  have h0q : (0 : ℚ) < p.initialInterval := by exact_mod_cast h0
  have hraw := rawInterval_zero p h0.le h53
  have hrep := F64.Repr53.of_int h0.le h53
  have hcl := clampInterval_isVal p elapsedTime hraw hrep
    (by
      rcases hmax with h | ⟨h, h'⟩
      · exact Or.inl h
      · exact Or.inr ⟨by exact_mod_cast h, h'⟩)
    (by
      rcases hexp with h | ⟨h, h'⟩
      · exact Or.inl h
      · exact Or.inr ⟨by exact_mod_cast h, h'⟩)
  have h63 : (p.initialInterval : ℚ) < 2 ^ 63 := by
    have : (p.initialInterval : ℚ) ≤ ((2 ^ 53 : ℤ) : ℚ) := by exact_mod_cast h53
    have : (2 : ℚ) ^ 53 < 2 ^ 63 := by norm_num
    push_cast at *; linarith
  obtain ⟨_, t1, t2⟩ := F64.toInt64_isVal hcl h63
  have ht : ¬ (F64.toInt64 (clampInterval p elapsedTime (rawInterval p 0))
      < p.initialInterval) := by
    have : (p.initialInterval : ℚ)
        < ((F64.toInt64 (clampInterval p elapsedTime (rawInterval p 0)) + 1 : ℤ) : ℚ) := by
      push_cast; exact t2
    have : p.initialInterval
        < F64.toInt64 (clampInterval p elapsedTime (rawInterval p 0)) + 1 := by
      exact_mod_cast this
    omega
  have hcnd := ComputeNextDelay_eq_addJitter (p := p) (e := elapsedTime) (n := 0) draw
    (by
      rintro ⟨hne, hge⟩
      rcases hatt with h | h
      · exact hne h
      · omega)
    (by
      rintro ⟨hne, hgt⟩
      rcases hexp with h | ⟨h, _⟩
      · exact hne h
      · omega)
    (not_le_zero_of_isVal hraw h0q) ht
  obtain ⟨d, hd, hlo, hhi⟩ := F64.addJitter_between hcl
    (clampInterval_canon p elapsedTime (rawInterval_canon p 0))
    (by exact_mod_cast h53) draw
  refine ⟨d, by rw [hcnd]; exact hd, hlo, by exact_mod_cast hhi, by linarith⟩

/-- Witness of C6: the default policy for 100 ms at elapsed time 0. -/
theorem ComputeNextDelay_first_attempt_witness :
    ∃ d, ComputeNextDelay (NewExponentialRetryPolicy 100000000) 0 0 0 = some d ∧
      ⌊(4 / 5 : ℚ) * (NewExponentialRetryPolicy 100000000).initialInterval⌋ ≤ d ∧
      d ≤ (NewExponentialRetryPolicy 100000000).initialInterval ∧
      (d : ℚ) < (NewExponentialRetryPolicy 100000000).initialInterval
        + (1 / 5 : ℚ) * (NewExponentialRetryPolicy 100000000).initialInterval :=
  ComputeNextDelay_first_attempt (NewExponentialRetryPolicy 100000000) 0 0 (by decide)
    (by decide) (Or.inl rfl) (Or.inr ⟨by decide, by decide⟩) (Or.inr ⟨by decide, by decide⟩)

/-- Counterexample to C6 as stated, in two inputs on which no cap applies. The
default policy for 1 ns returns 0 ns at attempt 0 for draw 0, below `0.8 * 1`:
the delay is truncated to an integer number of nanoseconds. With
`initialInterval = 2^53 + 1` ns and no caps, attempt 0 returns `done`: the
interval is rounded to `2^53` as a float64 and is then below
`initialInterval`. -/
theorem ComputeNextDelay_first_attempt_counterexample :
    (ComputeNextDelay (NewExponentialRetryPolicy 1) 0 0 0 = some 0 ∧
      ¬ ((4 / 5 : ℚ) * ((NewExponentialRetryPolicy 1).initialInterval : ℚ)
          ≤ ((0 : ℤ) : ℚ))) ∧
    ComputeNextDelay ⟨9007199254740993, defaultBackoffCoefficient, 0, 0, 0⟩ 0 0 0
      = some done := by
  refine ⟨⟨by decide!, ?_⟩, by decide!⟩
  show ¬ ((4 / 5 : ℚ) * ((1 : ℤ) : ℚ) ≤ ((0 : ℤ) : ℚ))
  norm_num

/-- A result other than `done` for a positive clamped interval `X`: the delay
is at least `⌊0.8 X⌋` when `X ≤ 2^53`, and below `X` when `X ≤ 2^52`. -/
theorem ComputeNextDelay_of_clamped {p : ExponentialRetryPolicy} {e n : ℤ} {draw : ℕ} {d : ℤ}
    (h0 : 0 < F64.toRat (clampInterval p e (rawInterval p n)))
    (h : ComputeNextDelay p e n draw = some d) (hd : d ≠ done)
    (h52 : F64.toRat (clampInterval p e (rawInterval p n)) ≤ 2 ^ 52) :
    ⌊(4 / 5 : ℚ) * F64.toRat (clampInterval p e (rawInterval p n))⌋ ≤ d ∧
    (d : ℚ) < F64.toRat (clampInterval p e (rawInterval p n)) := by
  obtain ⟨_, _, hj⟩ := ComputeNextDelay_not_done h hd
  have hv := F64.isVal_of_toRat_pos h0
  have hcan := clampInterval_canon p e (rawInterval_canon p n)
  obtain ⟨d', hd', hlo, _⟩ := F64.addJitter_between hv hcan
    (by have : (2 : ℚ) ^ 52 ≤ 2 ^ 53 := by norm_num
        linarith) draw
  rw [hj] at hd'
  cases hd'
  exact ⟨hlo, F64.addJitter_lt_top hv h0 h52 draw hj⟩

/-- The delay for a clamped interval known in full: all guards pass and the
clamped interval is the positive value `hi ≤ 2^52`. -/
theorem ComputeNextDelay_of_interval {p : ExponentialRetryPolicy} {e n : ℤ} (draw : ℕ)
    {m : ℕ} {ex lo hi : ℤ}
    (g1 : ¬ (p.maximumAttempts ≠ noMaximumAttempts ∧ n ≥ p.maximumAttempts))
    (g2 : ¬ (p.expirationInterval ≠ NoInterval ∧ e > p.expirationInterval))
    (g3 : ¬ (F64.le (rawInterval p n) F64.zero = true))
    (g4 : ¬ (F64.toInt64 (clampInterval p e (rawInterval p n)) < p.initialInterval))
    (hx : clampInterval p e (rawInterval p n) = F64.fin false m ex)
    (hhi : (m : ℚ) * 2 ^ ex = hi) (hlo : (lo : ℚ) ≤ (4 / 5 : ℚ) * hi)
    (hpos : 0 < hi) (h52 : hi ≤ 2 ^ 52) :
    ∃ d, ComputeNextDelay p e n draw = some d ∧ lo ≤ d ∧ d < hi := by
  have hv : F64.IsVal (clampInterval p e (rawInterval p n)) (hi : ℚ) := ⟨m, ex, hx, hhi⟩
  have hcan := clampInterval_canon p e (rawInterval_canon p n)
  have hq52 : (hi : ℚ) ≤ 2 ^ 52 := by exact_mod_cast h52
  obtain ⟨d, hd, hl, _⟩ := F64.addJitter_between hv hcan
    (by have : (2 : ℚ) ^ 52 ≤ 2 ^ 53 := by norm_num
        linarith) draw
  have hlt := F64.addJitter_lt_top hv (by exact_mod_cast hpos) hq52 draw hd
  refine ⟨d, by rw [ComputeNextDelay_eq_addJitter draw g1 g2 g3 g4]; exact hd, ?_, ?_⟩
  · exact le_trans (Int.le_floor.2 hlo) hl
  · exact_mod_cast hlt

/-! ## The default schedule -/

/-- The interval and the delay of the default policy for 100 ms at elapsed
time 0 and attempt `n ≤ 6`: no clamp binds. -/
theorem default_schedule_attempt (draw : ℕ) (n : ℕ) (hn : n ≤ 6) :
    F64.toRat (rawInterval (NewExponentialRetryPolicy 100000000) n) = 100000000 * 2 ^ n ∧
    clampInterval (NewExponentialRetryPolicy 100000000) 0
      (rawInterval (NewExponentialRetryPolicy 100000000) n)
      = rawInterval (NewExponentialRetryPolicy 100000000) n ∧
    ∃ d, ComputeNextDelay (NewExponentialRetryPolicy 100000000) 0 n draw = some d ∧
      80000000 * 2 ^ n ≤ d ∧ d < 100000000 * 2 ^ n := by
  have hraw : rawInterval (NewExponentialRetryPolicy 100000000) n
      = F64.fin false 6710886400000000 (-26 + n) := by
    interval_cases n <;> decide!
  have hcl : clampInterval (NewExponentialRetryPolicy 100000000) 0
      (rawInterval (NewExponentialRetryPolicy 100000000) n)
      = rawInterval (NewExponentialRetryPolicy 100000000) n := by
    interval_cases n <;> decide!
  have hval : ((6710886400000000 : ℕ) : ℚ) * 2 ^ (-26 + (n : ℤ))
      = ((100000000 * 2 ^ n : ℤ) : ℚ) := by
    interval_cases n <;> norm_num
  refine ⟨?_, hcl, ?_⟩
  · rw [hraw, F64.toRat_false, hval]; push_cast; ring
  · refine @ComputeNextDelay_of_interval _ _ _ draw 6710886400000000 (-26 + n)
      (80000000 * 2 ^ n) (100000000 * 2 ^ n) (fun h => h.1 rfl) (by decide)
      ?_ ?_ (by rw [hcl, hraw]) hval ?_ (by positivity) ?_
    · interval_cases n <;> decide!
    · interval_cases n <;> decide!
    · push_cast; ring_nf; exact le_refl _
    · interval_cases n <;> norm_num

/-- The interval and the delay of the default policy for 100 ms at elapsed
time 0 and attempt 7: the interval 12.8 s is clamped to 10 s. -/
theorem default_schedule_clamped (draw : ℕ) :
    F64.toRat (rawInterval (NewExponentialRetryPolicy 100000000) 7) = 12800000000 ∧
    F64.toRat (clampInterval (NewExponentialRetryPolicy 100000000) 0
      (rawInterval (NewExponentialRetryPolicy 100000000) 7)) = 10000000000 ∧
    ∃ d, ComputeNextDelay (NewExponentialRetryPolicy 100000000) 0 7 draw = some d ∧
      8000000000 ≤ d ∧ d < 10000000000 := by
  have hraw : rawInterval (NewExponentialRetryPolicy 100000000) 7
      = F64.fin false 6710886400000000 (-19) := by decide!
  have hcl : clampInterval (NewExponentialRetryPolicy 100000000) 0
      (rawInterval (NewExponentialRetryPolicy 100000000) 7)
      = F64.fin false 5242880000000000 (-19) := by decide!
  refine ⟨?_, ?_, ?_⟩
  · rw [hraw, F64.toRat_false]; norm_num
  · rw [hcl, F64.toRat_false]; norm_num
  · exact @ComputeNextDelay_of_interval _ _ _ draw 5242880000000000 (-19)
      8000000000 10000000000 (by decide) (by decide)
      (by decide!) (by decide!) hcl (by norm_num) (by norm_num) (by norm_num) (by norm_num)

/-- C5 (amended): for `NewExponentialRetryPolicy(100ms)` at elapsed time 0,
attempts `n = 0..6` have `raw = 100ms * 2^n`, no clamp binds, and the delay `d`
satisfies `0.8 * raw ≤ d < raw`; at attempt 7 the raw value 12.8 s is clamped
to 10 s and the delay lies in `[8s, 10s)`. In general, for every policy and
attempt where no clamp binds, `0 < raw ≤ 2^52` ns and the result is not `done`,
the delay `d` satisfies `⌊0.8 * raw⌋ ≤ d < raw`. -/
theorem ComputeNextDelay_default_schedule :
    (∀ draw n : ℕ, n ≤ 6 →
      F64.toRat (rawInterval (NewExponentialRetryPolicy 100000000) n) = 100000000 * 2 ^ n ∧
      clampInterval (NewExponentialRetryPolicy 100000000) 0
        (rawInterval (NewExponentialRetryPolicy 100000000) n)
        = rawInterval (NewExponentialRetryPolicy 100000000) n ∧
      ∃ d, ComputeNextDelay (NewExponentialRetryPolicy 100000000) 0 n draw = some d ∧
        80000000 * 2 ^ n ≤ d ∧ d < 100000000 * 2 ^ n) ∧
    (∀ draw : ℕ,
      F64.toRat (rawInterval (NewExponentialRetryPolicy 100000000) 7) = 12800000000 ∧
      F64.toRat (clampInterval (NewExponentialRetryPolicy 100000000) 0
        (rawInterval (NewExponentialRetryPolicy 100000000) 7)) = 10000000000 ∧
      ∃ d, ComputeNextDelay (NewExponentialRetryPolicy 100000000) 0 7 draw = some d ∧
        8000000000 ≤ d ∧ d < 10000000000) ∧
    (∀ (p : ExponentialRetryPolicy) (elapsedTime numAttempts : ℤ) (draw : ℕ) (d : ℤ),
      clampInterval p elapsedTime (rawInterval p numAttempts) = rawInterval p numAttempts →
      0 < F64.toRat (rawInterval p numAttempts) →
      F64.toRat (rawInterval p numAttempts) ≤ 2 ^ 52 →
      ComputeNextDelay p elapsedTime numAttempts draw = some d → d ≠ done →
      ⌊(4 / 5 : ℚ) * F64.toRat (rawInterval p numAttempts)⌋ ≤ d ∧
      (d : ℚ) < F64.toRat (rawInterval p numAttempts)) := by
  refine ⟨default_schedule_attempt, default_schedule_clamped, ?_⟩
  intro p e n draw d hcl h0 h52 h hd
  have := ComputeNextDelay_of_clamped (by rw [hcl]; exact h0) h hd (by rw [hcl]; exact h52)
  rwa [hcl] at this

/-- Witness of C5: the general clause at the default policy for 100 ms,
attempt 3, draw 0, where the delay is 640 ms for `raw = 800 ms`. -/
theorem ComputeNextDelay_default_schedule_witness :
    ⌊(4 / 5 : ℚ) * F64.toRat (rawInterval (NewExponentialRetryPolicy 100000000) 3)⌋
      ≤ 640000000 ∧
    ((640000000 : ℤ) : ℚ) < F64.toRat (rawInterval (NewExponentialRetryPolicy 100000000) 3) :=
  have hraw : rawInterval (NewExponentialRetryPolicy 100000000) 3
      = F64.fin false 6710886400000000 (-23) := by decide!
  ComputeNextDelay_default_schedule.2.2 (NewExponentialRetryPolicy 100000000) 0 3 0 640000000
    (by decide!) (by rw [hraw, F64.toRat_false]; norm_num)
    (by rw [hraw, F64.toRat_false]; norm_num) (by decide!) (by decide)

/-- Counterexample to C5 as stated, in three inputs where no clamp binds. The
default policy for 3 ns at attempt 0 has `raw = 3` and returns 2 ns for draw
0, below `0.8 * raw = 2.4`: the delay is truncated to whole nanoseconds. With
coefficient 0.5 the policy for 100 ms returns `done` at attempt 1
(`raw = 50ms < initialInterval`). With `initialInterval = 7119525160891559` ns
and no caps, attempt 0 can return `raw` itself. -/
theorem ComputeNextDelay_default_schedule_counterexample :
    (clampInterval (NewExponentialRetryPolicy 3) 0
        (rawInterval (NewExponentialRetryPolicy 3) 0)
        = rawInterval (NewExponentialRetryPolicy 3) 0 ∧
      F64.toRat (rawInterval (NewExponentialRetryPolicy 3) 0) = 3 ∧
      ComputeNextDelay (NewExponentialRetryPolicy 3) 0 0 0 = some 2 ∧
      ¬ ((4 / 5 : ℚ) * 3 ≤ ((2 : ℤ) : ℚ))) ∧
    (clampInterval ⟨100000000, F64.half, defaultMaximumInterval, defaultExpirationInterval, 0⟩
        0 (rawInterval ⟨100000000, F64.half, defaultMaximumInterval,
          defaultExpirationInterval, 0⟩ 1)
        = rawInterval ⟨100000000, F64.half, defaultMaximumInterval,
          defaultExpirationInterval, 0⟩ 1 ∧
      ComputeNextDelay ⟨100000000, F64.half, defaultMaximumInterval,
        defaultExpirationInterval, 0⟩ 0 1 0 = some done) ∧
    (clampInterval ⟨7119525160891559, defaultBackoffCoefficient, 0, 0, 0⟩ 0
        (rawInterval ⟨7119525160891559, defaultBackoffCoefficient, 0, 0, 0⟩ 0)
        = rawInterval ⟨7119525160891559, defaultBackoffCoefficient, 0, 0, 0⟩ 0 ∧
      F64.toRat (rawInterval ⟨7119525160891559, defaultBackoffCoefficient, 0, 0, 0⟩ 0)
        = 7119525160891559 ∧
      ComputeNextDelay ⟨7119525160891559, defaultBackoffCoefficient, 0, 0, 0⟩ 0 0
        1423905032178311 = some 7119525160891559) := by
  have hraw : rawInterval (NewExponentialRetryPolicy 3) 0
      = F64.fin false 6755399441055744 (-51) := by decide!
  have hraw2 : rawInterval ⟨7119525160891559, defaultBackoffCoefficient, 0, 0, 0⟩ 0
      = F64.fin false 7119525160891559 0 := by decide!
  refine ⟨⟨by decide!, ?_, by decide!, by norm_num⟩, ⟨by decide!, by decide!⟩,
    ⟨by decide!, ?_, by decide!⟩⟩
  · rw [hraw, F64.toRat_false]; norm_num
  · rw [hraw2, F64.toRat_false]; norm_num

/-! ## The constructors -/

/-- The constructor panics exactly when a phase before the last one has no
bound on its attempts. -/
theorem NewMultiPhasesRetryPolicy_eq_none_iff (policies : List ExponentialRetryPolicy) :
    NewMultiPhasesRetryPolicy policies = none ↔
      ∃ i p, i + 1 < policies.length ∧ policies.get? i = some p ∧
        p.maximumAttempts = noMaximumAttempts := by
  unfold NewMultiPhasesRetryPolicy
  constructor
  · intro h
    split_ifs at h with hc
    obtain ⟨i, hi, hd⟩ := List.any_eq_true.1 hc
    rw [List.mem_range] at hi
    have hd := of_decide_eq_true hd
    obtain ⟨p, hp, hm⟩ := Option.map_eq_some'.1 hd
    exact ⟨i, p, by omega, hp, hm⟩
  · rintro ⟨i, p, hi, hp, hm⟩
    rw [if_pos]
    refine List.any_eq_true.2 ⟨i, List.mem_range.2 (by omega), decide_eq_true ?_⟩
    rw [hp, Option.map_some', hm]

/-- When the constructor does not panic it returns the phases it was given. -/
theorem NewMultiPhasesRetryPolicy_eq_some (policies : List ExponentialRetryPolicy)
    (h : NewMultiPhasesRetryPolicy policies ≠ none) :
    NewMultiPhasesRetryPolicy policies = some ⟨policies⟩ := by
  unfold NewMultiPhasesRetryPolicy at h ⊢
  split_ifs at h ⊢ with hc
  · exact absurd rfl h
  · rfl

theorem NewRetrier_eq_none_iff {C : Type} (policy : Option RetryPolicy) (clock : Option C)
    (now : Int) : NewRetrier policy clock now = none ↔ policy = none ∨ clock = none := by
  cases policy <;> cases clock <;> simp [NewRetrier]

/-- With the call of `clock.Now()`, `NewRetrier` panics exactly at a nil policy,
at a nil clock, or when the call panics. -/
theorem NewRetrierOfTimeSource_eq_none_iff (policy : Option RetryPolicy)
    (clock : Option TimeSource) :
    NewRetrierOfTimeSource policy clock = none ↔
      policy = none ∨ clock = none ∨ ∃ c, clock = some c ∧ c.Now = none := by
  cases policy with
  | none => simp [NewRetrierOfTimeSource]
  | some policy =>
    cases clock with
    | none => simp [NewRetrierOfTimeSource]
    | some c =>
      cases hc : c.Now with
      | none => simp [NewRetrierOfTimeSource, hc]
      | some now => simp [NewRetrierOfTimeSource, hc]

/-- When `clock.Now()` returns, `NewRetrier` is the retrier of that reading. -/
theorem NewRetrierOfTimeSource_of_now (policy : RetryPolicy) (clock : TimeSource) (now : Int)
    (h : clock.Now = some now) :
    NewRetrierOfTimeSource (some policy) (some clock)
      = NewRetrier (some policy) (some clock) now := by
  simp [NewRetrierOfTimeSource, NewRetrier, h]

/-- With phases that may be nil, the constructor panics exactly when a phase
before the last one is nil or has no bound on its attempts. -/
theorem NewMultiPhasesRetryPolicyPtr_eq_none_iff
    (policies : List (Option ExponentialRetryPolicy)) :
    NewMultiPhasesRetryPolicyPtr policies = none ↔
      ∃ i, i + 1 < policies.length ∧
        (policies.get? i = some none ∨
          ∃ p, policies.get? i = some (some p) ∧ p.maximumAttempts = noMaximumAttempts) := by
  unfold NewMultiPhasesRetryPolicyPtr
  constructor
  · intro h
    split_ifs at h with hc
    obtain ⟨i, hi, hd⟩ := List.any_eq_true.1 hc
    rw [List.mem_range] at hi
    refine ⟨i, by omega, ?_⟩
    cases hg : policies.get? i with
    | none =>
      rw [hg] at hd
      cases hd
    | some o =>
      cases o with
      | none => exact Or.inl rfl
      | some p =>
        rw [hg] at hd
        exact Or.inr ⟨p, rfl, of_decide_eq_true hd⟩
  · rintro ⟨i, hi, hg | ⟨p, hg, hm⟩⟩
    · rw [if_pos]
      refine List.any_eq_true.2 ⟨i, List.mem_range.2 (by omega), ?_⟩
      rw [hg]
    · rw [if_pos]
      refine List.any_eq_true.2 ⟨i, List.mem_range.2 (by omega), ?_⟩
      rw [hg]
      exact decide_eq_true hm

/-- On phases of which none is nil the two embeddings of the constructor
agree. -/
theorem NewMultiPhasesRetryPolicyPtr_map_some (policies : List ExponentialRetryPolicy) :
    NewMultiPhasesRetryPolicyPtr (policies.map some)
      = (NewMultiPhasesRetryPolicy policies).map (fun tp => tp.policies.map some) := by
  by_cases h : NewMultiPhasesRetryPolicy policies = none
  · rw [h]
    obtain ⟨i, p, hi, hg, hm⟩ := (NewMultiPhasesRetryPolicy_eq_none_iff policies).1 h
    rw [Option.map_none', NewMultiPhasesRetryPolicyPtr_eq_none_iff]
    refine ⟨i, by rw [List.length_map]; exact hi, Or.inr ⟨p, ?_, hm⟩⟩
    rw [List.get?_eq_getElem?] at hg ⊢
    rw [List.getElem?_map, hg]
    rfl
  · rw [NewMultiPhasesRetryPolicy_eq_some policies h, Option.map_some']
    have hn : NewMultiPhasesRetryPolicyPtr (policies.map some) ≠ none := by
      rw [Ne, NewMultiPhasesRetryPolicyPtr_eq_none_iff]
      rintro ⟨i, hi, hg | ⟨p, hg, hm⟩⟩
      · rw [List.get?_eq_getElem?, List.getElem?_map] at hg
        cases hq : policies[i]? with
        | none => rw [hq] at hg; cases hg
        | some q => rw [hq] at hg; cases hg
      · apply h
        rw [NewMultiPhasesRetryPolicy_eq_none_iff]
        rw [List.length_map] at hi
        refine ⟨i, p, hi, ?_, hm⟩
        rw [List.get?_eq_getElem?, List.getElem?_map] at hg
        rw [List.get?_eq_getElem?]
        cases hq : policies[i]? with
        | none => rw [hq] at hg; cases hg
        | some q =>
          rw [hq] at hg
          cases hg
          rfl
    unfold NewMultiPhasesRetryPolicyPtr at hn ⊢
    split_ifs at hn ⊢ with hc
    · exact absurd rfl hn
    · rfl

/-- C11 (amended): `NewExponentialRetryPolicy` returns a policy for every
argument, with the default fields. `NewRetrier` panics at its guards exactly
when its policy or its clock is the nil interface value, and otherwise, once
`clock.Now()` has returned the reading `now`, returns the retrier with
attempt 0 started at that reading; a policy that is a nil pointer inside an
interface value, whose methods panic, is not nil for the guards. With the call
of `clock.Now()` counted in, `NewRetrier` panics exactly when the policy is
nil, the clock is nil, or that call panics, as it may for a nil pointer inside
the interface value. `NewMultiPhasesRetryPolicy` panics exactly when a phase
before the last one is a nil pointer or has no bound on its attempts, and
otherwise returns the phases as they were passed; on phases of which none is
nil this is the panic for a phase before the last one without a bound. -/
theorem constructors_panic_iff :
    (∀ initialInterval : Int,
      NewExponentialRetryPolicy initialInterval
        = ⟨initialInterval, defaultBackoffCoefficient, defaultMaximumInterval,
            defaultExpirationInterval, noMaximumAttempts⟩) ∧
    (∀ (C : Type) (policy : Option RetryPolicy) (clock : Option C) (now : Int),
      NewRetrier policy clock now = none ↔ policy = none ∨ clock = none) ∧
    (∀ (C : Type) (policy : RetryPolicy) (clock : C) (now : Int),
      NewRetrier (some policy) (some clock) now = some ⟨policy, clock, 0, now⟩) ∧
    (∀ (C : Type) (clock : C) (now : Int),
      NewRetrier (some ⟨fun _ _ _ => none⟩) (some clock) now ≠ none) ∧
    (∀ (policy : Option RetryPolicy) (clock : Option TimeSource),
      NewRetrierOfTimeSource policy clock = none ↔
        policy = none ∨ clock = none ∨ ∃ c, clock = some c ∧ c.Now = none) ∧
    (∀ (policy : RetryPolicy) (clock : TimeSource) (now : Int),
      clock.Now = some now →
        NewRetrierOfTimeSource (some policy) (some clock)
          = NewRetrier (some policy) (some clock) now) ∧
    (∀ policies : List (Option ExponentialRetryPolicy),
      NewMultiPhasesRetryPolicyPtr policies = none ↔
        ∃ i, i + 1 < policies.length ∧
          (policies.get? i = some none ∨
            ∃ p, policies.get? i = some (some p) ∧
              p.maximumAttempts = noMaximumAttempts)) ∧
    (∀ policies : List (Option ExponentialRetryPolicy),
      NewMultiPhasesRetryPolicyPtr policies ≠ none →
        NewMultiPhasesRetryPolicyPtr policies = some policies) ∧
    (∀ policies : List ExponentialRetryPolicy,
      NewMultiPhasesRetryPolicyPtr (policies.map some)
        = (NewMultiPhasesRetryPolicy policies).map (fun tp => tp.policies.map some)) ∧
    (∀ policies : List ExponentialRetryPolicy,
      NewMultiPhasesRetryPolicy policies = none ↔
        ∃ i p, i + 1 < policies.length ∧ policies.get? i = some p ∧
          p.maximumAttempts = noMaximumAttempts) := by
  refine ⟨fun _ => rfl, fun _ => NewRetrier_eq_none_iff, fun _ _ _ _ => rfl,
    fun _ _ _ => by simp [NewRetrier], NewRetrierOfTimeSource_eq_none_iff,
    NewRetrierOfTimeSource_of_now, NewMultiPhasesRetryPolicyPtr_eq_none_iff, ?_,
    NewMultiPhasesRetryPolicyPtr_map_some, NewMultiPhasesRetryPolicy_eq_none_iff⟩
  intro policies h
  unfold NewMultiPhasesRetryPolicyPtr at h ⊢
  split_ifs at h ⊢ with hc
  · exact absurd rfl h
  · rfl

/-- Witness of C11: a bounded first phase followed by a nil last phase is
accepted, and the phases are returned as they were passed, the last phase not
being read. -/
theorem constructors_panic_iff_witness :
    NewMultiPhasesRetryPolicyPtr
        [some { NewExponentialRetryPolicy 1 with maximumAttempts := 3 }, none] ≠ none ∧
    NewMultiPhasesRetryPolicyPtr
        [some { NewExponentialRetryPolicy 1 with maximumAttempts := 3 }, none]
      = some [some { NewExponentialRetryPolicy 1 with maximumAttempts := 3 }, none] :=
  ⟨by decide, constructors_panic_iff.2.2.2.2.2.2.2.1 _ (by decide)⟩

/-- Counterexample to C11 as stated: `NewRetrier` panics for a nil policy, and
for a nil clock, and for a clock whose `Now` panics; and
`NewMultiPhasesRetryPolicy` panics for a nil first phase followed by a phase,
though no phase given lacks a bound before the last. -/
theorem NewRetrier_nil_panics :
    NewRetrier (none : Option RetryPolicy) (some ()) 0 = none ∧
    NewRetrier (some (NewExponentialRetryPolicy 1).toRetryPolicy) (none : Option Unit) 0
      = none ∧
    NewRetrierOfTimeSource (some (NewExponentialRetryPolicy 1).toRetryPolicy) (some ⟨none⟩)
      = none ∧
    NewMultiPhasesRetryPolicyPtr [none, some (NewExponentialRetryPolicy 1)] = none :=
  ⟨rfl, rfl, rfl, by decide⟩

/-- C12: `NewMultiPhasesRetryPolicy` panics if and only if some phase other
than the last has `maximumAttempts` equal to 0; otherwise it returns the policy
holding exactly the given phases in the given order. The empty list and a
single phase never panic, and the last phase may be unbounded. -/
theorem NewMultiPhasesRetryPolicy_panics_iff (policies : List ExponentialRetryPolicy) :
    (NewMultiPhasesRetryPolicy policies = none ↔
      ∃ i p, i + 1 < policies.length ∧ policies.get? i = some p ∧
        p.maximumAttempts = noMaximumAttempts) ∧
    (NewMultiPhasesRetryPolicy policies ≠ none →
      NewMultiPhasesRetryPolicy policies = some ⟨policies⟩) ∧
    NewMultiPhasesRetryPolicy [] = some ⟨[]⟩ ∧
    (∀ p, NewMultiPhasesRetryPolicy [p] = some ⟨[p]⟩) ∧
    (∀ p, (∀ q ∈ policies, q.maximumAttempts ≠ noMaximumAttempts) →
      NewMultiPhasesRetryPolicy (policies ++ [p]) = some ⟨policies ++ [p]⟩) := by
  refine ⟨NewMultiPhasesRetryPolicy_eq_none_iff policies,
    NewMultiPhasesRetryPolicy_eq_some policies, rfl, fun _ => rfl, fun p hq => ?_⟩
  apply NewMultiPhasesRetryPolicy_eq_some
  rw [Ne, NewMultiPhasesRetryPolicy_eq_none_iff]
  rintro ⟨i, q, hi, hget, hm⟩
  rw [List.length_append, List.length_singleton] at hi
  have hi2 : i < policies.length := by omega
  rw [List.get?_eq_getElem?, List.getElem?_append_left hi2] at hget
  exact hq q (List.getElem?_mem hget) hm

/-- Witness of C12: two phases, the first bounded by 5 attempts, the second
unbounded, are accepted; with the first unbounded the constructor panics. -/
theorem NewMultiPhasesRetryPolicy_panics_iff_witness :
    NewMultiPhasesRetryPolicy
        ([{ NewExponentialRetryPolicy 10000000 with maximumAttempts := 5 }]
          ++ [NewExponentialRetryPolicy 1000000000])
      = some ⟨[{ NewExponentialRetryPolicy 10000000 with maximumAttempts := 5 }]
          ++ [NewExponentialRetryPolicy 1000000000]⟩ ∧
    NewMultiPhasesRetryPolicy
        [NewExponentialRetryPolicy 10000000, NewExponentialRetryPolicy 1000000000] = none :=
  ⟨(NewMultiPhasesRetryPolicy_panics_iff
      [{ NewExponentialRetryPolicy 10000000 with maximumAttempts := 5 }]).2.2.2.2
      (NewExponentialRetryPolicy 1000000000)
      (by intro q hq; rw [List.mem_singleton] at hq; subst hq; decide),
    (NewMultiPhasesRetryPolicy_panics_iff
      [NewExponentialRetryPolicy 10000000, NewExponentialRetryPolicy 1000000000]).1.2
      ⟨0, NewExponentialRetryPolicy 10000000, by decide, rfl, rfl⟩⟩

/-! ## Multi-phase policies -/

/-- `ComputeNextDelay` returns a duration. -/
theorem ComputeNextDelay_some (p : ExponentialRetryPolicy) (e n : ℤ) (draw : ℕ) :
    ∃ d, ComputeNextDelay p e n draw = some d := by
  unfold ComputeNextDelay
  split_ifs
  · exact ⟨_, rfl⟩
  · exact ⟨_, rfl⟩
  · exact ⟨_, rfl⟩
  · exact ⟨_, rfl⟩
  · exact ⟨_, addJitter_eq _ _⟩

/-- A phase whose result is not `done` serves the attempt. -/
theorem phasesDelay_cons_of_ne_done {p : ExponentialRetryPolicy}
    {rest : List ExponentialRetryPolicy} {e n c : ℤ} {draw : ℕ → ℕ} {d : ℤ}
    (h : ComputeNextDelay p e (wrap64 (n - c)) (draw 0) = some d) (hd : d ≠ done) :
    phasesDelay (p :: rest) e n c draw = some d := by
  rw [phasesDelay, h]
  simp only
  rw [if_pos hd]

/-- A phase whose result is `done` hands the attempt to the phases after it. -/
theorem phasesDelay_cons_of_done {p : ExponentialRetryPolicy}
    {rest : List ExponentialRetryPolicy} {e n c : ℤ} {draw : ℕ → ℕ}
    (h : ComputeNextDelay p e (wrap64 (n - c)) (draw 0) = some done) :
    phasesDelay (p :: rest) e n c draw
      = phasesDelay rest e n (wrap64 (c + p.maximumAttempts)) (fun i => draw (i + 1)) := by
  rw [phasesDelay, h]
  simp only
  rw [if_neg (by simp)]

/-- A phase whose attempts are used up returns `done`. -/
theorem ComputeNextDelay_exhausted {p : ExponentialRetryPolicy} {e n : ℤ} {draw : ℕ}
    (hb : p.maximumAttempts ≠ noMaximumAttempts) (hn : p.maximumAttempts ≤ n) :
    ComputeNextDelay p e n draw = some done := by
  unfold ComputeNextDelay
  rw [if_pos ⟨hb, hn⟩]

/-- C13 (amended): for a multi-phase policy whose first phase has
`maximumAttempts = a1 > 0`, at every elapsed time and every attempt `n` with
`0 ≤ n < a1`: when the first phase returns a delay, that delay is the result
(for the same jitter draw); when the first phase returns `done`, the result is
that of the phases after it, computed with `a1` attempts counted as used. -/
theorem MultiPhases_first_phase (p1 : ExponentialRetryPolicy)
    (rest : List ExponentialRetryPolicy) (elapsedTime numAttempts : ℤ) (draw : ℕ → ℕ)
    (h0 : 0 ≤ numAttempts) (hn : numAttempts < p1.maximumAttempts)
    (h63 : p1.maximumAttempts < 2 ^ 63) :
    (∀ d, ComputeNextDelay p1 elapsedTime numAttempts (draw 0) = some d → d ≠ done →
      MultiPhasesRetryPolicy.ComputeNextDelay ⟨p1 :: rest⟩ elapsedTime numAttempts draw
        = some d) ∧
    (ComputeNextDelay p1 elapsedTime numAttempts (draw 0) = some done →
      MultiPhasesRetryPolicy.ComputeNextDelay ⟨p1 :: rest⟩ elapsedTime numAttempts draw
        = phasesDelay rest elapsedTime numAttempts p1.maximumAttempts
            (fun i => draw (i + 1))) := by
  have hw : wrap64 (numAttempts - 0) = numAttempts := by
    rw [sub_zero]; exact wrap64_id (by omega) (by omega)
  have ha : wrap64 (0 + p1.maximumAttempts) = p1.maximumAttempts := by
    rw [zero_add]; exact wrap64_id (by omega) h63
  constructor
  · intro d h hd
    exact phasesDelay_cons_of_ne_done (by rw [hw]; exact h) hd
  · intro h
    show phasesDelay (p1 :: rest) elapsedTime numAttempts 0 draw = _
    rw [phasesDelay_cons_of_done (by rw [hw]; exact h), ha]

/-- Witness of C13: phases of 10 ms with 5 attempts and of 1 s, attempt 0 at
elapsed time 0 and draw 0: the first phase returns 8 ms, and so does the
multi-phase policy. -/
theorem MultiPhases_first_phase_witness :
    MultiPhasesRetryPolicy.ComputeNextDelay
      ⟨{ NewExponentialRetryPolicy 10000000 with maximumAttempts := 5 }
        :: [NewExponentialRetryPolicy 1000000000]⟩ 0 0 (fun _ => 0) = some 8000000 :=
  (MultiPhases_first_phase { NewExponentialRetryPolicy 10000000 with maximumAttempts := 5 }
    [NewExponentialRetryPolicy 1000000000] 0 0 (fun _ => 0) (by decide) (by decide)
    (by decide)).1 8000000 (by decide!) (by decide)

/-- Counterexample to C13 as stated: phases of 10 ms (5 attempts, expiration
60 s) and of 1 s (coefficient 1.0, no expiration), a valid construction. At
elapsed time 61 s and attempt 0 the first phase returns `done`, being expired,
and the multi-phase policy returns 800 ms, from the second phase at attempt
`0 - 5`. -/
theorem MultiPhases_first_phase_counterexample :
    NewMultiPhasesRetryPolicy
        [{ NewExponentialRetryPolicy 10000000 with maximumAttempts := 5 },
          ⟨1000000000, F64.one, defaultMaximumInterval, NoInterval, noMaximumAttempts⟩]
      = some ⟨[{ NewExponentialRetryPolicy 10000000 with maximumAttempts := 5 },
          ⟨1000000000, F64.one, defaultMaximumInterval, NoInterval, noMaximumAttempts⟩]⟩ ∧
    ComputeNextDelay { NewExponentialRetryPolicy 10000000 with maximumAttempts := 5 }
      61000000000 0 0 = some done ∧
    MultiPhasesRetryPolicy.ComputeNextDelay
      ⟨[{ NewExponentialRetryPolicy 10000000 with maximumAttempts := 5 },
        ⟨1000000000, F64.one, defaultMaximumInterval, NoInterval, noMaximumAttempts⟩]⟩
      61000000000 0 (fun _ => 0) = some 800000000 :=
  ⟨by decide!, by decide!, by decide!⟩

/-- The schedule of the first phase of the two phases of 10 ms (5 attempts)
and 1 s at elapsed time 0. -/
theorem two_phases_first (draw : ℕ → ℕ) (n : ℕ) (hn : n ≤ 4) :
    ∃ d, MultiPhasesRetryPolicy.ComputeNextDelay
        ⟨[{ NewExponentialRetryPolicy 10000000 with maximumAttempts := 5 },
          NewExponentialRetryPolicy 1000000000]⟩ 0 n draw = some d ∧
      8000000 * 2 ^ n ≤ d ∧ d < 10000000 * 2 ^ n := by
  have hcl : clampInterval { NewExponentialRetryPolicy 10000000 with maximumAttempts := 5 } 0
      (rawInterval { NewExponentialRetryPolicy 10000000 with maximumAttempts := 5 } n)
      = F64.fin false 5368709120000000 (-29 + n) := by
    interval_cases n <;> decide!
  have hval : ((5368709120000000 : ℕ) : ℚ) * 2 ^ (-29 + (n : ℤ))
      = ((10000000 * 2 ^ n : ℤ) : ℚ) := by
    interval_cases n <;> norm_num
  obtain ⟨d, hd, hlo, hhi⟩ :=
    @ComputeNextDelay_of_interval { NewExponentialRetryPolicy 10000000 with maximumAttempts := 5 }
      0 n (draw 0) 5368709120000000 (-29 + n) (8000000 * 2 ^ n) (10000000 * 2 ^ n)
      (by rintro ⟨_, h⟩; change (5 : ℤ) ≤ n at h; omega) (by decide)
      (by interval_cases n <;> decide!) (by interval_cases n <;> decide!) hcl hval
      (by push_cast; ring_nf; exact le_refl _) (by positivity)
      (by interval_cases n <;> norm_num)
  refine ⟨d, ?_, hlo, hhi⟩
  have hpos : (0 : ℤ) < 8000000 * 2 ^ n := by positivity
  exact phasesDelay_cons_of_ne_done
    (by rw [sub_zero, wrap64_id (by omega) (by omega)]; exact hd)
    (by unfold done; omega)

/-- The first attempt of the second phase of the two phases of 10 ms
(5 attempts) and 1 s at elapsed time 0. -/
theorem two_phases_second (draw : ℕ → ℕ) :
    ∃ d, MultiPhasesRetryPolicy.ComputeNextDelay
        ⟨[{ NewExponentialRetryPolicy 10000000 with maximumAttempts := 5 },
          NewExponentialRetryPolicy 1000000000]⟩ 0 5 draw = some d ∧
      800000000 ≤ d ∧ d < 1000000000 := by
  obtain ⟨d, hd, hlo, hhi⟩ :=
    @ComputeNextDelay_of_interval (NewExponentialRetryPolicy 1000000000)
      0 0 (draw 1) 8388608000000000 (-23) 800000000 1000000000
      (by decide) (by decide) (by decide!) (by decide!) (by decide!) (by norm_num)
      (by norm_num) (by norm_num) (by norm_num)
  refine ⟨d, ?_, hlo, hhi⟩
  show phasesDelay _ 0 5 0 draw = some d
  rw [phasesDelay_cons_of_done (ComputeNextDelay_exhausted (by decide) (by decide))]
  exact phasesDelay_cons_of_ne_done (by exact hd) (by unfold done; omega)

/-- C14 (amended): for a multi-phase policy whose first phase has
`maximumAttempts = a1 > 0`, at every elapsed time and every attempt `n ≥ a1`:
when the second phase is the last one, or returns a delay, the result equals
`phase2.ComputeNextDelay(e, n - a1)`; when the second phase returns `done`,
the result is that of the phases after it, computed with `a1 + a2` attempts
counted as used (`done` when there are none). The phases of 10 ms
(5 attempts) and 1 s (unbounded) at elapsed time 0 give delays in
`[8ms * 2^n, 10ms * 2^n)` at attempts `n = 0..4` and a delay in `[800ms, 1s)`
at attempt 5. -/
theorem MultiPhases_second_phase :
    (∀ (p1 p2 : ExponentialRetryPolicy) (rest : List ExponentialRetryPolicy)
      (elapsedTime numAttempts : ℤ) (draw : ℕ → ℕ),
      0 < p1.maximumAttempts → p1.maximumAttempts ≤ numAttempts → numAttempts < 2 ^ 63 →
      (rest = [] ∨ ComputeNextDelay p2 elapsedTime (numAttempts - p1.maximumAttempts) (draw 1)
        ≠ some done) →
      MultiPhasesRetryPolicy.ComputeNextDelay ⟨p1 :: p2 :: rest⟩ elapsedTime numAttempts draw
        = ComputeNextDelay p2 elapsedTime (numAttempts - p1.maximumAttempts) (draw 1)) ∧
    (∀ (p1 p2 : ExponentialRetryPolicy) (rest : List ExponentialRetryPolicy)
      (elapsedTime numAttempts : ℤ) (draw : ℕ → ℕ),
      0 < p1.maximumAttempts → p1.maximumAttempts ≤ numAttempts → numAttempts < 2 ^ 63 →
      ComputeNextDelay p2 elapsedTime (numAttempts - p1.maximumAttempts) (draw 1)
        = some done →
      MultiPhasesRetryPolicy.ComputeNextDelay ⟨p1 :: p2 :: rest⟩ elapsedTime numAttempts draw
        = phasesDelay rest elapsedTime numAttempts
            (wrap64 (p1.maximumAttempts + p2.maximumAttempts)) (fun i => draw (i + 2))) ∧
    (∀ (draw : ℕ → ℕ) (n : ℕ), n ≤ 4 →
      ∃ d, MultiPhasesRetryPolicy.ComputeNextDelay
          ⟨[{ NewExponentialRetryPolicy 10000000 with maximumAttempts := 5 },
            NewExponentialRetryPolicy 1000000000]⟩ 0 n draw = some d ∧
        8000000 * 2 ^ n ≤ d ∧ d < 10000000 * 2 ^ n) ∧
    (∀ draw : ℕ → ℕ,
      ∃ d, MultiPhasesRetryPolicy.ComputeNextDelay
          ⟨[{ NewExponentialRetryPolicy 10000000 with maximumAttempts := 5 },
            NewExponentialRetryPolicy 1000000000]⟩ 0 5 draw = some d ∧
        800000000 ≤ d ∧ d < 1000000000) := by
  refine ⟨?_, ?_, two_phases_first, two_phases_second⟩
  · intro p1 p2 rest e n draw ha hn h63 hc
    have h1 : ComputeNextDelay p1 e (wrap64 (n - 0)) (draw 0) = some done :=
      ComputeNextDelay_exhausted (by unfold noMaximumAttempts; omega)
        (by rw [sub_zero, wrap64_id (by omega) h63]; exact hn)
    have hw : wrap64 (n - wrap64 (0 + p1.maximumAttempts)) = n - p1.maximumAttempts := by
      have ha1 : wrap64 p1.maximumAttempts = p1.maximumAttempts :=
        wrap64_id (by omega) (by omega)
      rw [zero_add, ha1, wrap64_id (by omega) (by omega)]
    show phasesDelay (p1 :: p2 :: rest) e n 0 draw = _
    rw [phasesDelay_cons_of_done h1]
    obtain ⟨d, hd⟩ := ComputeNextDelay_some p2 e (n - p1.maximumAttempts) (draw 1)
    rw [hd] at hc ⊢
    by_cases hdd : d = done
    · subst hdd
      rcases hc with rfl | hc
      · rw [phasesDelay_cons_of_done (by rw [hw]; exact hd)]
        rfl
      · exact absurd rfl hc
    · exact phasesDelay_cons_of_ne_done (by rw [hw]; exact hd) hdd
  · intro p1 p2 rest e n draw ha hn h63 hd
    have h1 : ComputeNextDelay p1 e (wrap64 (n - 0)) (draw 0) = some done :=
      ComputeNextDelay_exhausted (by unfold noMaximumAttempts; omega)
        (by rw [sub_zero, wrap64_id (by omega) h63]; exact hn)
    have ha1 : wrap64 (0 + p1.maximumAttempts) = p1.maximumAttempts := by
      rw [zero_add]
      exact wrap64_id (by omega) (by omega)
    have hw : wrap64 (n - p1.maximumAttempts) = n - p1.maximumAttempts :=
      wrap64_id (by omega) (by omega)
    show phasesDelay (p1 :: p2 :: rest) e n 0 draw = _
    rw [phasesDelay_cons_of_done h1, ha1,
      phasesDelay_cons_of_done (by rw [hw]; exact hd)]

/-- Witness of C14: the phases of 10 ms (5 attempts) and 1 s at elapsed time 0,
attempt 5 and draw 0 return 800 ms, the delay of the second phase at its
attempt 0. -/
theorem MultiPhases_second_phase_witness :
    MultiPhasesRetryPolicy.ComputeNextDelay
      ⟨{ NewExponentialRetryPolicy 10000000 with maximumAttempts := 5 }
        :: NewExponentialRetryPolicy 1000000000 :: []⟩ 0 5 (fun _ => 0)
      = ComputeNextDelay (NewExponentialRetryPolicy 1000000000) 0
          (5 - ({ NewExponentialRetryPolicy 10000000 with maximumAttempts := 5 } :
            ExponentialRetryPolicy).maximumAttempts) 0 :=
  MultiPhases_second_phase.1 { NewExponentialRetryPolicy 10000000 with maximumAttempts := 5 }
    (NewExponentialRetryPolicy 1000000000) [] 0 5 (fun _ => 0) (by decide) (by decide)
    (by decide) (Or.inl rfl)

/-- Counterexample to C14 as stated: phases of 10 ms (1 attempt), of 100 ms
(5 attempts, expiration 60 s) and of 1 s (coefficient 1.0, no expiration), a
valid construction. At elapsed time 61 s and attempt 1 the second phase returns
`done` at its attempt `1 - 1`, being expired, and the multi-phase policy
returns 800 ms, from the third phase. -/
theorem MultiPhases_second_phase_counterexample :
    NewMultiPhasesRetryPolicy
        [{ NewExponentialRetryPolicy 10000000 with maximumAttempts := 1 },
          { NewExponentialRetryPolicy 100000000 with maximumAttempts := 5 },
          ⟨1000000000, F64.one, defaultMaximumInterval, NoInterval, noMaximumAttempts⟩]
      ≠ none ∧
    ComputeNextDelay { NewExponentialRetryPolicy 100000000 with maximumAttempts := 5 }
      61000000000 (1 - 1) 0 = some done ∧
    MultiPhasesRetryPolicy.ComputeNextDelay
      ⟨[{ NewExponentialRetryPolicy 10000000 with maximumAttempts := 1 },
        { NewExponentialRetryPolicy 100000000 with maximumAttempts := 5 },
        ⟨1000000000, F64.one, defaultMaximumInterval, NoInterval, noMaximumAttempts⟩]⟩
      61000000000 1 (fun _ => 0) = some 800000000 :=
  ⟨by decide!, by decide!, by decide!⟩

/-! ## The retrier -/

/-- An exponential policy, as a `RetryPolicy`, never panics. -/
theorem ExponentialRetryPolicy.exponential_some (p : ExponentialRetryPolicy) (e n : ℤ)
    (draw : ℕ → ℕ) : ∃ d, p.toRetryPolicy.ComputeNextDelay e n draw = some d := by
  unfold ExponentialRetryPolicy.toRetryPolicy Backoff.ComputeNextDelay
  simp only
  split_ifs
  · exact ⟨_, rfl⟩
  · exact ⟨_, rfl⟩
  · exact ⟨_, rfl⟩
  · exact ⟨_, rfl⟩
  · exact ⟨_, addJitter_eq _ _⟩

/-- One call of `NextBackOff`: the interval of the policy for the elapsed time
and the current attempt, and the retrier with the attempt counted. -/
theorem retrierImpl.NextBackOff_eq {C : Type} (r : retrierImpl C) (now : ℤ) (draw : ℕ → ℕ)
    {d : ℤ} (h : r.policy.ComputeNextDelay (timeSub now r.startTime) r.currentAttempt draw
      = some d) :
    r.NextBackOff now draw
      = some (d, ⟨r.policy, r.clock, wrap64 (r.currentAttempt + 1), r.startTime⟩) := by
  unfold retrierImpl.NextBackOff retrierImpl.getElapsedTime
  rw [h]

/-- The retrier after a sequence of calls: only the attempt count has changed,
by the number of calls. -/
theorem retrierImpl.afterCalls_eq {C : Type} (calls : List (ℤ × (ℕ → ℕ))) :
    ∀ (r : retrierImpl C), (∀ e n dr, ∃ d, r.policy.ComputeNextDelay e n dr = some d) →
      0 ≤ r.currentAttempt → r.currentAttempt + calls.length < 2 ^ 63 →
      r.afterCalls calls
        = some ⟨r.policy, r.clock, r.currentAttempt + calls.length, r.startTime⟩ := by
  induction calls with
  | nil =>
    intro r _ _ _
    simp [retrierImpl.afterCalls]
  | cons c calls ih =>
    intro r hp h0 hk
    obtain ⟨now, draw⟩ := c
    obtain ⟨d, hd⟩ := hp (timeSub now r.startTime) r.currentAttempt draw
    rw [List.length_cons] at hk
    push_cast at hk
    rw [retrierImpl.afterCalls, retrierImpl.NextBackOff_eq r now draw hd]
    simp only
    rw [wrap64_id (by omega) (by omega)]
    rw [ih ⟨r.policy, r.clock, r.currentAttempt + 1, r.startTime⟩ hp (by simp only; omega)
      (by simp only; omega)]
    simp only [List.length_cons]
    push_cast
    congr 2
    ring

/-- The loop over the phases never panics. -/
theorem phasesDelay_some (policies : List ExponentialRetryPolicy) :
    ∀ (e n c : ℤ) (draw : ℕ → ℕ), ∃ d, phasesDelay policies e n c draw = some d := by
  induction policies with
  | nil => intro e n c draw; exact ⟨done, rfl⟩
  | cons p rest ih =>
    intro e n c draw
    obtain ⟨d, hd⟩ := p.exponential_some e (wrap64 (n - c)) draw
    have hd2 : ComputeNextDelay p e (wrap64 (n - c)) (draw 0) = some d := hd
    rw [phasesDelay, hd2]
    simp only
    split_ifs
    · exact ⟨d, rfl⟩
    · exact ih _ _ _ _

/-- A multi-phase policy, as a `RetryPolicy`, never panics. -/
theorem MultiPhasesRetryPolicy.multiPhases_some (tp : MultiPhasesRetryPolicy) (e n : ℤ)
    (draw : ℕ → ℕ) : ∃ d, tp.toRetryPolicy.ComputeNextDelay e n draw = some d :=
  phasesDelay_some tp.policies e n 0 draw

/-- C15: for a retrier created by `NewRetrier(policy, clock)` at clock reading
`startTime`, with a policy that does not panic (as the two policies of the
package), after any `k` calls of `NextBackOff` (no `Reset` in between, `k` a
value of the 64-bit attempt count) only the attempt count has changed and is
`k`; the next call, at clock reading `now`, returns
`policy.ComputeNextDelay(now - startTime, k)`, whether that is `done` or not,
and leaves the policy, the clock and `startTime` as they are, with the attempt
count incremented, to `k + 1` when that is a 64-bit value. -/
theorem NextBackOff_kth {C : Type} (policy : RetryPolicy) (clock : C) (startTime : ℤ)
    (calls : List (ℤ × (ℕ → ℕ))) (now : ℤ) (draw : ℕ → ℕ)
    (hp : ∀ e n dr, ∃ d, policy.ComputeNextDelay e n dr = some d)
    (hk : (calls.length : ℤ) < 2 ^ 63) :
    ∃ r0 r d, NewRetrier (some policy) (some clock) startTime = some r0 ∧
      r0.afterCalls calls = some r ∧
      r = ⟨policy, clock, calls.length, startTime⟩ ∧
      policy.ComputeNextDelay (timeSub now startTime) calls.length draw = some d ∧
      r.NextBackOff now draw
        = some (d, ⟨policy, clock, wrap64 (calls.length + 1), startTime⟩) ∧
      ((calls.length : ℤ) + 1 < 2 ^ 63 → wrap64 (calls.length + 1) = calls.length + 1) := by
  obtain ⟨d, hd⟩ := hp (timeSub now startTime) calls.length draw
  refine ⟨⟨policy, clock, 0, startTime⟩, ⟨policy, clock, calls.length, startTime⟩, d, rfl,
    ?_, rfl, hd, ?_, fun h => wrap64_id (by omega) h⟩
  · rw [retrierImpl.afterCalls_eq calls _ hp (by simp) (by simpa using hk)]
    simp
  · exact retrierImpl.NextBackOff_eq _ now draw hd

/-- Witness of C15: a retrier for the default policy for 100 ms, created at
clock reading 0; after calls at 1 ms and at 2 ms, the call at 3 ms is the one
for attempt 2. -/
theorem NextBackOff_kth_witness :
    ∃ (r0 r : retrierImpl Unit) (d : ℤ),
      NewRetrier (some (NewExponentialRetryPolicy 100000000).toRetryPolicy) (some ()) 0
        = some r0 ∧
      r0.afterCalls [(1000000, fun _ => 0), (2000000, fun _ => 0)] = some r ∧
      r = ⟨(NewExponentialRetryPolicy 100000000).toRetryPolicy, (),
        ([(1000000, fun _ => 0), (2000000, fun _ => 0)] : List (ℤ × (ℕ → ℕ))).length, 0⟩ ∧
      (NewExponentialRetryPolicy 100000000).toRetryPolicy.ComputeNextDelay
        (timeSub 3000000 0)
        ([(1000000, fun _ => 0), (2000000, fun _ => 0)] : List (ℤ × (ℕ → ℕ))).length
        (fun _ => 0) = some d ∧
      r.NextBackOff 3000000 (fun _ => 0)
        = some (d, ⟨(NewExponentialRetryPolicy 100000000).toRetryPolicy, (),
            wrap64 (([(1000000, fun _ => 0), (2000000, fun _ => 0)] :
              List (ℤ × (ℕ → ℕ))).length + 1), 0⟩) ∧
      (((([(1000000, fun _ => 0), (2000000, fun _ => 0)] :
          List (ℤ × (ℕ → ℕ))).length : ℕ) : ℤ) + 1 < 2 ^ 63 →
        wrap64 (([(1000000, fun _ => 0), (2000000, fun _ => 0)] :
          List (ℤ × (ℕ → ℕ))).length + 1)
        = ([(1000000, fun _ => 0), (2000000, fun _ => 0)] :
          List (ℤ × (ℕ → ℕ))).length + 1) :=
  NextBackOff_kth (NewExponentialRetryPolicy 100000000).toRetryPolicy () 0
    [(1000000, fun _ => 0), (2000000, fun _ => 0)] 3000000 (fun _ => 0)
    (NewExponentialRetryPolicy 100000000).exponential_some (by decide)

/-- C16: `Reset` at clock reading `t` puts the retrier into the initial state:
attempt 0 and `startTime = t`, with policy and clock unchanged, which is the
state of `NewRetrier(policy, clock)` created at `t`; the next `NextBackOff`
returns the delay of attempt 0 for the time elapsed since `t`. -/
theorem Reset_initial_state {C : Type} (r : retrierImpl C) (t : ℤ) :
    r.Reset t = ⟨r.policy, r.clock, 0, t⟩ ∧
    NewRetrier (some r.policy) (some r.clock) t = some (r.Reset t) ∧
    (∀ (now : ℤ) (draw : ℕ → ℕ),
      (r.Reset t).NextBackOff now draw
        = (r.policy.ComputeNextDelay (timeSub now t) 0 draw).map
            (fun d => (d, ⟨r.policy, r.clock, 1, t⟩))) := by
  refine ⟨rfl, rfl, fun now draw => ?_⟩
  unfold retrierImpl.NextBackOff retrierImpl.getElapsedTime retrierImpl.Reset
  simp only
  cases r.policy.ComputeNextDelay (timeSub now t) 0 draw with
  | none => rfl
  | some d =>
    have h1 : wrap64 (0 + 1) = 1 := by decide
    simp only [Option.map_some', h1]

end Backoff

namespace Scheduler

/-! ## Rounds of the dispatcher -/

/-- A visit leaves in the channel the tasks after the first `weight` ones. -/
theorem dispatchChannel_snd {T : Type} (processorSubmit : T → Option Error) :
    ∀ (weight : ℕ) (buffer : List T),
      (dispatchChannel processorSubmit weight buffer).2 = buffer.drop weight := by
  intro weight
  induction weight with
  | zero => intro buffer; rfl
  | succ w ih =>
    intro buffer
    cases buffer with
    | nil => rfl
    | cons t buffer => simp [dispatchChannel, ih]

/-- A round takes the first `weight` tasks out of every channel and changes
nothing else. -/
theorem round_snd {K T : Type} (processorSubmit : T → Option Error) :
    ∀ pool : List (K × WeightedChannel T),
      (round processorSubmit pool).2
        = pool.map (fun kc => (kc.1, { kc.2 with buffer := kc.2.buffer.drop kc.2.weight })) := by
  intro pool
  induction pool with
  | nil => rfl
  | cons kc rest ih =>
    obtain ⟨k, ch⟩ := kc
    simp [round, ih, dispatchChannel_snd]

/-- After `r` rounds every channel has lost its first `r * weight` tasks. -/
theorem rounds_snd {K T : Type} (processorSubmit : T → Option Error) :
    ∀ (r : ℕ) (pool : List (K × WeightedChannel T)),
      (rounds processorSubmit r pool).2
        = pool.map (fun kc =>
            (kc.1, { kc.2 with buffer := kc.2.buffer.drop (r * kc.2.weight) })) := by
  intro r
  induction r with
  | zero =>
    intro pool
    simp [rounds]
  | succ r ih =>
    intro pool
    rw [rounds]
    simp only
    rw [ih, round_snd, List.map_map]
    apply List.map_congr_left
    intro kc _
    simp only [Function.comp, List.drop_drop]
    congr 2
    ring_nf

/-- C17: for one dispatcher worker over channels with weights `w_k` that hold
`n_k` buffered tasks each and receive no further submissions, after `r`
complete rounds the number of tasks remaining in channel `k` is
`max(0, n_k - r * w_k)`. With weights 3, 2, 1 and 5 tasks per channel the
numbers after rounds 1 to 5 are (2,3,4), (0,1,3), (0,0,2), (0,0,1), (0,0,0). -/
theorem rounds_remaining :
    (∀ (K T : Type) (processorSubmit : T → Option Error) (r : ℕ)
      (pool : List (K × WeightedChannel T)),
      (remaining (rounds processorSubmit r pool).2).map Int.ofNat
        = pool.map (fun kc => max 0 ((kc.2.buffer.length : ℤ) - r * kc.2.weight))) ∧
    (remaining (rounds (fun _ : ℕ => none) 1
        [((0 : ℕ), ⟨[1, 2, 3, 4, 5], 1000, 3, 0⟩), (1, ⟨[6, 7, 8, 9, 10], 1000, 2, 0⟩),
          (2, ⟨[11, 12, 13, 14, 15], 1000, 1, 0⟩)]).2 = [2, 3, 4] ∧
      remaining (rounds (fun _ : ℕ => none) 2
        [((0 : ℕ), ⟨[1, 2, 3, 4, 5], 1000, 3, 0⟩), (1, ⟨[6, 7, 8, 9, 10], 1000, 2, 0⟩),
          (2, ⟨[11, 12, 13, 14, 15], 1000, 1, 0⟩)]).2 = [0, 1, 3] ∧
      remaining (rounds (fun _ : ℕ => none) 3
        [((0 : ℕ), ⟨[1, 2, 3, 4, 5], 1000, 3, 0⟩), (1, ⟨[6, 7, 8, 9, 10], 1000, 2, 0⟩),
          (2, ⟨[11, 12, 13, 14, 15], 1000, 1, 0⟩)]).2 = [0, 0, 2] ∧
      remaining (rounds (fun _ : ℕ => none) 4
        [((0 : ℕ), ⟨[1, 2, 3, 4, 5], 1000, 3, 0⟩), (1, ⟨[6, 7, 8, 9, 10], 1000, 2, 0⟩),
          (2, ⟨[11, 12, 13, 14, 15], 1000, 1, 0⟩)]).2 = [0, 0, 1] ∧
      remaining (rounds (fun _ : ℕ => none) 5
        [((0 : ℕ), ⟨[1, 2, 3, 4, 5], 1000, 3, 0⟩), (1, ⟨[6, 7, 8, 9, 10], 1000, 2, 0⟩),
          (2, ⟨[11, 12, 13, 14, 15], 1000, 1, 0⟩)]).2 = [0, 0, 0]) := by
  refine ⟨?_, by decide, by decide, by decide, by decide, by decide⟩
  intro K T processorSubmit r pool
  rw [rounds_snd, remaining, List.map_map, List.map_map]
  apply List.map_congr_left
  intro kc _
  simp only [Function.comp, List.length_drop]
  show ((kc.2.buffer.length - r * kc.2.weight : ℕ) : ℤ) = _
  omega

/-! ## Submissions to a stopped scheduler -/

/-- C18: for every scheduler and every task, after `Start` followed by `Stop`
the scheduler is `Stopped`, `Submit` returns `SchedulerClosed` and enqueues
nothing; every submission in the state `Stopped`, by `Submit` or by
`TrySubmit`, fails this way and leaves the scheduler as it is. -/
theorem Submit_after_Stop {K T : Type} [DecidableEq K]
    (s : weightedRoundRobinTaskSchedulerImpl K T) (task : T) :
    (Stop (Start s)).state = State.Stopped ∧
    Submit (Stop (Start s)) task = (some (some Error.SchedulerClosed), Stop (Start s)) ∧
    (Submit (Stop (Start s)) task).2.pool = s.pool ∧
    (∀ s1 : weightedRoundRobinTaskSchedulerImpl K T, s1.state = State.Stopped →
      Submit s1 task = (some (some Error.SchedulerClosed), s1) ∧
      TrySubmit s1 task = ((false, some Error.SchedulerClosed), s1)) := by
  have hstop : (Stop (Start s)).state = State.Stopped := by
    unfold Stop Start
    cases hs : s.state <;> simp [hs]
  have hpool : (Stop (Start s)).pool = s.pool := by
    unfold Stop Start
    cases hs : s.state <;> simp [hs]
  have hall : ∀ s1 : weightedRoundRobinTaskSchedulerImpl K T, s1.state = State.Stopped →
      Submit s1 task = (some (some Error.SchedulerClosed), s1) ∧
      TrySubmit s1 task = ((false, some Error.SchedulerClosed), s1) := by
    intro s1 h1
    constructor
    · unfold Submit; rw [if_pos h1]
    · unfold TrySubmit; rw [if_pos h1]
  refine ⟨hstop, (hall _ hstop).1, ?_, hall⟩
  rw [(hall _ hstop).1]
  exact hpool

/-- Witness of C18: a scheduler with queue size 0, started and stopped. -/
theorem Submit_after_Stop_witness :
    (Submit (Stop (Start (⟨⟨0, 3, id, fun _ => 1⟩, State.Initial, []⟩ :
        weightedRoundRobinTaskSchedulerImpl ℕ ℕ))) 7).1
      = some (some Error.SchedulerClosed) := by
  have h := (Submit_after_Stop (⟨⟨0, 3, id, fun _ => 1⟩, State.Initial, []⟩ :
    weightedRoundRobinTaskSchedulerImpl ℕ ℕ) 7).2.1
  rw [h]

/-! ## Submissions to a full channel -/

theorem getChannel_modifyChannel {K T : Type} [DecidableEq K] (key : K)
    (f : WeightedChannel T → WeightedChannel T) :
    ∀ pool : List (K × WeightedChannel T),
      getChannel (modifyChannel pool key f) key = (getChannel pool key).map f := by
  intro pool
  induction pool with
  | nil => rfl
  | cons kc rest ih =>
    obtain ⟨k, ch⟩ := kc
    by_cases h : k = key
    · simp [modifyChannel, getChannel, h]
    · simp [modifyChannel, getChannel, h, ih]

theorem getChannel_append_new {K T : Type} [DecidableEq K] (key : K) (ch : WeightedChannel T) :
    ∀ pool : List (K × WeightedChannel T), getChannel pool key = none →
      getChannel (pool ++ [(key, ch)]) key = some ch := by
  intro pool
  induction pool with
  | nil => intro _; simp [getChannel]
  | cons kc rest ih =>
    obtain ⟨k, c⟩ := kc
    intro h
    by_cases hk : k = key
    · simp [getChannel, hk] at h
    · simp only [getChannel, hk, if_false] at h
      simp [getChannel, hk, ih h]

/-- The channel that `GetOrCreateChannel` hands out: it holds what the channel
of the key held before, nothing if there was none. -/
theorem getChannel_GetOrCreateChannel {K T : Type} [DecidableEq K]
    (pool : List (K × WeightedChannel T)) (queueSize : ℕ) (key : K) (weight : ℕ)
    (hcap : ∀ ch, getChannel pool key = some ch → ch.capacity = queueSize) :
    ∃ ch, getChannel (GetOrCreateChannel pool queueSize key weight) key = some ch ∧
      ch.buffer = buffered pool key ∧ ch.capacity = queueSize := by
  unfold GetOrCreateChannel buffered
  cases h : getChannel pool key with
  | none =>
    exact ⟨_, getChannel_append_new key _ pool h, rfl, rfl⟩
  | some ch =>
    refine ⟨{ ch with refCount := ch.refCount + 1 }, ?_, rfl, hcap ch h⟩
    simp only
    rw [getChannel_modifyChannel, h]
    rfl

/-- One `TrySubmit` on a scheduler that is not stopped: the task is appended
to the channel of its key when the channel has room, and refused with
`(false, nil)` when it is full. -/
theorem TrySubmit_step {K T : Type} [DecidableEq K]
    (s : weightedRoundRobinTaskSchedulerImpl K T) (task : T) (p : K)
    (hs : s.state ≠ State.Stopped) (hp : s.options.TaskToChannelKeyFn task = p)
    (hcap : ∀ ch, getChannel s.pool p = some ch → ch.capacity = s.options.QueueSize) :
    (TrySubmit s task).2.state = s.state ∧ (TrySubmit s task).2.options = s.options ∧
    (∀ ch, getChannel (TrySubmit s task).2.pool p = some ch →
      ch.capacity = s.options.QueueSize) ∧
    ((buffered s.pool p).length < s.options.QueueSize →
      (TrySubmit s task).1 = (true, none) ∧
      buffered (TrySubmit s task).2.pool p = buffered s.pool p ++ [task]) ∧
    (¬ (buffered s.pool p).length < s.options.QueueSize →
      (TrySubmit s task).1 = (false, none) ∧
      buffered (TrySubmit s task).2.pool p = buffered s.pool p) := by
  obtain ⟨ch, hch, hbuf, hc⟩ := getChannel_GetOrCreateChannel s.pool s.options.QueueSize p
    (s.options.ChannelKeyToWeightFn p) hcap
  unfold TrySubmit
  rw [if_neg hs]
  simp only [hp]
  unfold trySend
  rw [hch]
  simp only [hbuf, hc]
  by_cases hroom : (buffered s.pool p).length < s.options.QueueSize
  · rw [if_pos hroom]
    simp only
    refine ⟨trivial, trivial, ?_, fun _ => ⟨trivial, ?_⟩, fun h => absurd hroom h⟩
    · intro c hcg
      rw [releaseFn, getChannel_modifyChannel, getChannel_modifyChannel, hch] at hcg
      simp only [Option.map_some', Option.some.injEq] at hcg
      rw [← hcg]
      exact hc
    · unfold buffered
      rw [releaseFn, getChannel_modifyChannel, getChannel_modifyChannel, hch]
      simp only [Option.map_some']
      rw [hbuf]
      rfl
  · rw [if_neg hroom]
    simp only
    refine ⟨trivial, trivial, ?_, fun h => absurd h hroom, fun _ => ⟨trivial, ?_⟩⟩
    · intro c hcg
      rw [releaseFn, getChannel_modifyChannel, hch] at hcg
      simp only [Option.map_some', Option.some.injEq] at hcg
      rw [← hcg]
      exact hc
    · unfold buffered
      rw [releaseFn, getChannel_modifyChannel, hch]
      simp only [Option.map_some']
      rw [hbuf]
      rfl

/-- A sequence of `TrySubmit` calls for which the channel has room: every call
is accepted and the tasks are appended to the channel in order. -/
theorem trySubmitAll_accepted {K T : Type} [DecidableEq K] (p : K) (tasks : List T) :
    ∀ s : weightedRoundRobinTaskSchedulerImpl K T, s.state ≠ State.Stopped →
      (∀ t ∈ tasks, s.options.TaskToChannelKeyFn t = p) →
      (∀ ch, getChannel s.pool p = some ch → ch.capacity = s.options.QueueSize) →
      (buffered s.pool p).length + tasks.length ≤ s.options.QueueSize →
      (trySubmitAll s tasks).1 = List.replicate tasks.length (true, none) ∧
      buffered (trySubmitAll s tasks).2.pool p = buffered s.pool p ++ tasks ∧
      (trySubmitAll s tasks).2.state = s.state ∧
      (trySubmitAll s tasks).2.options = s.options ∧
      (∀ ch, getChannel (trySubmitAll s tasks).2.pool p = some ch →
        ch.capacity = s.options.QueueSize) := by
  induction tasks with
  | nil =>
    intro s _ _ hcap _
    exact ⟨rfl, by simp [trySubmitAll], rfl, rfl, hcap⟩
  | cons t tasks ih =>
    intro s hs hp hcap hlen
    rw [List.length_cons] at hlen
    obtain ⟨hst, hop, hcap1, hacc, _⟩ :=
      TrySubmit_step s t p hs (hp t (List.mem_cons_self _ _)) hcap
    obtain ⟨hres, hbuf⟩ := hacc (by omega)
    obtain ⟨h1, h2, h3, h4, h5⟩ := ih (TrySubmit s t).2 (by rw [hst]; exact hs)
      (by intro u hu; rw [hop]; exact hp u (List.mem_cons_of_mem _ hu))
      (by rw [hop]; exact hcap1)
      (by rw [hbuf, hop, List.length_append, List.length_singleton]; omega)
    refine ⟨?_, ?_, ?_, ?_, ?_⟩
    · simp only [trySubmitAll, h1, hres, List.length_cons, List.replicate_succ]
    · simp only [trySubmitAll, h2, hbuf, List.append_assoc, List.singleton_append]
    · simp only [trySubmitAll, h3, hst]
    · simp only [trySubmitAll, h4, hop]
    · intro ch hch
      simp only [trySubmitAll] at hch
      rw [← hop]
      exact h5 ch hch

/-- C19: on a scheduler that is not stopped and whose dispatchers do not
drain, with an empty channel for priority `p` (or none yet) and queue size `Q`:
the first `Q` calls of `TrySubmit` with tasks of priority `p` each return
`(true, nil)` and buffer the tasks in order; the next call returns
`(false, nil)`, and the `Q` buffered tasks are as before. -/
theorem TrySubmit_saturated {K T : Type} [DecidableEq K]
    (s : weightedRoundRobinTaskSchedulerImpl K T) (p : K) (tasks : List T) (task : T)
    (hs : s.state ≠ State.Stopped)
    (hempty : ∀ ch, getChannel s.pool p = some ch →
      ch.buffer = [] ∧ ch.capacity = s.options.QueueSize)
    (hp : ∀ t ∈ tasks, s.options.TaskToChannelKeyFn t = p)
    (hpt : s.options.TaskToChannelKeyFn task = p)
    (hlen : tasks.length = s.options.QueueSize) :
    (trySubmitAll s tasks).1 = List.replicate s.options.QueueSize (true, none) ∧
    buffered (trySubmitAll s tasks).2.pool p = tasks ∧
    (TrySubmit (trySubmitAll s tasks).2 task).1 = (false, none) ∧
    buffered (TrySubmit (trySubmitAll s tasks).2 task).2.pool p = tasks := by
  have hb : buffered s.pool p = [] := by
    unfold buffered
    cases h : getChannel s.pool p with
    | none => rfl
    | some ch => exact (hempty ch h).1
  obtain ⟨h1, h2, h3, h4, h5⟩ := trySubmitAll_accepted p tasks s hs hp
    (fun ch h => (hempty ch h).2) (by rw [hb, hlen]; simp)
  rw [hb, List.nil_append] at h2
  obtain ⟨_, _, _, _, hfull⟩ := TrySubmit_step (trySubmitAll s tasks).2 task p
    (by rw [h3]; exact hs) (by rw [h4]; exact hpt) (by rw [h4]; exact h5)
  obtain ⟨hr, hbuf⟩ := hfull (by rw [h2, h4, hlen]; exact lt_irrefl _)
  exact ⟨by rw [h1, hlen], h2, hr, by rw [hbuf, h2]⟩

/-- Witness of C19: a fresh scheduler with queue size 2; two tasks of priority
1 are accepted, the third is refused. -/
theorem TrySubmit_saturated_witness :
    (trySubmitAll (⟨⟨2, 3, fun t => t % 3, fun _ => 1⟩, State.Initial, []⟩ :
        weightedRoundRobinTaskSchedulerImpl ℕ ℕ) [1, 4]).1
      = List.replicate 2 (true, none) ∧
    buffered (trySubmitAll (⟨⟨2, 3, fun t => t % 3, fun _ => 1⟩, State.Initial, []⟩ :
        weightedRoundRobinTaskSchedulerImpl ℕ ℕ) [1, 4]).2.pool 1 = [1, 4] ∧
    (TrySubmit (trySubmitAll (⟨⟨2, 3, fun t => t % 3, fun _ => 1⟩, State.Initial, []⟩ :
        weightedRoundRobinTaskSchedulerImpl ℕ ℕ) [1, 4]).2 7).1 = (false, none) ∧
    buffered (TrySubmit (trySubmitAll
        (⟨⟨2, 3, fun t => t % 3, fun _ => 1⟩, State.Initial, []⟩ :
          weightedRoundRobinTaskSchedulerImpl ℕ ℕ) [1, 4]).2 7).2.pool 1 = [1, 4] :=
  TrySubmit_saturated (⟨⟨2, 3, fun t => t % 3, fun _ => 1⟩, State.Initial, []⟩ :
      weightedRoundRobinTaskSchedulerImpl ℕ ℕ) 1 [1, 4] 7 (by decide)
    (by intro ch h; simp [getChannel] at h) (by decide) (by decide) (by decide)

/-! ## Handoff to the processor -/

theorem handoff_count_nack {T : Type} [DecidableEq T] (processorSubmit : T → Option Error)
    (task u : T) (herr : processorSubmit task ≠ none) :
    (handoff processorSubmit u).count (Event.Nack task) = [u].count task := by
  unfold handoff
  by_cases hu : u = task
  · subst hu
    cases h : processorSubmit u with
    | none => exact absurd h herr
    | some e => simp
  · have hne : ¬ (task = u) := fun h => hu h.symm
    cases h : processorSubmit u <;> simp [hu, hne]

theorem handoff_count_submit {T : Type} [DecidableEq T] (processorSubmit : T → Option Error)
    (task u : T) :
    (handoff processorSubmit u).count (Event.ProcessorSubmit task) = [u].count task := by
  unfold handoff
  by_cases hu : u = task
  · subst hu
    cases h : processorSubmit u <;> simp
  · have hne : ¬ (task = u) := fun h => hu h.symm
    cases h : processorSubmit u <;> simp [hu, hne]

theorem handoff_count_ack {T : Type} [DecidableEq T] (processorSubmit : T → Option Error)
    (task u : T) : (handoff processorSubmit u).count (Event.Ack task) = 0 := by
  unfold handoff
  cases h : processorSubmit u <;> simp

/-- The calls made in the visit of a channel, for a task the processor
refuses: one `Nack` and one `processor.Submit` for each time the task is
received, and no `Ack`. -/
theorem dispatchChannel_count {T : Type} [DecidableEq T] (processorSubmit : T → Option Error)
    (task : T) (herr : processorSubmit task ≠ none) :
    ∀ (weight : ℕ) (buffer : List T),
      (dispatchChannel processorSubmit weight buffer).1.count (Event.Nack task)
        = (buffer.take weight).count task ∧
      (dispatchChannel processorSubmit weight buffer).1.count (Event.ProcessorSubmit task)
        = (buffer.take weight).count task ∧
      (dispatchChannel processorSubmit weight buffer).1.count (Event.Ack task) = 0 := by
  intro weight
  induction weight with
  | zero => intro buffer; simp [dispatchChannel]
  | succ w ih =>
    intro buffer
    cases buffer with
    | nil => simp [dispatchChannel]
    | cons u buffer =>
      obtain ⟨h1, h2, h3⟩ := ih buffer
      simp only [dispatchChannel, List.count_append, List.take_succ_cons, h1, h2, h3,
        handoff_count_nack processorSubmit task u herr, handoff_count_submit, handoff_count_ack]
      refine ⟨?_, ?_, trivial⟩ <;>
      · rw [← List.count_append]
        rfl

/-- The calls made in a round, for a task the processor refuses. -/
theorem round_count {K T : Type} [DecidableEq T] (processorSubmit : T → Option Error)
    (task : T) (herr : processorSubmit task ≠ none) :
    ∀ pool : List (K × WeightedChannel T),
      (round processorSubmit pool).1.count (Event.Nack task)
        = (pool.map (fun kc => (kc.2.buffer.take kc.2.weight).count task)).sum ∧
      (round processorSubmit pool).1.count (Event.ProcessorSubmit task)
        = (pool.map (fun kc => (kc.2.buffer.take kc.2.weight).count task)).sum ∧
      (round processorSubmit pool).1.count (Event.Ack task) = 0 := by
  intro pool
  induction pool with
  | nil => simp [round]
  | cons kc rest ih =>
    obtain ⟨k, ch⟩ := kc
    obtain ⟨h1, h2, h3⟩ := ih
    obtain ⟨g1, g2, g3⟩ := dispatchChannel_count processorSubmit task herr ch.weight ch.buffer
    simp only [round, List.count_append, List.map_cons, List.sum_cons, h1, h2, h3, g1, g2, g3]
    exact ⟨trivial, trivial, trivial⟩

/-- C20: for a task `t` for which `processor.Submit(t)` returns an error, the
handoff of a dequeued `t` is the call of the processor followed by one
`t.Nack()`; in a round of the dispatcher `t.Nack()` is called once for each time
`t` is dequeued, as is `processor.Submit(t)`, `t.Ack()` is not called, and no
task is put back into a channel: every channel is left with the tasks after
the ones dequeued. -/
theorem dispatch_nack_once {K T : Type} [DecidableEq T] (processorSubmit : T → Option Error)
    (pool : List (K × WeightedChannel T)) (task : T)
    (herr : processorSubmit task ≠ none) :
    handoff processorSubmit task = [Event.ProcessorSubmit task, Event.Nack task] ∧
    (round processorSubmit pool).1.count (Event.Nack task)
      = (pool.map (fun kc => (kc.2.buffer.take kc.2.weight).count task)).sum ∧
    (round processorSubmit pool).1.count (Event.ProcessorSubmit task)
      = (pool.map (fun kc => (kc.2.buffer.take kc.2.weight).count task)).sum ∧
    (round processorSubmit pool).1.count (Event.Ack task) = 0 ∧
    (round processorSubmit pool).2
      = pool.map (fun kc => (kc.1, { kc.2 with buffer := kc.2.buffer.drop kc.2.weight })) := by
  obtain ⟨h1, h2, h3⟩ := round_count processorSubmit task herr pool
  refine ⟨?_, h1, h2, h3, round_snd processorSubmit pool⟩
  unfold handoff
  cases h : processorSubmit task with
  | none => exact absurd h herr
  | some e => rfl

/-- Witness of C20: one channel of weight 3 holding the tasks 7 and 8, and a
processor that refuses task 7: in the round task 7 is nacked once, not acked,
and the channel is left empty. -/
theorem dispatch_nack_once_witness :
    handoff (fun t : ℕ => if t = 7 then some Error.ProcessorError else none) 7
      = [Event.ProcessorSubmit 7, Event.Nack 7] ∧
    (round (fun t : ℕ => if t = 7 then some Error.ProcessorError else none)
        [((0 : ℕ), (⟨[7, 8], 1000, 3, 0⟩ : WeightedChannel ℕ))]).1.count (Event.Nack 7)
      = ([((0 : ℕ), (⟨[7, 8], 1000, 3, 0⟩ : WeightedChannel ℕ))].map
          (fun kc => (kc.2.buffer.take kc.2.weight).count 7)).sum ∧
    (round (fun t : ℕ => if t = 7 then some Error.ProcessorError else none)
        [((0 : ℕ), (⟨[7, 8], 1000, 3, 0⟩ : WeightedChannel ℕ))]).1.count
          (Event.ProcessorSubmit 7)
      = ([((0 : ℕ), (⟨[7, 8], 1000, 3, 0⟩ : WeightedChannel ℕ))].map
          (fun kc => (kc.2.buffer.take kc.2.weight).count 7)).sum ∧
    (round (fun t : ℕ => if t = 7 then some Error.ProcessorError else none)
        [((0 : ℕ), (⟨[7, 8], 1000, 3, 0⟩ : WeightedChannel ℕ))]).1.count (Event.Ack 7) = 0 ∧
    (round (fun t : ℕ => if t = 7 then some Error.ProcessorError else none)
        [((0 : ℕ), (⟨[7, 8], 1000, 3, 0⟩ : WeightedChannel ℕ))]).2
      = [((0 : ℕ), (⟨[7, 8], 1000, 3, 0⟩ : WeightedChannel ℕ))].map
          (fun kc => (kc.1, { kc.2 with buffer := kc.2.buffer.drop kc.2.weight })) :=
  dispatch_nack_once (fun t : ℕ => if t = 7 then some Error.ProcessorError else none)
    [((0 : ℕ), (⟨[7, 8], 1000, 3, 0⟩ : WeightedChannel ℕ))] 7 (by decide)

end Scheduler

/-! ## Numerals: what `Itoa` prints `Atoi` reads -/

namespace Strconv

theorem digitVal_digitChar (d : Nat) (h : d < 10) : digitVal (digitChar d) = some d := by
  interval_cases d <;> rfl

theorem digitChar_ne_slash (d : Nat) (h : d < 10) : digitChar d ≠ '/' := by
  interval_cases d <;> decide

theorem digitChar_ne_minus (d : Nat) (h : d < 10) : digitChar d ≠ '-' := by
  interval_cases d <;> decide

theorem digitChar_ne_plus (d : Nat) (h : d < 10) : digitChar d ≠ '+' := by
  interval_cases d <;> decide

/-- A string of decimal digits. -/
theorem parseDigits_append (ds rest : List Char) (a : Nat) :
    parseDigits (ds ++ rest) a = (parseDigits ds a).bind (parseDigits rest) := by
  induction ds generalizing a with
  | nil => simp [parseDigits]
  | cons c cs ih =>
    simp only [List.cons_append, parseDigits]
    cases digitVal c with
    | none => rfl
    | some d => exact ih _

theorem formatNatAux_spec : ∀ (fuel n : Nat) (acc : List Char), n < fuel →
    ∃ ds : List Char, formatNatAux fuel n acc = ds ++ acc ∧ ds ≠ [] ∧
      (∀ c ∈ ds, ∃ d, d < 10 ∧ c = digitChar d) ∧
      (∀ a : Nat, parseDigits ds a = some (a * 10 ^ ds.length + n)) := by
  intro fuel
  induction fuel with
  | zero => intro n acc h; omega
  | succ fuel ih =>
    intro n acc h
    by_cases hn : n < 10
    · refine ⟨[digitChar n], ?_, by simp, ?_, ?_⟩
      · simp [formatNatAux, hn]
      · intro c hc
        exact ⟨n, hn, by simpa using hc⟩
      · intro a
        simp [parseDigits, digitVal_digitChar n hn]
    · have hlt : n / 10 < fuel := by omega
      obtain ⟨ds, h1, _, h3, h4⟩ := ih (n / 10) (digitChar (n % 10) :: acc) hlt
      refine ⟨ds ++ [digitChar (n % 10)], ?_, by simp, ?_, ?_⟩
      · simp [formatNatAux, hn, h1]
      · intro c hc
        rcases List.mem_append.1 hc with hc | hc
        · exact h3 c hc
        · exact ⟨n % 10, Nat.mod_lt _ (by norm_num), by simpa using hc⟩
      · intro a
        rw [parseDigits_append, h4 a]
        simp only [Option.some_bind, parseDigits,
          digitVal_digitChar (n % 10) (Nat.mod_lt _ (by norm_num)), List.length_append,
          List.length_singleton]
        congr 1
        have := Nat.div_add_mod n 10
        rw [pow_succ]
        nlinarith [Nat.div_add_mod n 10]

theorem formatNat_spec (n : Nat) :
    formatNat n ≠ [] ∧ (∀ c ∈ formatNat n, ∃ d, d < 10 ∧ c = digitChar d) ∧
      parseDigits (formatNat n) 0 = some n := by
  obtain ⟨ds, h1, h2, h3, h4⟩ := formatNatAux_spec (n + 1) n [] (Nat.lt_succ_self n)
  have hds : formatNat n = ds := by simp [formatNat, h1]
  rw [hds]
  exact ⟨h2, h3, by simpa using h4 0⟩

/-- What `Itoa` prints for a number of `int64`, `Atoi` reads as that number. -/
theorem Atoi_Itoa (p : Int) (h1 : -2 ^ 63 ≤ p) (h2 : p < 2 ^ 63) : Atoi (Itoa p) = some p := by
  obtain ⟨hne, hdig, hparse⟩ := formatNat_spec p.natAbs
  by_cases hp : p < 0
  · simp only [Itoa, hp, if_true, Atoi, hne, if_false, hparse]
    have : p.natAbs ≤ 2 ^ 63 := by omega
    simp only [this, if_true]
    congr 1
    omega
  · simp only [Itoa, hp, if_false]
    cases hf : formatNat p.natAbs with
    | nil => exact absurd hf hne
    | cons c cs =>
      obtain ⟨d, hd, hc⟩ := hdig c (by rw [hf]; exact List.mem_cons_self _ _)
      have hm : c ≠ '-' := hc ▸ digitChar_ne_minus d hd
      have hpl : c ≠ '+' := hc ▸ digitChar_ne_plus d hd
      have hlt : p.natAbs < 2 ^ 63 := by omega
      simp only [Atoi, hm, hpl, if_false, ← hf, hparse, hlt, if_true]
      congr 1
      omega

theorem Itoa_injective (p q : Int) (hp1 : -2 ^ 63 ≤ p) (hp2 : p < 2 ^ 63)
    (hq1 : -2 ^ 63 ≤ q) (hq2 : q < 2 ^ 63) (h : Itoa p = Itoa q) : p = q := by
  have := Atoi_Itoa p hp1 hp2
  rw [h, Atoi_Itoa q hq1 hq2] at this
  exact (Option.some.inj this).symm

theorem slash_not_mem_Itoa (p : Int) : '/' ∉ Itoa p := by
  obtain ⟨_, hdig, _⟩ := formatNat_spec p.natAbs
  have hf : '/' ∉ formatNat p.natAbs := by
    intro hmem
    obtain ⟨d, hd, hc⟩ := hdig _ hmem
    exact digitChar_ne_slash d hd hc.symm
  unfold Itoa
  split
  · intro hmem
    rcases List.mem_cons.1 hmem with h | h
    · exact absurd h (by decide)
    · exact hf h
  · exact hf

theorem Itoa_ne_nil (p : Int) : Itoa p ≠ [] := by
  unfold Itoa
  split
  · simp
  · exact (formatNat_spec p.natAbs).1

theorem digitVal_slash : digitVal '/' = none := by decide

theorem slash_not_mem_of_parseDigits : ∀ (cs : List Char) (a n : Nat),
    parseDigits cs a = some n → '/' ∉ cs := by
  intro cs
  induction cs with
  | nil => intro a n _; simp
  | cons c cs ih =>
    intro a n h
    simp only [parseDigits] at h
    cases hd : digitVal c with
    | none => rw [hd] at h; simp at h
    | some d =>
      rw [hd] at h
      intro hmem
      rcases List.mem_cons.1 hmem with hc | hc
      · rw [← hc, digitVal_slash] at hd
        cases hd
      · exact ih _ _ h hc

/-- What `Atoi` reads: a sign, or none, and decimal digits within the range. -/
theorem Atoi_some (s : List Char) (p : Int) (h : Atoi s = some p) :
    ∃ (cs : List Char) (n : Nat), parseDigits cs 0 = some n ∧
      ((s = '-' :: cs ∧ p = -(n : Int) ∧ n ≤ 2 ^ 63) ∨
       (s = '+' :: cs ∧ p = (n : Int) ∧ n < 2 ^ 63) ∨
       (s = cs ∧ p = (n : Int) ∧ n < 2 ^ 63)) := by
  cases s with
  | nil => simp [Atoi] at h
  | cons c cs =>
    simp only [Atoi] at h
    by_cases hm : c = '-'
    · simp only [hm, if_true] at h
      by_cases hcs : cs = []
      · simp [hcs] at h
      · simp only [hcs, if_false] at h
        cases hp : parseDigits cs 0 with
        | none => rw [hp] at h; simp at h
        | some n =>
          rw [hp] at h
          simp only at h
          by_cases hn : n ≤ 2 ^ 63
          · simp only [hn, if_true, Option.some.injEq] at h
            exact ⟨cs, n, hp, Or.inl ⟨by rw [hm], h.symm, hn⟩⟩
          · exact absurd h (by rw [if_neg hn]; intro h0; cases h0)
    · simp only [hm, if_false] at h
      by_cases hpl : c = '+'
      · simp only [hpl, if_true] at h
        by_cases hcs : cs = []
        · simp [hcs] at h
        · simp only [hcs, if_false] at h
          cases hp : parseDigits cs 0 with
          | none => rw [hp] at h; simp at h
          | some n =>
            rw [hp] at h
            simp only at h
            by_cases hn : n < 2 ^ 63
            · simp only [hn, if_true, Option.some.injEq] at h
              exact ⟨cs, n, hp, Or.inr (Or.inl ⟨by rw [hpl], h.symm, hn⟩)⟩
            · exact absurd h (by rw [if_neg hn]; intro h0; cases h0)
      · simp only [hpl, if_false] at h
        cases hp : parseDigits (c :: cs) 0 with
        | none => rw [hp] at h; simp at h
        | some n =>
          rw [hp] at h
          simp only at h
          by_cases hn : n < 2 ^ 63
          · simp only [hn, if_true, Option.some.injEq] at h
            exact ⟨c :: cs, n, hp, Or.inr (Or.inr ⟨rfl, h.symm, hn⟩)⟩
          · exact absurd h (by rw [if_neg hn]; intro h0; cases h0)

/-- A string that `Atoi` reads has no `/`. -/
theorem slash_not_mem_of_Atoi (s : List Char) (p : Int) (h : Atoi s = some p) : '/' ∉ s := by
  obtain ⟨cs, n, hp, h1 | h1 | h1⟩ := Atoi_some s p h
  · rw [h1.1]
    intro hmem
    rcases List.mem_cons.1 hmem with hc | hc
    · exact absurd hc (by decide)
    · exact slash_not_mem_of_parseDigits cs 0 n hp hc
  · rw [h1.1]
    intro hmem
    rcases List.mem_cons.1 hmem with hc | hc
    · exact absurd hc (by decide)
    · exact slash_not_mem_of_parseDigits cs 0 n hp hc
  · rw [h1.1]
    exact slash_not_mem_of_parseDigits cs 0 n hp

/-- What `Atoi` reads is a number of `int64`. -/
theorem Atoi_range (s : List Char) (p : Int) (h : Atoi s = some p) :
    -2 ^ 63 ≤ p ∧ p < 2 ^ 63 := by
  obtain ⟨cs, n, _, h1 | h1 | h1⟩ := Atoi_some s p h
  · obtain ⟨_, hp, hn⟩ := h1
    constructor <;> omega
  · obtain ⟨_, hp, hn⟩ := h1
    constructor <;> omega
  · obtain ⟨_, hp, hn⟩ := h1
    constructor <;> omega

end Strconv

namespace Strings

theorem lastIndexAux_append (a l : List Char) (c : Char) (i : Nat) (best : Int) :
    lastIndexAux (a ++ l) c i best = lastIndexAux l c (i + a.length) (lastIndexAux a c i best) := by
  induction a generalizing i best with
  | nil => simp [lastIndexAux]
  | cons x xs ih =>
    show lastIndexAux (xs ++ l) c (i + 1) (if x = c then (i : Int) else best) =
      lastIndexAux l c (i + (xs.length + 1)) (lastIndexAux xs c (i + 1) (if x = c then (i : Int) else best))
    rw [ih]
    congr 1
    omega

theorem lastIndexAux_not_mem (b : List Char) (c : Char) (i : Nat) (best : Int) (h : c ∉ b) :
    lastIndexAux b c i best = best := by
  induction b generalizing i best with
  | nil => rfl
  | cons x xs ih =>
    have hx : x ≠ c := fun e => h (e ▸ List.mem_cons_self _ _)
    have hxs : c ∉ xs := fun e => h (List.mem_cons_of_mem _ e)
    simp only [lastIndexAux, hx, if_false]
    exact ih _ _ hxs

/-- The index of the last `c` in a string that has one. -/
theorem LastIndex_append_cons (a b : List Char) (c : Char) (h : c ∉ b) :
    LastIndex (a ++ c :: b) c = (a.length : Int) := by
  unfold LastIndex
  rw [lastIndexAux_append]
  simp only [lastIndexAux, if_true]
  rw [lastIndexAux_not_mem b c _ _ h]
  simp

/-- A string has no `c`, or splits at its last `c`. -/
theorem LastIndex_spec (s : List Char) (c : Char) :
    (c ∉ s ∧ LastIndex s c = -1) ∨
      ∃ a b, s = a ++ c :: b ∧ c ∉ b ∧ LastIndex s c = (a.length : Int) := by
  induction s with
  | nil => left; exact ⟨by simp, rfl⟩
  | cons x xs ih =>
    rcases ih with ⟨hn, _⟩ | ⟨a, b, hs, hb, _⟩
    · by_cases hx : x = c
      · right
        refine ⟨[], xs, by simp [hx], hn, ?_⟩
        have := LastIndex_append_cons [] xs c hn
        simpa [hx] using this
      · left
        have hmem : c ∉ x :: xs := by
          intro hm
          rcases List.mem_cons.1 hm with h | h
          · exact hx h.symm
          · exact hn h
        exact ⟨hmem, lastIndexAux_not_mem _ _ _ _ hmem⟩
    · right
      refine ⟨x :: a, b, by simp [hs], hb, ?_⟩
      have := LastIndex_append_cons (x :: a) b c hb
      simpa [hs] using this

end Strings

/-! ## Task list names -/

namespace Tasklist

theorem ReservedTaskListPrefix_length : ReservedTaskListPrefix.length = 15 := by decide

theorem slash_toList : "/".toList = ['/'] := by decide

theorem HasPrefix_iff (s pre : List Char) :
    Strings.HasPrefix s pre = true ↔ ∃ t, s = pre ++ t := by
  unfold Strings.HasPrefix
  rw [List.isPrefixOf_iff_prefix]
  constructor
  · rintro ⟨t, ht⟩
    exact ⟨t, ht.symm⟩
  · rintro ⟨t, ht⟩
    exact ⟨t, ht.symm⟩

/-- The zero value of `qualifiedTaskListName`. -/
theorem newTaskListName_root (name : List Char)
    (h : Strings.HasPrefix name ReservedTaskListPrefix = false) :
    newTaskListName name = ({ name := name, baseName := name, partition := 0 }, none) := by
  simp [newTaskListName, qualifiedTaskListName.init, h]

/-- The three tests of `init` on a name with the reserved prefix. -/
theorem newTaskListName_prefixed (name : List Char)
    (h : Strings.HasPrefix name ReservedTaskListPrefix = true) :
    newTaskListName name =
      if Strings.LastIndex name '/' ≤ (ReservedTaskListPrefix.length : Int) then
        ({ name := [], baseName := [], partition := 0 }, some ⟨name⟩)
      else
        match Strconv.Atoi (name.drop (Strings.LastIndex name '/' + 1).toNat) with
        | none => ({ name := [], baseName := [], partition := 0 }, some ⟨name⟩)
        | some p =>
          if p ≤ 0 then ({ name := [], baseName := [], partition := 0 }, some ⟨name⟩)
          else
            ({ name := name
               baseName := (name.take (Strings.LastIndex name '/').toNat).drop
                 ReservedTaskListPrefix.length
               partition := p }, none) := by
  unfold newTaskListName qualifiedTaskListName.init
  simp only [h, not_true_eq_false, if_false]
  by_cases h1 : Strings.LastIndex name '/' ≤ (ReservedTaskListPrefix.length : Int)
  · simp only [h1, if_true]
  · simp only [h1, if_false]
    cases h2 : Strconv.Atoi (name.drop (Strings.LastIndex name '/' + 1).toNat) with
    | none => rfl
    | some p =>
      simp only
      by_cases h3 : p ≤ 0
      · simp only [h3, if_true]
      · simp only [h3, if_false]

/-- The parts of a name that ends in `/` and a text without `/`. -/
theorem parts_of_form (base s : List Char) (hs : '/' ∉ s) :
    Strings.LastIndex (ReservedTaskListPrefix ++ base ++ '/' :: s) '/'
        = ((15 + base.length : Nat) : Int) ∧
      (ReservedTaskListPrefix ++ base ++ '/' :: s).drop (15 + base.length + 1) = s ∧
      ((ReservedTaskListPrefix ++ base ++ '/' :: s).take (15 + base.length)).drop 15 = base := by
  have hlen : (ReservedTaskListPrefix ++ base).length = 15 + base.length := by
    rw [List.length_append, ReservedTaskListPrefix_length]
  refine ⟨?_, ?_, ?_⟩
  · rw [Strings.LastIndex_append_cons _ _ _ hs, hlen]
  · have : (ReservedTaskListPrefix ++ base ++ '/' :: s)
        = (ReservedTaskListPrefix ++ base ++ ['/']) ++ s := by simp
    rw [this]
    apply List.drop_left'
    simp only [List.length_append, ReservedTaskListPrefix_length, List.length_singleton]
  · rw [← hlen, List.take_left', List.drop_left' ReservedTaskListPrefix_length]
    rfl

theorem HasPrefix_form (base s : List Char) :
    Strings.HasPrefix (ReservedTaskListPrefix ++ base ++ '/' :: s) ReservedTaskListPrefix
      = true := by
  rw [HasPrefix_iff]
  exact ⟨base ++ '/' :: s, by simp⟩

/-- What `newTaskListName` returns for a name `prefix + base + "/" + s`, where
`s` has no `/`. -/
theorem newTaskListName_form (base s : List Char) (hs : '/' ∉ s) :
    newTaskListName (ReservedTaskListPrefix ++ base ++ '/' :: s) =
      if base = [] then
        ({ name := [], baseName := [], partition := 0 },
          some ⟨ReservedTaskListPrefix ++ base ++ '/' :: s⟩)
      else
        match Strconv.Atoi s with
        | none => ({ name := [], baseName := [], partition := 0 },
            some ⟨ReservedTaskListPrefix ++ base ++ '/' :: s⟩)
        | some p =>
          if p ≤ 0 then ({ name := [], baseName := [], partition := 0 },
            some ⟨ReservedTaskListPrefix ++ base ++ '/' :: s⟩)
          else
            ({ name := ReservedTaskListPrefix ++ base ++ '/' :: s
               baseName := base
               partition := p }, none) := by
  obtain ⟨h1, h2, h3⟩ := parts_of_form base s hs
  rw [newTaskListName_prefixed _ (HasPrefix_form base s), h1, ReservedTaskListPrefix_length]
  have e1 : (((15 + base.length : Nat) : Int) + 1).toNat = 15 + base.length + 1 := by omega
  have e2 : (((15 + base.length : Nat) : Int)).toNat = 15 + base.length := by omega
  rw [e1, e2, h2, h3]
  by_cases hb : base = []
  · subst hb
    simp
  · have hpos : 0 < base.length := List.length_pos.2 hb
    have : ¬ (((15 + base.length : Nat) : Int) ≤ ((15 : Nat) : Int)) := by omega
    simp only [this, hb, if_false]

/-- A name with the reserved prefix and a last `/` after the prefix is its
prefix, a base that is not empty, `/`, and a text without `/`. -/
theorem form_of_prefixed (name : List Char)
    (h : Strings.HasPrefix name ReservedTaskListPrefix = true)
    (hl : ¬ Strings.LastIndex name '/' ≤ (ReservedTaskListPrefix.length : Int)) :
    ∃ base s, base ≠ [] ∧ '/' ∉ s ∧
      name = ReservedTaskListPrefix ++ base ++ '/' :: s := by
  rw [ReservedTaskListPrefix_length] at hl
  obtain ⟨t, ht⟩ := (HasPrefix_iff _ _).1 h
  rcases Strings.LastIndex_spec name '/' with ⟨_, h1⟩ | ⟨a, b, hab, hb, h1⟩
  · rw [h1] at hl
    omega
  · rw [h1] at hl
    have hlen : 15 < a.length := by omega
    have ha : a = ReservedTaskListPrefix ++ a.drop 15 := by
      have h2 : a.take 15 = ReservedTaskListPrefix := by
        have h3 : (a ++ '/' :: b).take 15 = (ReservedTaskListPrefix ++ t).take 15 := by
          rw [← hab, ← ht]
        rw [List.take_append_of_le_length (by omega),
          List.take_left' ReservedTaskListPrefix_length] at h3
        exact h3
      conv_lhs => rw [← List.take_append_drop 15 a, h2]
    refine ⟨a.drop 15, b, ?_, hb, ?_⟩
    · intro he
      have := congrArg List.length he
      simp at this
      omega
    · rw [← ha]
      exact hab

end Tasklist

namespace Tasklist

theorem GetPartition_of_ne_zero (tn : qualifiedTaskListName) (p : Int) (hp : p ≠ 0) :
    tn.GetPartition p = ReservedTaskListPrefix ++ tn.baseName ++ '/' :: Strconv.Itoa p := by
  simp [qualifiedTaskListName.GetPartition, hp, slash_toList]

/-- The names of two partitions of a task list are different. -/
theorem GetPartition_injective (tn : qualifiedTaskListName) (a b : Int)
    (ha1 : -2 ^ 63 ≤ a) (ha2 : a < 2 ^ 63) (hb1 : -2 ^ 63 ≤ b) (hb2 : b < 2 ^ 63)
    (h : tn.GetPartition a = tn.GetPartition b) : a = b := by
  by_cases ha : a = 0
  · by_cases hb : b = 0
    · rw [ha, hb]
    · rw [GetPartition_of_ne_zero tn b hb, ha] at h
      have := congrArg List.length h
      simp [qualifiedTaskListName.GetPartition, ReservedTaskListPrefix_length] at this
      omega
  · by_cases hb : b = 0
    · rw [GetPartition_of_ne_zero tn a ha, hb] at h
      have := congrArg List.length h
      simp [qualifiedTaskListName.GetPartition, ReservedTaskListPrefix_length] at this
      omega
    · rw [GetPartition_of_ne_zero tn a ha, GetPartition_of_ne_zero tn b hb] at h
      have h2 := List.append_cancel_left h
      exact Strconv.Itoa_injective a b ha1 ha2 hb1 hb2 (List.cons.inj h2).2

/-- A name that `newTaskListName` accepts is kept as the internal name. -/
theorem newTaskListName_name (name : List Char) (tn : qualifiedTaskListName)
    (h : newTaskListName name = (tn, none)) : tn.name = name := by
  cases hp : Strings.HasPrefix name ReservedTaskListPrefix with
  | false =>
    rw [newTaskListName_root name hp] at h
    rw [← (Prod.mk.inj h).1]
  | true =>
    rw [newTaskListName_prefixed name hp] at h
    split_ifs at h with h1
    · cases (Prod.mk.inj h).2
    · cases h2 : Strconv.Atoi (name.drop (Strings.LastIndex name '/' + 1).toNat) with
      | none =>
        rw [h2] at h
        cases (Prod.mk.inj h).2
      | some p =>
        rw [h2] at h
        simp only at h
        split_ifs at h with h3
        · cases (Prod.mk.inj h).2
        · rw [← (Prod.mk.inj h).1]

/-- The parent of a partition, while the sum of the partition number and the
degree is a number of `int`. -/
theorem Parent_of_pos (tn : qualifiedTaskListName) (d : Int) (hp : 1 ≤ tn.partition)
    (hd : 1 ≤ d) (hb : tn.partition + d - 1 < 2 ^ 63) :
    tn.Parent d = tn.GetPartition ((tn.partition + d - 1) / d - 1) := by
  have hroot : tn.IsRoot = false := by
    simp only [qualifiedTaskListName.IsRoot, decide_eq_false_iff_not]
    omega
  have hd0 : d ≠ 0 := by omega
  have h1 : Backoff.wrap64 (Backoff.wrap64 (tn.partition + d) - 1) = tn.partition + d - 1 := by
    unfold Backoff.wrap64
    omega
  have hdiv1 : 1 ≤ (tn.partition + d - 1) / d := by
    apply Int.le_ediv_of_mul_le (by omega)
    omega
  have hdiv2 : (tn.partition + d - 1) / d ≤ tn.partition + d - 1 :=
    Int.ediv_le_self _ (by omega)
  have h2 : Int.tdiv (tn.partition + d - 1) d = (tn.partition + d - 1) / d :=
    Int.tdiv_eq_ediv (by omega) (by omega)
  have h3 : Backoff.wrap64 ((tn.partition + d - 1) / d) = (tn.partition + d - 1) / d :=
    Backoff.wrap64_id (by omega) (by omega)
  have h4 : Backoff.wrap64 ((tn.partition + d - 1) / d - 1) = (tn.partition + d - 1) / d - 1 :=
    Backoff.wrap64_id (by omega) (by omega)
  simp only [qualifiedTaskListName.Parent, hroot, hd0, decide_False, Bool.or_self,
    Bool.false_eq_true, if_false, h1, h2, h3, h4]

theorem ceil_div (p d : Int) (hd : 1 ≤ d) :
    ⌈((p : ℚ) / (d : ℚ))⌉ = (p + d - 1) / d := by
  have hdq : (0 : ℚ) < (d : ℚ) := by exact_mod_cast (by omega : (0 : Int) < d)
  have h1 : d * ((p + d - 1) / d) ≤ p + d - 1 := Int.mul_ediv_self_le (by omega)
  have h2 : p + d - 1 < d * ((p + d - 1) / d) + d := Int.lt_mul_ediv_self_add (by omega)
  rw [Int.ceil_eq_iff]
  constructor
  · rw [lt_div_iff₀ hdq]
    have : ((p + d - 1) / d - 1) * d < p := by nlinarith
    exact_mod_cast this
  · rw [div_le_iff₀ hdq]
    have : p ≤ ((p + d - 1) / d) * d := by nlinarith
    exact_mod_cast this

theorem div_eq_succ_iff (p d q : Int) (hd : 1 ≤ d) :
    (p + d - 1) / d - 1 = q ↔ q * d + 1 ≤ p ∧ p ≤ q * d + d := by
  have h1 : d * ((p + d - 1) / d) ≤ p + d - 1 := Int.mul_ediv_self_le (by omega)
  have h2 : p + d - 1 < d * ((p + d - 1) / d) + d := Int.lt_mul_ediv_self_add (by omega)
  constructor
  · intro h
    have hz : (p + d - 1) / d = q + 1 := by omega
    rw [hz] at h1 h2
    constructor <;> nlinarith
  · rintro ⟨h3, h4⟩
    have hz : (p + d - 1) / d = q + 1 := by
      apply le_antisymm
      · by_contra hc
        have : q + 2 ≤ (p + d - 1) / d := by omega
        nlinarith
      · by_contra hc
        have : (p + d - 1) / d ≤ q := by omega
        nlinarith
    omega

/-- The two outcomes of `newTaskListName` on a name with the reserved prefix. -/
theorem newTaskListName_cases (name : List Char)
    (h : Strings.HasPrefix name ReservedTaskListPrefix = true) :
    (newTaskListName name = ({ name := [], baseName := [], partition := 0 }, some ⟨name⟩) ∧
      (Strings.LastIndex name '/' ≤ (ReservedTaskListPrefix.length : Int) ∨
        Strconv.Atoi (name.drop (Strings.LastIndex name '/' + 1).toNat) = none ∨
        ∃ p, Strconv.Atoi (name.drop (Strings.LastIndex name '/' + 1).toNat) = some p
          ∧ p ≤ 0)) ∨
    (∃ (base s : List Char) (p : Int), base ≠ [] ∧ '/' ∉ s ∧
      name = ReservedTaskListPrefix ++ base ++ '/' :: s ∧ Strconv.Atoi s = some p ∧ 0 < p ∧
      ¬ Strings.LastIndex name '/' ≤ (ReservedTaskListPrefix.length : Int) ∧
      name.drop (Strings.LastIndex name '/' + 1).toNat = s ∧
      (name.take (Strings.LastIndex name '/').toNat).drop ReservedTaskListPrefix.length = base ∧
      newTaskListName name = ({ name := name, baseName := base, partition := p }, none)) := by
  have key := newTaskListName_prefixed name h
  by_cases h1 : Strings.LastIndex name '/' ≤ (ReservedTaskListPrefix.length : Int)
  · left
    rw [if_pos h1] at key
    exact ⟨key, Or.inl h1⟩
  · rw [if_neg h1] at key
    obtain ⟨base, s, hb, hs, hn⟩ := form_of_prefixed name h h1
    obtain ⟨e1, e2, e4⟩ := parts_of_form base s hs
    rw [← hn] at e1 e2 e4
    have e3 : (Strings.LastIndex name '/' + 1).toNat = 15 + base.length + 1 := by
      rw [e1]
      omega
    have e5 : (Strings.LastIndex name '/').toNat = 15 + base.length := by
      rw [e1]
      omega
    rw [e3, e5, e2, ReservedTaskListPrefix_length, e4] at key
    rw [e3, e5, e2, ReservedTaskListPrefix_length, e4]
    cases h2 : Strconv.Atoi s with
    | none =>
      left
      rw [h2] at key
      exact ⟨key, Or.inr (Or.inl rfl)⟩
    | some p =>
      rw [h2] at key
      simp only at key
      by_cases h3 : p ≤ 0
      · left
        rw [if_pos h3] at key
        exact ⟨key, Or.inr (Or.inr ⟨p, rfl, h3⟩)⟩
      · right
        rw [if_neg h3] at key
        rw [← ReservedTaskListPrefix_length]
        exact ⟨base, s, p, hb, hs, hn, h2, by omega, h1, rfl, rfl, key⟩

/-- C24: for every name that does not start with the reserved prefix,
`newTaskListName` succeeds and yields the root partition: `Partition()` is 0,
`IsRoot()` is true, `GetName()`, `GetRoot()` and `GetPartition(0)` are the
name, and `Parent(d)` is the empty string for every `d`; and for every name
that `newTaskListName` accepts, `IsRoot()` holds iff the name does not start
with the reserved prefix. -/
theorem newTaskListName_root_iff (name : List Char) :
    (Strings.HasPrefix name ReservedTaskListPrefix = false →
      (newTaskListName name).2 = none ∧
      (newTaskListName name).1.Partition = 0 ∧
      (newTaskListName name).1.IsRoot = true ∧
      (newTaskListName name).1.GetName = name ∧
      (newTaskListName name).1.GetRoot = name ∧
      (newTaskListName name).1.GetPartition 0 = name ∧
      ∀ d : Int, (newTaskListName name).1.Parent d = []) ∧
    ((newTaskListName name).2 = none →
      ((newTaskListName name).1.IsRoot = true ↔
        Strings.HasPrefix name ReservedTaskListPrefix = false)) := by
  constructor
  · intro h
    rw [newTaskListName_root name h]
    refine ⟨rfl, rfl, rfl, rfl, rfl, rfl, ?_⟩
    intro d
    simp [qualifiedTaskListName.Parent, qualifiedTaskListName.IsRoot]
  · intro hs
    cases hp : Strings.HasPrefix name ReservedTaskListPrefix with
    | false =>
      rw [newTaskListName_root name hp]
      simp [qualifiedTaskListName.IsRoot]
    | true =>
      rcases newTaskListName_cases name hp with
        ⟨he, _⟩ | ⟨base, s, p, _, _, _, _, hpos, _, _, _, he⟩
      · rw [he] at hs
        cases hs
      · rw [he]
        simp only [qualifiedTaskListName.IsRoot, decide_eq_true_eq, Bool.true_eq_false,
          iff_false]
        omega

theorem newTaskListName_root_iff_witness :
    (newTaskListName "orders".toList).2 = none ∧
      (newTaskListName "orders".toList).1.Partition = 0 ∧
      (newTaskListName "orders".toList).1.IsRoot = true ∧
      (newTaskListName "orders".toList).1.GetName = "orders".toList ∧
      (newTaskListName "orders".toList).1.GetRoot = "orders".toList ∧
      (newTaskListName "orders".toList).1.GetPartition 0 = "orders".toList ∧
      ∀ d : Int, (newTaskListName "orders".toList).1.Parent d = [] :=
  (newTaskListName_root_iff "orders".toList).1 (by decide)

/-- C23: for every name that starts with the reserved prefix,
`newTaskListName` returns an error, with the zero-value name, if and only if
the last `/` lies at an index not above the length of the prefix, or the text
after the last `/` is not an integer, or that integer is not above 0, that is,
iff the name is not the prefix, a base that is not empty, `/`, and a text
that reads as a decimal integer above 0; on success the partition is that
integer and the base name the text between the prefix and the last `/`. -/
theorem newTaskListName_error_iff (name : List Char)
    (h : Strings.HasPrefix name ReservedTaskListPrefix = true) :
    ((newTaskListName name).2 ≠ none ↔
      (Strings.LastIndex name '/' ≤ (ReservedTaskListPrefix.length : Int) ∨
        Strconv.Atoi (name.drop (Strings.LastIndex name '/' + 1).toNat) = none ∨
        ∃ p, Strconv.Atoi (name.drop (Strings.LastIndex name '/' + 1).toNat) = some p
          ∧ p ≤ 0)) ∧
    ((newTaskListName name).2 ≠ none ↔
      ¬ ∃ (base s : List Char) (p : Int), base ≠ [] ∧
        name = ReservedTaskListPrefix ++ base ++ '/' :: s ∧ Strconv.Atoi s = some p ∧ 0 < p) ∧
    ((newTaskListName name).2 ≠ none →
      newTaskListName name = ({ name := [], baseName := [], partition := 0 }, some ⟨name⟩)) ∧
    ((newTaskListName name).2 = none →
      (newTaskListName name).1.GetName = name ∧
      Strconv.Atoi (name.drop (Strings.LastIndex name '/' + 1).toNat)
        = some (newTaskListName name).1.Partition ∧
      0 < (newTaskListName name).1.Partition ∧
      (newTaskListName name).1.GetRoot
        = (name.take (Strings.LastIndex name '/').toNat).drop ReservedTaskListPrefix.length ∧
      name = ReservedTaskListPrefix ++ (newTaskListName name).1.GetRoot
        ++ '/' :: name.drop (Strings.LastIndex name '/' + 1).toNat) := by
  rcases newTaskListName_cases name h with
    ⟨he, hwhy⟩ | ⟨base, s, p, hb, hs, hn, hat, hpos, hli, hdrop, htake, he⟩
  · refine ⟨?_, ?_, ?_, ?_⟩
    · rw [he]
      exact ⟨fun _ => hwhy, fun _ => by simp⟩
    · rw [he]
      refine ⟨?_, fun _ => by simp⟩
      rintro _ ⟨base, s, p, hb, hn, hs, hp⟩
      have hf := newTaskListName_form base s (Strconv.slash_not_mem_of_Atoi s p hs)
      have hp0 : ¬ p ≤ 0 := by omega
      rw [← hn, he] at hf
      simp only [hb, if_false, hs, hp0] at hf
      cases (Prod.mk.inj hf).2
    · intro _
      exact he
    · intro hok
      rw [he] at hok
      cases hok
  · have hnot : ¬ (Strings.LastIndex name '/' ≤ (ReservedTaskListPrefix.length : Int) ∨
        Strconv.Atoi (name.drop (Strings.LastIndex name '/' + 1).toNat) = none ∨
        ∃ p, Strconv.Atoi (name.drop (Strings.LastIndex name '/' + 1).toNat) = some p
          ∧ p ≤ 0) := by
      rw [hdrop, hat]
      rintro (h1 | h1 | ⟨q, h1, h2⟩)
      · exact hli h1
      · cases h1
      · cases h1
        omega
    refine ⟨?_, ?_, ?_, ?_⟩
    · rw [he]
      exact ⟨fun hc => absurd rfl hc, fun hc => absurd hc hnot⟩
    · rw [he]
      exact ⟨fun hc => absurd rfl hc, fun hc => absurd ⟨base, s, p, hb, hn, hat, hpos⟩ hc⟩
    · rw [he]
      intro hc
      exact absurd rfl hc
    · intro _
      rw [hdrop, htake, he]
      exact ⟨rfl, hat, hpos, rfl, hn⟩

theorem newTaskListName_error_iff_witness :
    ((newTaskListName "/__cadence_sys/orders/x3".toList).2 ≠ none ↔
      (Strings.LastIndex "/__cadence_sys/orders/x3".toList '/'
          ≤ (ReservedTaskListPrefix.length : Int) ∨
        Strconv.Atoi ("/__cadence_sys/orders/x3".toList.drop
          (Strings.LastIndex "/__cadence_sys/orders/x3".toList '/' + 1).toNat) = none ∨
        ∃ p, Strconv.Atoi ("/__cadence_sys/orders/x3".toList.drop
          (Strings.LastIndex "/__cadence_sys/orders/x3".toList '/' + 1).toNat) = some p
          ∧ p ≤ 0)) ∧
    (newTaskListName "/__cadence_sys/orders/x3".toList).2 ≠ none ∧
    (newTaskListName "/__cadence_sys/orders/3".toList).2 = none :=
  ⟨(newTaskListName_error_iff "/__cadence_sys/orders/x3".toList (by decide)).1,
    by decide, by decide⟩

/-- C21: for every task-list name `tn` with a base name that is not empty and
every partition number `p` from 1 on, `newTaskListName(tn.GetPartition(p))`
succeeds and yields a name whose `Partition()` is `p`, whose `GetRoot()` is
`tn.GetRoot()` and whose `GetName()` is the string `tn.GetPartition(p)`, which
is the reserved prefix, the base name, `/` and the decimal numeral of `p`. -/
theorem newTaskListName_GetPartition (tn : qualifiedTaskListName) (hb : tn.GetRoot ≠ [])
    (p : Int) (hp1 : 1 ≤ p) (hp2 : p < 2 ^ 63) :
    (newTaskListName (tn.GetPartition p)).2 = none ∧
    (newTaskListName (tn.GetPartition p)).1.Partition = p ∧
    (newTaskListName (tn.GetPartition p)).1.GetRoot = tn.GetRoot ∧
    (newTaskListName (tn.GetPartition p)).1.GetName = tn.GetPartition p ∧
    tn.GetPartition p
      = ReservedTaskListPrefix ++ tn.GetRoot ++ "/".toList ++ Strconv.Itoa p := by
  have hp0 : p ≠ 0 := by omega
  have hb2 : tn.baseName ≠ [] := hb
  have hg := GetPartition_of_ne_zero tn p hp0
  have hf := newTaskListName_form tn.baseName (Strconv.Itoa p) (Strconv.slash_not_mem_Itoa p)
  rw [Strconv.Atoi_Itoa p (by omega) hp2] at hf
  have hp3 : ¬ p ≤ 0 := by omega
  simp only [hb2, if_false, hp3] at hf
  rw [hg, hf]
  refine ⟨rfl, rfl, rfl, rfl, ?_⟩
  simp [qualifiedTaskListName.GetRoot, slash_toList]

theorem newTaskListName_GetPartition_witness :
    (newTaskListName ((newTaskListName "orders".toList).1.GetPartition 3)).2 = none ∧
    (newTaskListName ((newTaskListName "orders".toList).1.GetPartition 3)).1.Partition = 3 ∧
    (newTaskListName ((newTaskListName "orders".toList).1.GetPartition 3)).1.GetRoot
      = (newTaskListName "orders".toList).1.GetRoot ∧
    (newTaskListName ((newTaskListName "orders".toList).1.GetPartition 3)).1.GetName
      = (newTaskListName "orders".toList).1.GetPartition 3 ∧
    (newTaskListName "orders".toList).1.GetPartition 3
      = ReservedTaskListPrefix ++ (newTaskListName "orders".toList).1.GetRoot
        ++ "/".toList ++ Strconv.Itoa 3 :=
  newTaskListName_GetPartition (newTaskListName "orders".toList).1 (by decide) 3
    (by decide) (by decide)

/-- C30 (amended): for every name that `newTaskListName` accepts,
`tn.GetPartition(tn.Partition())` is `tn.GetName()` if and only if the name is
a root name or the text after its last `/` is the decimal numeral that `Itoa`
prints for the partition; and two accepted names of which this holds and that
have the same base name and partition are the same name. -/
theorem GetPartition_Partition_iff (name : List Char) (tn : qualifiedTaskListName)
    (h : newTaskListName name = (tn, none)) :
    (tn.GetPartition tn.Partition = tn.GetName ↔
      (Strings.HasPrefix name ReservedTaskListPrefix = true →
        name.drop (Strings.LastIndex name '/' + 1).toNat = Strconv.Itoa tn.Partition)) ∧
    (∀ (name2 : List Char) (tn2 : qualifiedTaskListName),
      newTaskListName name2 = (tn2, none) →
      tn.GetPartition tn.Partition = tn.GetName →
      tn2.GetPartition tn2.Partition = tn2.GetName →
      tn.GetRoot = tn2.GetRoot → tn.Partition = tn2.Partition → name = name2) := by
  constructor
  · cases hp : Strings.HasPrefix name ReservedTaskListPrefix with
    | false =>
      rw [newTaskListName_root name hp] at h
      rw [← (Prod.mk.inj h).1]
      simp [qualifiedTaskListName.GetPartition, qualifiedTaskListName.Partition,
        qualifiedTaskListName.GetName]
    | true =>
      have hname : tn.GetName = name := newTaskListName_name name tn h
      obtain ⟨hpos, hn⟩ : 0 < tn.partition ∧ name = ReservedTaskListPrefix ++ tn.baseName
          ++ '/' :: name.drop (Strings.LastIndex name '/' + 1).toNat := by
        rcases newTaskListName_cases name hp with
          ⟨he, _⟩ | ⟨base, s, p, _, _, hn0, _, hpos0, _, hdrop, _, he⟩
        · rw [he] at h
          cases (Prod.mk.inj h).2
        · rw [he] at h
          rw [← (Prod.mk.inj h).1, hdrop]
          exact ⟨hpos0, hn0⟩
      simp only [qualifiedTaskListName.Partition]
      rw [GetPartition_of_ne_zero tn tn.partition (by omega), hname]
      constructor
      · intro he _
        have h3 := List.append_cancel_left (he.trans hn)
        exact ((List.cons.inj h3).2).symm
      · intro he
        rw [← he trivial]
        exact hn.symm
  · intro name2 tn2 h2 hc1 hc2 hr hpn
    have e1 : tn.GetName = name := newTaskListName_name name tn h
    have e2 : tn2.GetName = name2 := newTaskListName_name name2 tn2 h2
    rw [← e1, ← e2, ← hc1, ← hc2]
    simp only [qualifiedTaskListName.GetRoot, qualifiedTaskListName.Partition] at hr hpn
    simp only [qualifiedTaskListName.GetPartition, qualifiedTaskListName.Partition]
    rw [hr, hpn]

theorem GetPartition_Partition_iff_witness :
    ((⟨"/__cadence_sys/orders/3".toList, "orders".toList, 3⟩ :
          qualifiedTaskListName).GetPartition 3
        = "/__cadence_sys/orders/3".toList ↔
      (Strings.HasPrefix "/__cadence_sys/orders/3".toList ReservedTaskListPrefix = true →
        "/__cadence_sys/orders/3".toList.drop
            (Strings.LastIndex "/__cadence_sys/orders/3".toList '/' + 1).toNat
          = Strconv.Itoa 3)) :=
  (GetPartition_Partition_iff "/__cadence_sys/orders/3".toList
    ⟨"/__cadence_sys/orders/3".toList, "orders".toList, 3⟩
    (by decide)).1

/-- C30, counterexample: `newTaskListName` accepts `/__cadence_sys/a/01` with
base name `a` and partition 1, and `GetPartition(1)` of it is
`/__cadence_sys/a/1`, not the name; this is another accepted name with the
same base name and partition. -/
theorem GetPartition_Partition_counterexample :
    newTaskListName "/__cadence_sys/a/01".toList
      = (⟨"/__cadence_sys/a/01".toList, "a".toList, 1⟩,
          none) ∧
    (newTaskListName "/__cadence_sys/a/01".toList).1.GetPartition
        (newTaskListName "/__cadence_sys/a/01".toList).1.Partition
      = "/__cadence_sys/a/1".toList ∧
    (newTaskListName "/__cadence_sys/a/01".toList).1.GetPartition
        (newTaskListName "/__cadence_sys/a/01".toList).1.Partition
      ≠ (newTaskListName "/__cadence_sys/a/01".toList).1.GetName ∧
    newTaskListName "/__cadence_sys/a/1".toList
      = (⟨"/__cadence_sys/a/1".toList, "a".toList, 1⟩,
          none) := by
  decide

/-- C22 (amended): `Parent` returns the empty string when the task list is the
root or the degree is 0. For a name with partition `p` from 1 on and a degree
`d` from 1 on such that `p + d - 1` is a number of `int`, `Parent(d)` returns
`GetPartition(ceil(p/d) - 1)`; this number is at least 0 and below `p`;
`Parent(d)` is the name of partition `q` exactly when `p` is one of
`q*d+1 .. q*d+d`; and the parent of the partitions `1 .. d` is the root, the
base name. -/
theorem Parent_eq (tn : qualifiedTaskListName) (d : Int) :
    ((tn.IsRoot = true ∨ d = 0) → tn.Parent d = []) ∧
    (1 ≤ tn.Partition → 1 ≤ d → tn.Partition + d - 1 < 2 ^ 63 →
      tn.Parent d = tn.GetPartition (⌈((tn.Partition : ℚ) / (d : ℚ))⌉ - 1) ∧
      0 ≤ ⌈((tn.Partition : ℚ) / (d : ℚ))⌉ - 1 ∧
      ⌈((tn.Partition : ℚ) / (d : ℚ))⌉ - 1 < tn.Partition ∧
      (∀ q : Int, 0 ≤ q → q < 2 ^ 63 →
        (tn.Parent d = tn.GetPartition q ↔
          q * d + 1 ≤ tn.Partition ∧ tn.Partition ≤ q * d + d)) ∧
      (tn.Partition ≤ d → tn.Parent d = tn.GetRoot)) := by
  constructor
  · intro h
    rcases h with h | h
    · simp [qualifiedTaskListName.Parent, h]
    · simp [qualifiedTaskListName.Parent, h]
  · intro hp hd hb
    simp only [qualifiedTaskListName.Partition] at hp hb ⊢
    have hpar := Parent_of_pos tn d hp hd hb
    have hceil := ceil_div tn.partition d hd
    have h1 : d * ((tn.partition + d - 1) / d) ≤ tn.partition + d - 1 :=
      Int.mul_ediv_self_le (by omega)
    have h2 : tn.partition + d - 1 < d * ((tn.partition + d - 1) / d) + d :=
      Int.lt_mul_ediv_self_add (by omega)
    have hge : 1 ≤ (tn.partition + d - 1) / d := by
      apply Int.le_ediv_of_mul_le (by omega)
      omega
    have hle : (tn.partition + d - 1) / d ≤ tn.partition := by
      by_contra hc
      have : tn.partition + 1 ≤ (tn.partition + d - 1) / d := by omega
      nlinarith
    rw [hceil]
    refine ⟨hpar, by omega, by omega, ?_, ?_⟩
    · intro q hq1 hq2
      rw [hpar, ← div_eq_succ_iff tn.partition d q hd]
      constructor
      · intro he
        exact GetPartition_injective tn _ _ (by omega) (by omega) (by omega) hq2 he
      · intro he
        rw [he]
    · intro hpd
      have : (tn.partition + d - 1) / d - 1 = 0 :=
        (div_eq_succ_iff tn.partition d 0 hd).2 ⟨by omega, by omega⟩
      rw [hpar, this]
      rfl

theorem Parent_eq_witness :
    (⟨"/__cadence_sys/orders/7".toList, "orders".toList, 7⟩ :
        qualifiedTaskListName).Parent 3
      = (⟨"/__cadence_sys/orders/7".toList, "orders".toList, 7⟩ :
        qualifiedTaskListName).GetPartition 2 :=
  ((((Parent_eq ⟨"/__cadence_sys/orders/7".toList, "orders".toList, 7⟩ 3).2
      (by decide) (by decide) (by decide)).2.2.2.1 2
      (by decide) (by decide)).2 ⟨by decide, by decide⟩)

/-- C22, counterexample: for the accepted name
`/__cadence_sys/a/9223372036854775807` and the degree 2 the sum
`partition + degree - 1` wraps, and `Parent(2)` is the name of the partition
`-4611686018427387905`, not that of partition `ceil(p/2) - 1`, which is
`4611686018427387903`. -/
theorem Parent_counterexample :
    newTaskListName "/__cadence_sys/a/9223372036854775807".toList
      = (⟨"/__cadence_sys/a/9223372036854775807".toList, "a".toList,
          9223372036854775807⟩, none) ∧
    (⟨"/__cadence_sys/a/9223372036854775807".toList, "a".toList, 9223372036854775807⟩ :
        qualifiedTaskListName).Parent 2
      = "/__cadence_sys/a/-4611686018427387905".toList ∧
    ⌈(((9223372036854775807 : Int) : ℚ) / ((2 : Int) : ℚ))⌉ - 1 = 4611686018427387903 ∧
    (⟨"/__cadence_sys/a/9223372036854775807".toList, "a".toList, 9223372036854775807⟩ :
        qualifiedTaskListName).Parent 2
      ≠ (⟨"/__cadence_sys/a/9223372036854775807".toList, "a".toList, 9223372036854775807⟩ :
        qualifiedTaskListName).GetPartition
          4611686018427387903 := by
  refine ⟨by decide, by decide, ?_, by decide⟩
  rw [ceil_div _ _ (by decide)]
  decide

end Tasklist

/-! ## The archive query parser -/

namespace Filestore

theorem convertCloseTime_lt (t : Int) (query : parsedQuery) :
    convertCloseTime t "<".toList query =
      (none, { query with
        latestCloseTime := min query.latestCloseTime (Backoff.wrap64 (t - 1)) }) := by
  have h1 : ¬ ("<".toList = "=".toList) := by decide
  simp only [convertCloseTime, convertCloseTimeAux, h1, if_false, if_true]

theorem convertCloseTime_le (t : Int) (query : parsedQuery) :
    convertCloseTime t "<=".toList query =
      (none, { query with latestCloseTime := min query.latestCloseTime t }) := by
  have h1 : ¬ ("<=".toList = "=".toList) := by decide
  have h2 : ¬ ("<=".toList = "<".toList) := by decide
  simp only [convertCloseTime, convertCloseTimeAux, h1, h2, if_false, if_true]

theorem convertCloseTime_gt (t : Int) (query : parsedQuery) :
    convertCloseTime t ">".toList query =
      (none, { query with
        earliestCloseTime := max query.earliestCloseTime (Backoff.wrap64 (t + 1)) }) := by
  have h1 : ¬ (">".toList = "=".toList) := by decide
  have h2 : ¬ (">".toList = "<".toList) := by decide
  have h3 : ¬ (">".toList = "<=".toList) := by decide
  simp only [convertCloseTime, convertCloseTimeAux, h1, h2, h3, if_false, if_true]

theorem convertCloseTime_ge (t : Int) (query : parsedQuery) :
    convertCloseTime t ">=".toList query =
      (none, { query with earliestCloseTime := max query.earliestCloseTime t }) := by
  have h1 : ¬ (">=".toList = "=".toList) := by decide
  have h2 : ¬ (">=".toList = "<".toList) := by decide
  have h3 : ¬ (">=".toList = "<=".toList) := by decide
  have h4 : ¬ (">=".toList = ">".toList) := by decide
  simp only [convertCloseTime, convertCloseTimeAux, h1, h2, h3, h4, if_false, if_true]

theorem convertCloseTime_eq (t : Int) (query : parsedQuery) :
    convertCloseTime t "=".toList query =
      (none, { query with
        earliestCloseTime := max query.earliestCloseTime t
        latestCloseTime := min query.latestCloseTime t }) := by
  have h1 : ¬ ("<=".toList = "=".toList) := by decide
  have h2 : ¬ ("<=".toList = "<".toList) := by decide
  have g1 : ¬ (">=".toList = "=".toList) := by decide
  have g2 : ¬ (">=".toList = "<".toList) := by decide
  have g3 : ¬ (">=".toList = "<=".toList) := by decide
  have g4 : ¬ (">=".toList = ">".toList) := by decide
  simp only [convertCloseTime, convertCloseTimeAux, h1, h2, g1, g2, g3, g4, if_false, if_true]

theorem convertCloseTime_other (t : Int) (op : List Char) (query : parsedQuery)
    (h1 : op ≠ "=".toList) (h2 : op ≠ "<".toList) (h3 : op ≠ "<=".toList)
    (h4 : op ≠ ">".toList) (h5 : op ≠ ">=".toList) :
    convertCloseTime t op query
      = (some (Error.operatorNotSupportedForCloseTime op), query) := by
  simp only [convertCloseTime, convertCloseTimeAux, h1, h2, h3, h4, h5, if_false]

/-- The flag `emptyResult` after `convertCloseTime` is the flag before. -/
theorem convertCloseTime_emptyResult (t : Int) (op : List Char) (query : parsedQuery) :
    (convertCloseTime t op query).2.emptyResult = query.emptyResult := by
  by_cases h1 : op = "=".toList
  · rw [h1, convertCloseTime_eq]
  by_cases h2 : op = "<".toList
  · rw [h2, convertCloseTime_lt]
  by_cases h3 : op = "<=".toList
  · rw [h3, convertCloseTime_le]
  by_cases h4 : op = ">".toList
  · rw [h4, convertCloseTime_gt]
  by_cases h5 : op = ">=".toList
  · rw [h5, convertCloseTime_ge]
  rw [convertCloseTime_other t op query h1 h2 h3 h4 h5]

/-- C28 (amended): for every `parsedQuery` with the close-time bounds
`[earliest, latest]` and every `int64` timestamp `t`, `convertCloseTime(t, op)`
succeeds for each of the five operators and changes the two bounds only; the
new range is the old range intersected with the filter for `=`, `<=` and `>=`
at every `t`, for `<` when `t` is not the least `int64` and for `>` when `t`
is not the greatest; `=` gives what `>=` and then `<=` give; any other
operator returns an error and leaves the query unchanged. -/
theorem convertCloseTime_bounds (t : Int) (query : parsedQuery)
    (ht1 : -2 ^ 63 ≤ t) (ht2 : t < 2 ^ 63) :
    ((convertCloseTime t "=".toList query).1 = none ∧
      ∀ x : Int, ((convertCloseTime t "=".toList query).2.earliestCloseTime ≤ x ∧
          x ≤ (convertCloseTime t "=".toList query).2.latestCloseTime) ↔
        ((query.earliestCloseTime ≤ x ∧ x ≤ query.latestCloseTime) ∧ x = t)) ∧
    ((convertCloseTime t "<".toList query).1 = none ∧
      (t ≠ -2 ^ 63 → ∀ x : Int,
        ((convertCloseTime t "<".toList query).2.earliestCloseTime ≤ x ∧
          x ≤ (convertCloseTime t "<".toList query).2.latestCloseTime) ↔
        ((query.earliestCloseTime ≤ x ∧ x ≤ query.latestCloseTime) ∧ x < t))) ∧
    ((convertCloseTime t "<=".toList query).1 = none ∧
      ∀ x : Int, ((convertCloseTime t "<=".toList query).2.earliestCloseTime ≤ x ∧
          x ≤ (convertCloseTime t "<=".toList query).2.latestCloseTime) ↔
        ((query.earliestCloseTime ≤ x ∧ x ≤ query.latestCloseTime) ∧ x ≤ t)) ∧
    ((convertCloseTime t ">".toList query).1 = none ∧
      (t ≠ 2 ^ 63 - 1 → ∀ x : Int,
        ((convertCloseTime t ">".toList query).2.earliestCloseTime ≤ x ∧
          x ≤ (convertCloseTime t ">".toList query).2.latestCloseTime) ↔
        ((query.earliestCloseTime ≤ x ∧ x ≤ query.latestCloseTime) ∧ t < x))) ∧
    ((convertCloseTime t ">=".toList query).1 = none ∧
      ∀ x : Int, ((convertCloseTime t ">=".toList query).2.earliestCloseTime ≤ x ∧
          x ≤ (convertCloseTime t ">=".toList query).2.latestCloseTime) ↔
        ((query.earliestCloseTime ≤ x ∧ x ≤ query.latestCloseTime) ∧ t ≤ x)) ∧
    convertCloseTime t "=".toList query
      = convertCloseTime t "<=".toList (convertCloseTime t ">=".toList query).2 ∧
    (∀ op : List Char, op ∈ ["=".toList, "<".toList, "<=".toList, ">".toList, ">=".toList] →
      ∀ q2 : parsedQuery, q2 = (convertCloseTime t op query).2 →
        q2 = { query with earliestCloseTime := q2.earliestCloseTime
                          latestCloseTime := q2.latestCloseTime }) ∧
    (∀ op : List Char, op ∉ ["=".toList, "<".toList, "<=".toList, ">".toList, ">=".toList] →
      convertCloseTime t op query
        = (some (Error.operatorNotSupportedForCloseTime op), query)) := by
  refine ⟨?_, ?_, ?_, ?_, ?_, ?_, ?_, ?_⟩
  · rw [convertCloseTime_eq]
    refine ⟨rfl, fun x => ?_⟩
    simp only [max_le_iff, le_min_iff]
    constructor
    · rintro ⟨⟨h1, h2⟩, h3, h4⟩
      exact ⟨⟨h1, h3⟩, le_antisymm h4 h2⟩
    · rintro ⟨⟨h1, h3⟩, h5⟩
      exact ⟨⟨h1, h5 ▸ le_refl _⟩, h3, h5 ▸ le_refl _⟩
  · rw [convertCloseTime_lt]
    refine ⟨rfl, fun hne x => ?_⟩
    rw [Backoff.wrap64_id (by omega) (by omega)]
    simp only [le_min_iff]
    constructor
    · rintro ⟨h1, h2, h3⟩
      exact ⟨⟨h1, h2⟩, by omega⟩
    · rintro ⟨⟨h1, h2⟩, h3⟩
      exact ⟨h1, h2, by omega⟩
  · rw [convertCloseTime_le]
    refine ⟨rfl, fun x => ?_⟩
    simp only [le_min_iff]
    constructor
    · rintro ⟨h1, h2, h3⟩
      exact ⟨⟨h1, h2⟩, h3⟩
    · rintro ⟨⟨h1, h2⟩, h3⟩
      exact ⟨h1, h2, h3⟩
  · rw [convertCloseTime_gt]
    refine ⟨rfl, fun hne x => ?_⟩
    rw [Backoff.wrap64_id (by omega) (by omega)]
    simp only [max_le_iff]
    constructor
    · rintro ⟨⟨h1, h2⟩, h3⟩
      exact ⟨⟨h1, h3⟩, by omega⟩
    · rintro ⟨⟨h1, h2⟩, h3⟩
      exact ⟨⟨h1, by omega⟩, h2⟩
  · rw [convertCloseTime_ge]
    refine ⟨rfl, fun x => ?_⟩
    simp only [max_le_iff]
    constructor
    · rintro ⟨⟨h1, h2⟩, h3⟩
      exact ⟨⟨h1, h3⟩, h2⟩
    · rintro ⟨⟨h1, h2⟩, h3⟩
      exact ⟨⟨h1, h3⟩, h2⟩
  · rw [convertCloseTime_eq, convertCloseTime_ge, convertCloseTime_le]
  · intro op hop q2 hq
    simp only [List.mem_cons, List.mem_singleton, List.not_mem_nil, or_false] at hop
    rcases hop with h | h | h | h | h
    · rw [h, convertCloseTime_eq] at hq
      rw [hq]
    · rw [h, convertCloseTime_lt] at hq
      rw [hq]
    · rw [h, convertCloseTime_le] at hq
      rw [hq]
    · rw [h, convertCloseTime_gt] at hq
      rw [hq]
    · rw [h, convertCloseTime_ge] at hq
      rw [hq]
  · intro op hop
    simp only [List.mem_cons, List.mem_singleton, List.not_mem_nil, or_false, not_or] at hop
    exact convertCloseTime_other t op query hop.1 hop.2.1 hop.2.2.1 hop.2.2.2.1 hop.2.2.2.2

theorem convertCloseTime_bounds_witness :
    ((convertCloseTime 5 "<".toList
          ⟨0, 10, none, none, none, none, false⟩).2.earliestCloseTime ≤ 3 ∧
        3 ≤ (convertCloseTime 5 "<".toList
          ⟨0, 10, none, none, none, none, false⟩).2.latestCloseTime) ↔
      (((0 : Int) ≤ 3 ∧ (3 : Int) ≤ 10) ∧ (3 : Int) < 5) :=
  (convertCloseTime_bounds 5 ⟨0, 10, none, none, none, none, false⟩
    (by decide) (by decide)).2.1.2 (by decide) 3

/-- C28, counterexample: with the bounds `[0, 10]`, `<` at the least `int64`
leaves the bounds `[0, 10]`, though no timestamp is below the least `int64`,
and `>` at the greatest `int64` leaves them too: `t - 1` and `t + 1` wrap. -/
theorem convertCloseTime_bounds_counterexample :
    convertCloseTime (-9223372036854775808) "<".toList
        ⟨0, 10, none, none, none, none, false⟩
      = (none, ⟨0, 10, none, none, none, none, false⟩) ∧
    ((0 : Int) ≤ 5 ∧ (5 : Int) ≤ 10 ∧ ¬ ((5 : Int) < -9223372036854775808)) ∧
    convertCloseTime 9223372036854775807 ">".toList
        ⟨0, 10, none, none, none, none, false⟩
      = (none, ⟨0, 10, none, none, none, none, false⟩) ∧
    ¬ ((9223372036854775807 : Int) < 5) := by
  decide

/-! ### The filters that take `=` only -/

theorem convertComparisonExpr_emptyResult (lib : Library) (l : Option (List Char))
    (op : List Char) (r : Option (List Char)) (query : parsedQuery)
    (h : query.emptyResult = true) :
    (convertComparisonExpr lib l op r query).2.emptyResult = true := by
  unfold convertComparisonExpr
  repeat' split
  all_goals first | exact h | rfl | (rw [convertCloseTime_emptyResult]; exact h)

/-- The flag `emptyResult`, once true, stays true. -/
theorem convertWhereExpr_emptyResult (lib : Library) (e : Expr) :
    ∀ query : parsedQuery, query.emptyResult = true →
      (convertWhereExpr lib e query).2.emptyResult = true := by
  induction e with
  | ComparisonExpr l op r =>
    intro query h
    exact convertComparisonExpr_emptyResult lib l op r query h
  | AndExpr l r ihl ihr =>
    intro query h
    have hl := ihl query h
    simp only [convertWhereExpr]
    rcases hq : convertWhereExpr lib l query with ⟨err, q1⟩
    rw [hq] at hl
    cases err with
    | some err => exact hl
    | none => exact ihr q1 hl
  | ParenExpr e ih =>
    intro query h
    simp only [convertWhereExpr]
    exact ih query h
  | Other =>
    intro query h
    exact h
  | Nil =>
    intro query h
    exact h

end Filestore

namespace Filestore

theorem convertComparisonExpr_WorkflowID (lib : Library) (op valStr : List Char)
    (query : parsedQuery) :
    convertComparisonExpr lib (some WorkflowID) op (some valStr) query =
      match extractStringValue valStr with
      | Except.error err => (some err, query)
      | Except.ok val =>
        if op ≠ "=".toList then (some (Error.onlyOperatorEq WorkflowID), query)
        else if query.workflowID ≠ none ∧ query.workflowID ≠ some val then
          (none, { query with emptyResult := true })
        else (none, { query with workflowID := some val }) := by
  simp only [convertComparisonExpr, if_true]

theorem convertComparisonExpr_RunID (lib : Library) (op valStr : List Char)
    (query : parsedQuery) :
    convertComparisonExpr lib (some RunID) op (some valStr) query =
      match extractStringValue valStr with
      | Except.error err => (some err, query)
      | Except.ok val =>
        if op ≠ "=".toList then (some (Error.onlyOperatorEq RunID), query)
        else if query.runID ≠ none ∧ query.runID ≠ some val then
          (none, { query with emptyResult := true })
        else (none, { query with runID := some val }) := by
  have h1 : ¬ (RunID = WorkflowID) := by decide
  simp only [convertComparisonExpr, h1, if_false, if_true]

theorem convertComparisonExpr_WorkflowType (lib : Library) (op valStr : List Char)
    (query : parsedQuery) :
    convertComparisonExpr lib (some WorkflowType) op (some valStr) query =
      match extractStringValue valStr with
      | Except.error err => (some err, query)
      | Except.ok val =>
        if op ≠ "=".toList then (some (Error.onlyOperatorEq WorkflowType), query)
        else if query.workflowTypeName ≠ none ∧ query.workflowTypeName ≠ some val then
          (none, { query with emptyResult := true })
        else (none, { query with workflowTypeName := some val }) := by
  have h1 : ¬ (WorkflowType = WorkflowID) := by decide
  have h2 : ¬ (WorkflowType = RunID) := by decide
  simp only [convertComparisonExpr, h1, h2, if_false, if_true]

theorem convertComparisonExpr_CloseStatus (lib : Library) (op valStr : List Char)
    (query : parsedQuery) :
    convertComparisonExpr lib (some CloseStatus) op (some valStr) query =
      if op ≠ "=".toList then (some (Error.onlyOperatorEq CloseStatus), query)
      else
        match convertStatusStr lib
            (match extractStringValue valStr with
              | Except.error _ => valStr
              | Except.ok val => val) with
        | Except.error err => (some err, query)
        | Except.ok status =>
          if query.closeStatus ≠ none ∧ query.closeStatus ≠ some status then
            (none, { query with emptyResult := true })
          else (none, { query with closeStatus := some status }) := by
  have h1 : ¬ (CloseStatus = WorkflowID) := by decide
  have h2 : ¬ (CloseStatus = RunID) := by decide
  have h3 : ¬ (CloseStatus = WorkflowType) := by decide
  simp only [convertComparisonExpr, h1, h2, h3, if_false, if_true]

/-- C29: for each of the filters `WorkflowID`, `RunID`, `WorkflowType` and
`CloseStatus` of `convertComparisonExpr`: an operator other than `=` returns
an error (and leaves the query unchanged); the first `=` filter records its
value; a later `=` filter on the same field with the same value leaves the
`parsedQuery` unchanged, and one with a different value keeps the first value,
sets `emptyResult` to true and returns no error. `emptyResult`, once true, is
true after every later expression that `convertWhereExpr` converts. -/
theorem convertComparisonExpr_equality_filters (lib : Library) (query : parsedQuery) :
    (∀ col : List Char, col ∈ [WorkflowID, RunID, WorkflowType, CloseStatus] →
      ∀ op valStr : List Char, op ≠ "=".toList →
        (convertComparisonExpr lib (some col) op (some valStr) query).1 ≠ none ∧
        (convertComparisonExpr lib (some col) op (some valStr) query).2 = query) ∧
    (∀ valStr val : List Char, extractStringValue valStr = Except.ok val →
      (query.workflowID = none →
        convertComparisonExpr lib (some WorkflowID) "=".toList (some valStr) query
          = (none, { query with workflowID := some val })) ∧
      (query.workflowID = some val →
        convertComparisonExpr lib (some WorkflowID) "=".toList (some valStr) query
          = (none, query)) ∧
      (∀ v : List Char, query.workflowID = some v → v ≠ val →
        convertComparisonExpr lib (some WorkflowID) "=".toList (some valStr) query
          = (none, { query with emptyResult := true }))) ∧
    (∀ valStr val : List Char, extractStringValue valStr = Except.ok val →
      (query.runID = none →
        convertComparisonExpr lib (some RunID) "=".toList (some valStr) query
          = (none, { query with runID := some val })) ∧
      (query.runID = some val →
        convertComparisonExpr lib (some RunID) "=".toList (some valStr) query
          = (none, query)) ∧
      (∀ v : List Char, query.runID = some v → v ≠ val →
        convertComparisonExpr lib (some RunID) "=".toList (some valStr) query
          = (none, { query with emptyResult := true }))) ∧
    (∀ valStr val : List Char, extractStringValue valStr = Except.ok val →
      (query.workflowTypeName = none →
        convertComparisonExpr lib (some WorkflowType) "=".toList (some valStr) query
          = (none, { query with workflowTypeName := some val })) ∧
      (query.workflowTypeName = some val →
        convertComparisonExpr lib (some WorkflowType) "=".toList (some valStr) query
          = (none, query)) ∧
      (∀ v : List Char, query.workflowTypeName = some v → v ≠ val →
        convertComparisonExpr lib (some WorkflowType) "=".toList (some valStr) query
          = (none, { query with emptyResult := true }))) ∧
    (∀ (valStr : List Char) (status : Int),
      convertStatusStr lib
          (match extractStringValue valStr with
            | Except.error _ => valStr
            | Except.ok val => val) = Except.ok status →
      (query.closeStatus = none →
        convertComparisonExpr lib (some CloseStatus) "=".toList (some valStr) query
          = (none, { query with closeStatus := some status })) ∧
      (query.closeStatus = some status →
        convertComparisonExpr lib (some CloseStatus) "=".toList (some valStr) query
          = (none, query)) ∧
      (∀ v : Int, query.closeStatus = some v → v ≠ status →
        convertComparisonExpr lib (some CloseStatus) "=".toList (some valStr) query
          = (none, { query with emptyResult := true }))) ∧
    (∀ e : Expr, query.emptyResult = true →
      (convertWhereExpr lib e query).2.emptyResult = true) := by
  have hop : ¬ ("=".toList ≠ "=".toList) := by simp
  refine ⟨?_, ?_, ?_, ?_, ?_, ?_⟩
  · intro col hcol op valStr hne
    simp only [List.mem_cons, List.mem_singleton, List.not_mem_nil, or_false] at hcol
    rcases hcol with h | h | h | h
    · rw [h, convertComparisonExpr_WorkflowID]
      cases extractStringValue valStr with
      | error err => exact ⟨by simp, rfl⟩
      | ok val =>
        simp only [hne, ne_eq, not_false_eq_true, if_true]
        exact ⟨by simp, True.intro⟩
    · rw [h, convertComparisonExpr_RunID]
      cases extractStringValue valStr with
      | error err => exact ⟨by simp, rfl⟩
      | ok val =>
        simp only [hne, ne_eq, not_false_eq_true, if_true]
        exact ⟨by simp, True.intro⟩
    · rw [h, convertComparisonExpr_WorkflowType]
      cases extractStringValue valStr with
      | error err => exact ⟨by simp, rfl⟩
      | ok val =>
        simp only [hne, ne_eq, not_false_eq_true, if_true]
        exact ⟨by simp, True.intro⟩
    · rw [h, convertComparisonExpr_CloseStatus]
      simp only [hne, ne_eq, not_false_eq_true, if_true]
      exact ⟨by simp, True.intro⟩
  · intro valStr val hval
    rw [convertComparisonExpr_WorkflowID, hval]
    simp only [hop, if_false]
    refine ⟨?_, ?_, ?_⟩
    · intro h
      simp [h]
    · intro h
      simp only [h, ne_eq, not_true_eq_false, and_false, if_false]
      rw [← h]
    · intro v h hv
      have : some v ≠ some val := fun e => hv (Option.some.inj e)
      simp [h, this]
  · intro valStr val hval
    rw [convertComparisonExpr_RunID, hval]
    simp only [hop, if_false]
    refine ⟨?_, ?_, ?_⟩
    · intro h
      simp [h]
    · intro h
      simp only [h, ne_eq, not_true_eq_false, and_false, if_false]
      rw [← h]
    · intro v h hv
      have : some v ≠ some val := fun e => hv (Option.some.inj e)
      simp [h, this]
  · intro valStr val hval
    rw [convertComparisonExpr_WorkflowType, hval]
    simp only [hop, if_false]
    refine ⟨?_, ?_, ?_⟩
    · intro h
      simp [h]
    · intro h
      simp only [h, ne_eq, not_true_eq_false, and_false, if_false]
      rw [← h]
    · intro v h hv
      have : some v ≠ some val := fun e => hv (Option.some.inj e)
      simp [h, this]
  · intro valStr status hst
    rw [convertComparisonExpr_CloseStatus, hst]
    simp only [hop, if_false]
    refine ⟨?_, ?_, ?_⟩
    · intro h
      simp [h]
    · intro h
      simp only [h, ne_eq, not_true_eq_false, and_false, if_false]
      rw [← h]
    · intro v h hv
      have : some v ≠ some status := fun e => hv (Option.some.inj e)
      simp [h, this]
  · intro e h
    exact convertWhereExpr_emptyResult lib e query h

theorem convertComparisonExpr_equality_filters_witness :
    convertComparisonExpr
        ⟨fun _ => none, fun s => s, fun s => s, 0, 1, 2, 3, 4, 5⟩
        (some WorkflowID) "=".toList
        (some (Char.ofNat 39 :: 'b' :: [Char.ofNat 39]))
        ⟨0, 10, some ['a'], none, none, none, false⟩
      = (none, ⟨0, 10, some ['a'], none, none, none, true⟩) :=
  ((convertComparisonExpr_equality_filters
      ⟨fun _ => none, fun s => s, fun s => s, 0, 1, 2, 3, 4, 5⟩
      ⟨0, 10, some ['a'], none, none, none, false⟩).2.1
    (Char.ofNat 39 :: 'b' :: [Char.ofNat 39]) ['b'] rfl).2.2 ['a'] rfl (by decide)

end Filestore

/-! ## The replication task ack manager -/

namespace Replication

theorem getTasksLoop_pass {R E : Type} (store : TaskStore R E) (cl : String)
    (task : ReplicationTaskInfo) (rest : List ReplicationTaskInfo) (st : LoopState R)
    (h : ∀ e, (store.Get cl task).2 = some e → e.isWarning = true) :
    getTasksLoop store cl (task :: rest) st =
      getTasksLoop store cl rest
        { replicationTasks := st.replicationTasks ++ ((store.Get cl task).1).toList
          hasMore := st.hasMore
          readLevel := task.TaskID
          calls := st.calls ++ [Call.Get cl task] } := by
  cases hg : (store.Get cl task).2 with
  | none => simp only [getTasksLoop, hg]
  | some e => simp only [getTasksLoop, hg, h e hg, if_true]

theorem getTasksLoop_fatal {R E : Type} (store : TaskStore R E) (cl : String)
    (task : ReplicationTaskInfo) (rest : List ReplicationTaskInfo) (st : LoopState R)
    (e : GetError) (h1 : (store.Get cl task).2 = some e) (h2 : e.isWarning = false) :
    getTasksLoop store cl (task :: rest) st =
      { st with hasMore := true, calls := st.calls ++ [Call.Get cl task] } := by
  simp only [getTasksLoop, h1, h2, Bool.false_eq_true, if_false]

/-- The loop over tasks that `store.Get` fails for with none but the three
kinds of error. -/
theorem getTasksLoop_append {R E : Type} (store : TaskStore R E) (cl : String)
    (pre rest : List ReplicationTaskInfo) :
    ∀ st : LoopState R,
      (∀ task ∈ pre, ∀ e, (store.Get cl task).2 = some e → e.isWarning = true) →
      getTasksLoop store cl (pre ++ rest) st =
        getTasksLoop store cl rest
          { replicationTasks :=
              st.replicationTasks ++ pre.filterMap (fun task => (store.Get cl task).1)
            hasMore := st.hasMore
            readLevel := ((pre.getLast?).map (fun task => task.TaskID)).getD st.readLevel
            calls := st.calls ++ pre.map (fun task => Call.Get cl task) } := by
  induction pre with
  | nil =>
    intro st _
    simp
  | cons task pre ih =>
    intro st h
    rw [List.cons_append, getTasksLoop_pass store cl task (pre ++ rest) st
      (h task (List.mem_cons_self _ _)),
      ih _ (fun tk htk => h tk (List.mem_cons_of_mem _ htk))]
    congr 1
    have h1 : st.replicationTasks ++ ((store.Get cl task).1).toList
          ++ pre.filterMap (fun task => (store.Get cl task).1)
        = st.replicationTasks
          ++ (task :: pre).filterMap (fun task => (store.Get cl task).1) := by
      cases hg : (store.Get cl task).1 with
      | none => simp [List.filterMap_cons, hg]
      | some r => simp [List.filterMap_cons, hg]
    have h2 : ((pre.getLast?).map (fun task => task.TaskID)).getD task.TaskID
        = (((task :: pre).getLast?).map (fun task => task.TaskID)).getD st.readLevel := by
      cases pre with
      | nil => rfl
      | cons a l =>
        rw [List.getLast?_cons_cons]
        cases hgl : (a :: l).getLast? with
        | none => simp at hgl
        | some x => rfl
    have h3 : st.calls ++ [Call.Get cl task] ++ pre.map (fun task => Call.Get cl task)
        = st.calls ++ (task :: pre).map (fun task => Call.Get cl task) := by
      simp
    simp only [h1, h2, h3]

/-- The loop uses nothing of the store but `Get`. -/
theorem getTasksLoop_congr {R E : Type} (s1 s2 : TaskStore R E) (cl : String)
    (h : s1.Get = s2.Get) (tasks : List ReplicationTaskInfo) :
    ∀ st : LoopState R, getTasksLoop s1 cl tasks st = getTasksLoop s2 cl tasks st := by
  induction tasks with
  | nil =>
    intro st
    rfl
  | cons task tasks ih =>
    intro st
    simp only [getTasksLoop, h, ih]

/-- The calls of the loop are calls of `store.Get`. -/
theorem getTasksLoop_calls {R E : Type} (store : TaskStore R E) (cl : String)
    (tasks : List ReplicationTaskInfo) :
    ∀ (st : LoopState R) (c : Call), c ∈ (getTasksLoop store cl tasks st).calls →
      c ∈ st.calls ∨ ∃ task, c = Call.Get cl task := by
  induction tasks with
  | nil =>
    intro st c hc
    exact Or.inl hc
  | cons task tasks ih =>
    intro st c hc
    have hstep : ∀ st2 : LoopState R, st2.calls = st.calls ++ [Call.Get cl task] →
        c ∈ (getTasksLoop store cl tasks st2).calls →
        c ∈ st.calls ∨ ∃ task, c = Call.Get cl task := by
      intro st2 h2 hc2
      rcases ih st2 c hc2 with h | h
      · rw [h2] at h
        rcases List.mem_append.1 h with h | h
        · exact Or.inl h
        · exact Or.inr ⟨task, by simpa using h⟩
      · exact Or.inr h
    simp only [getTasksLoop] at hc
    cases hg : (store.Get cl task).2 with
    | none =>
      rw [hg] at hc
      exact hstep _ rfl hc
    | some e =>
      rw [hg] at hc
      simp only at hc
      cases hw : e.isWarning with
      | true =>
        rw [hw] at hc
        exact hstep _ rfl hc
      | false =>
        rw [hw] at hc
        simp only [Bool.false_eq_true, if_false] at hc
        rcases List.mem_append.1 hc with h | h
        · exact Or.inl h
        · exact Or.inr ⟨task, by simpa using h⟩

/-- C25, the input at which the code leaves the claim: one task with `TaskID`
5 is read after the level 0, and `store.Get` returns for it no replication
task, with no error or with an `EntityNotExistsError`; `GetTasks` returns no
replication tasks and the `LastRetrievedMessageID` 5, which is neither the
effective `lastReadTaskID` 0 nor the `TaskID` of a task with a replication
task. -/
theorem GetTasks_readLevel_without_task :
    (GetTasks
        (⟨⟨100, fun _ => 0, fun _ _ => none⟩,
          ⟨fun _ _ => ([⟨5, 0⟩], false, none)⟩,
          ⟨fun _ _ => (none, none), fun _ _ => none⟩⟩ : TaskAckManager Nat Unit)
        (-1) "standby" 0).1
      = (some ⟨[], false, 5⟩, none) ∧
    (GetTasks
        (⟨⟨100, fun _ => 0, fun _ _ => none⟩,
          ⟨fun _ _ => ([⟨5, 0⟩], false, none)⟩,
          ⟨fun _ _ => (none, some GetError.EntityNotExistsError), fun _ _ => none⟩⟩ :
            TaskAckManager Nat Unit)
        (-1) "standby" 0).1
      = (some ⟨[], false, 5⟩, none) ∧
    effectiveLastReadTaskID
        (⟨⟨100, fun _ => 0, fun _ _ => none⟩,
          ⟨fun _ _ => ([⟨5, 0⟩], false, none)⟩,
          ⟨fun _ _ => (none, none), fun _ _ => none⟩⟩ : TaskAckManager Nat Unit)
        (-1) "standby" 0 = 0 := by
  decide

/-- C26: in `GetTasks`, whenever `reader.Read` succeeds, the call succeeds,
and `UpdateClusterReplicationLevel(pollingCluster, L)` and
`store.Ack(pollingCluster, L)` are each called exactly once, with `L` the
effective `lastReadTaskID` of the request (the argument, or the stored
replication level of the cluster when the argument is `EmptyMessageID`) and
with no other level, whatever `store.Get` returns for the tasks; what these
two calls return does not change the result. When `reader.Read` fails,
`GetTasks` returns nil and the error and calls neither. -/
theorem GetTasks_acks_request_level {R E : Type} (t : TaskAckManager R E)
    (EmptyMessageID : Int) (pollingCluster : String) (lastReadTaskID L : Int)
    (hL : L = if lastReadTaskID = EmptyMessageID
      then t.ackLevels.GetClusterReplicationLevel pollingCluster else lastReadTaskID) :
    ((t.reader.Read L t.ackLevels.GetTransferMaxReadLevel).2.2 = none →
      (∃ msgs, (GetTasks t EmptyMessageID pollingCluster lastReadTaskID).1
        = (some msgs, none)) ∧
      (GetTasks t EmptyMessageID pollingCluster lastReadTaskID).2.count
        (Call.UpdateClusterReplicationLevel pollingCluster L) = 1 ∧
      (GetTasks t EmptyMessageID pollingCluster lastReadTaskID).2.count
        (Call.Ack pollingCluster L) = 1 ∧
      (∀ (c : String) (l : Int),
        (Call.UpdateClusterReplicationLevel c l
            ∈ (GetTasks t EmptyMessageID pollingCluster lastReadTaskID).2
          ∨ Call.Ack c l ∈ (GetTasks t EmptyMessageID pollingCluster lastReadTaskID).2) →
        c = pollingCluster ∧ l = L)) ∧
    (∀ err : E, (t.reader.Read L t.ackLevels.GetTransferMaxReadLevel).2.2 = some err →
      (GetTasks t EmptyMessageID pollingCluster lastReadTaskID).1 = (none, some err) ∧
      ∀ (c : String) (l : Int),
        Call.UpdateClusterReplicationLevel c l
            ∉ (GetTasks t EmptyMessageID pollingCluster lastReadTaskID).2
          ∧ Call.Ack c l ∉ (GetTasks t EmptyMessageID pollingCluster lastReadTaskID).2) ∧
    (∀ u a : String → Int → Option E,
      GetTasks
          { t with
            ackLevels := { t.ackLevels with UpdateClusterReplicationLevel := u }
            store := { t.store with Ack := a } }
          EmptyMessageID pollingCluster lastReadTaskID
        = GetTasks t EmptyMessageID pollingCluster lastReadTaskID) := by
  have hL2 : effectiveLastReadTaskID t EmptyMessageID pollingCluster lastReadTaskID = L := by
    rw [hL]
    rfl
  refine ⟨?_, ?_, ?_⟩
  · intro hread
    have hloop := getTasksLoop_calls t.store pollingCluster
      (t.reader.Read L t.ackLevels.GetTransferMaxReadLevel).1
      { replicationTasks := [], hasMore :=
          (t.reader.Read L t.ackLevels.GetTransferMaxReadLevel).2.1,
        readLevel := L, calls := [] }
    simp only [List.not_mem_nil, false_or] at hloop
    have hU : ∀ (c : String) (l : Int), Call.UpdateClusterReplicationLevel c l ∉
        (getTasksLoop t.store pollingCluster
          (t.reader.Read L t.ackLevels.GetTransferMaxReadLevel).1
          { replicationTasks := [], hasMore :=
              (t.reader.Read L t.ackLevels.GetTransferMaxReadLevel).2.1,
            readLevel := L, calls := [] }).calls := by
      intro c l hc
      obtain ⟨task, h⟩ := hloop _ hc
      cases h
    have hA : ∀ (c : String) (l : Int), Call.Ack c l ∉
        (getTasksLoop t.store pollingCluster
          (t.reader.Read L t.ackLevels.GetTransferMaxReadLevel).1
          { replicationTasks := [], hasMore :=
              (t.reader.Read L t.ackLevels.GetTransferMaxReadLevel).2.1,
            readLevel := L, calls := [] }).calls := by
      intro c l hc
      obtain ⟨task, h⟩ := hloop _ hc
      cases h
    simp only [GetTasks, hL2, hread]
    refine ⟨⟨_, rfl⟩, ?_, ?_, ?_⟩
    · rw [List.count_append, List.count_append, List.count_eq_zero.2 (hU _ _)]
      simp
    · rw [List.count_append, List.count_append, List.count_eq_zero.2 (hA _ _)]
      simp
    · intro c l h
      simp only [List.mem_append, List.mem_cons, List.mem_singleton, List.not_mem_nil,
        or_false, reduceCtorEq, false_or, Call.UpdateClusterReplicationLevel.injEq,
        Call.Ack.injEq] at h
      rcases h with (h | h) | (h | h)
      · exact absurd h (hU c l)
      · exact h
      · exact absurd h (hA c l)
      · exact h
  · intro err hread
    simp only [GetTasks, hL2, hread]
    exact ⟨trivial, fun c l => by simp⟩
  · intro u a
    simp only [GetTasks, effectiveLastReadTaskID]
    rw [getTasksLoop_congr { t.store with Ack := a } t.store pollingCluster rfl]

theorem GetTasks_acks_request_level_witness :
    (GetTasks
        (⟨⟨100, fun _ => 7, fun _ _ => none⟩,
          ⟨fun _ _ => ([⟨8, 0⟩, ⟨9, 0⟩], false, none)⟩,
          ⟨fun _ task => if task.TaskID = 8 then (some 1, none) else (none, some GetError.Other),
            fun _ _ => none⟩⟩ : TaskAckManager Nat Unit)
        (-1) "standby" (-1)).2.count (Call.Ack "standby" 7) = 1 :=
  ((GetTasks_acks_request_level
      (⟨⟨100, fun _ => 7, fun _ _ => none⟩,
        ⟨fun _ _ => ([⟨8, 0⟩, ⟨9, 0⟩], false, none)⟩,
        ⟨fun _ task => if task.TaskID = 8 then (some 1, none) else (none, some GetError.Other),
          fun _ _ => none⟩⟩ : TaskAckManager Nat Unit)
      (-1) "standby" (-1) 7 (by decide)).1 (by decide)).2.2.1

/-- C27: in `GetTasks`, when `reader.Read` succeeds and `store.Get` fails for
the `i`-th task read with an error that is none of `BadRequestError`,
`InternalDataInconsistencyError` and `EntityNotExistsError`, while it fails
for no earlier task with such an error, the call succeeds with the
`ReplicationTasks` that are the non-nil results for the tasks `0 .. i-1` in the
order read, `HasMore` true, and as `LastRetrievedMessageID` the `TaskID` of task
`i-1`, or the effective `lastReadTaskID` when `i = 0`. When the error is one of
the three kinds and comes with no replication task, the loop goes on with the
next task, the tasks gathered unchanged. -/
theorem GetTasks_fatal_error {R E : Type} (t : TaskAckManager R E)
    (EmptyMessageID : Int) (pollingCluster : String) (lastReadTaskID L : Int)
    (tasks : List ReplicationTaskInfo) (hasMore : Bool)
    (i : Nat) (task : ReplicationTaskInfo) (err : GetError)
    (hL : L = if lastReadTaskID = EmptyMessageID
      then t.ackLevels.GetClusterReplicationLevel pollingCluster else lastReadTaskID)
    (hread : t.reader.Read L t.ackLevels.GetTransferMaxReadLevel = (tasks, hasMore, none))
    (hi : tasks[i]? = some task)
    (herr : (t.store.Get pollingCluster task).2 = some err)
    (hfatal : err.isWarning = false)
    (hbefore : ∀ (j : Nat) (tj : ReplicationTaskInfo) (e : GetError), j < i →
      tasks[j]? = some tj → (t.store.Get pollingCluster tj).2 = some e →
      e.isWarning = true) :
    (GetTasks t EmptyMessageID pollingCluster lastReadTaskID).1 =
      (some
        { ReplicationTasks :=
            (tasks.take i).filterMap (fun tj => (t.store.Get pollingCluster tj).1)
          HasMore := true
          LastRetrievedMessageID :=
            if i = 0 then L else ((tasks[i - 1]?).map (fun tj => tj.TaskID)).getD L },
        none) ∧
    (∀ (tk : ReplicationTaskInfo) (rest : List ReplicationTaskInfo) (st : LoopState R)
      (e : GetError), t.store.Get pollingCluster tk = (none, some e) → e.isWarning = true →
      getTasksLoop t.store pollingCluster (tk :: rest) st =
        getTasksLoop t.store pollingCluster rest
          { st with readLevel := tk.TaskID
                    calls := st.calls ++ [Call.Get pollingCluster tk] }) := by
  have hL2 : effectiveLastReadTaskID t EmptyMessageID pollingCluster lastReadTaskID = L := by
    rw [hL]
    rfl
  constructor
  · have hlt : i < tasks.length := by
      by_contra hc
      rw [List.getElem?_eq_none (by omega)] at hi
      cases hi
    have hsplit : tasks = tasks.take i ++ task :: tasks.drop (i + 1) := by
      have h1 : tasks.drop i = task :: tasks.drop (i + 1) := by
        rw [List.drop_eq_getElem_cons hlt]
        congr 1
        rw [List.getElem?_eq_getElem hlt] at hi
        exact Option.some.inj hi
      conv_lhs => rw [← List.take_append_drop i tasks, h1]
    have hpre : ∀ tk ∈ tasks.take i, ∀ e, (t.store.Get pollingCluster tk).2 = some e →
        e.isWarning = true := by
      intro tk htk e he
      obtain ⟨j, hj⟩ := List.mem_iff_getElem?.1 htk
      have hji : j < i := by
        by_contra hc
        rw [List.getElem?_eq_none (by rw [List.length_take]; omega)] at hj
        cases hj
      rw [List.getElem?_take_of_lt hji] at hj
      exact hbefore j tk e hji hj he
    have hlast : ((tasks.take i).getLast?.map (fun tj => tj.TaskID)).getD L
        = if i = 0 then L else ((tasks[i - 1]?).map (fun tj => tj.TaskID)).getD L := by
      by_cases h0 : i = 0
      · simp [h0]
      · rw [if_neg h0, List.getLast?_eq_getElem?, List.length_take,
          Nat.min_eq_left (by omega), List.getElem?_take_of_lt (by omega)]
    have hloop : ∀ st : LoopState R, getTasksLoop t.store pollingCluster tasks st =
        { replicationTasks := st.replicationTasks
            ++ (tasks.take i).filterMap (fun tj => (t.store.Get pollingCluster tj).1)
          hasMore := true
          readLevel := (((tasks.take i).getLast?).map (fun tj => tj.TaskID)).getD st.readLevel
          calls := st.calls ++ (tasks.take i).map (fun tj => Call.Get pollingCluster tj)
            ++ [Call.Get pollingCluster task] } := by
      intro st
      conv_lhs => rw [hsplit]
      rw [getTasksLoop_append t.store pollingCluster _ _ _ hpre,
        getTasksLoop_fatal t.store pollingCluster task _ _ err herr hfatal]
    simp only [GetTasks, hL2, hread, hloop, List.nil_append, hlast]
  · intro tk rest st e hget hw
    rw [getTasksLoop_pass t.store pollingCluster tk rest st
      (fun e2 he2 => by
        rw [hget] at he2
        cases he2
        exact hw)]
    rw [hget]
    simp

theorem GetTasks_fatal_error_witness :
    (GetTasks
        (⟨⟨100, fun _ => 7, fun _ _ => none⟩,
          ⟨fun _ _ => ([⟨8, 0⟩, ⟨9, 0⟩, ⟨10, 0⟩], false, none)⟩,
          ⟨fun _ tk => if tk.TaskID = 8 then (some 1, none) else (none, some GetError.Other),
            fun _ _ => none⟩⟩ : TaskAckManager Nat Unit)
        (-1) "standby" (-1)).1
      = (some
        { ReplicationTasks :=
            (([⟨8, 0⟩, ⟨9, 0⟩, ⟨10, 0⟩] : List ReplicationTaskInfo).take 1).filterMap
              (fun tj => ((if tj.TaskID = 8 then (some 1, none)
                else (none, some GetError.Other) : Option Nat × Option GetError)).1)
          HasMore := true
          LastRetrievedMessageID :=
            if 1 = 0 then 7
            else (((([⟨8, 0⟩, ⟨9, 0⟩, ⟨10, 0⟩] : List ReplicationTaskInfo))[1 - 1]?).map
              (fun tj => tj.TaskID)).getD 7 },
        none) :=
  (GetTasks_fatal_error
    (⟨⟨100, fun _ => 7, fun _ _ => none⟩,
      ⟨fun _ _ => ([⟨8, 0⟩, ⟨9, 0⟩, ⟨10, 0⟩], false, none)⟩,
      ⟨fun _ tk => if tk.TaskID = 8 then (some 1, none) else (none, some GetError.Other),
        fun _ _ => none⟩⟩ : TaskAckManager Nat Unit)
    (-1) "standby" (-1) 7 [⟨8, 0⟩, ⟨9, 0⟩, ⟨10, 0⟩] false 1 ⟨9, 0⟩ GetError.Other
    (by decide) rfl rfl rfl rfl
    (by
      intro j tj e hj htj he
      have hj0 : j = 0 := by omega
      subst hj0
      cases htj
      cases he)).1

end Replication
